import Mathlib

/-!
# DoubleInt_t: the integer doubler

A shallow embedding of `int128_t.hpp` and `DoubleInt_t.hpp`.

* A 64-bit limb (`int64`, a `long long`) is kept as its bit pattern, a natural
  number below `2^64`; where the source compares limbs with the built-in
  `<`, `>` the pattern is read as a two's complement number (`int64.toSigned`).
* The inline assembly is embedded instruction by instruction: every
  instruction maps the destination register and the carry flag to their new
  values.
* A method that writes through its first pointer argument returns the new
  value of that argument next to its C++ return value.
* The class template `DoubleInt_t<BaseIntT>` is a structure over a type that
  carries the interface the template uses (`BaseInt`).
-/

/-! ## x86 instructions on a `w`-bit register: `(new destination, new carry flag)` -/

/-- The instruction `add src, dst`. -/
def x86_add (w dst src : Nat) : Nat × Nat :=
  ((dst + src) % 2 ^ w, if 2 ^ w ≤ dst + src then 1 else 0)

/-- The instruction `adc src, dst` with the carry flag `cf` on entry. -/
def x86_adc (w dst src cf : Nat) : Nat × Nat :=
  ((dst + src + cf) % 2 ^ w, if 2 ^ w ≤ dst + src + cf then 1 else 0)

/-- The instruction `sbb src, dst` with the carry flag `cf` on entry. -/
def x86_sbb (w dst src cf : Nat) : Nat × Nat :=
  ((dst + 2 ^ w - src - cf) % 2 ^ w, if dst < src + cf then 1 else 0)

/-- The instruction `rcl $1, dst`: rotate left through the carry flag. -/
def x86_rcl1 (w dst cf : Nat) : Nat × Nat :=
  ((2 * dst + cf) % 2 ^ w, dst / 2 ^ (w - 1) % 2)

/-- The instruction `rcr $1, dst`: rotate right through the carry flag. -/
def x86_rcr1 (w dst cf : Nat) : Nat × Nat :=
  (dst / 2 + cf * 2 ^ (w - 1), dst % 2)

/-- The instruction `mul src` on `rax`: `(new rax, new rdx)`. -/
def x86_mul (rax src : Nat) : Nat × Nat :=
  ((rax * src) % 2 ^ 64, (rax * src) / 2 ^ 64)

/-! ## 64-bit limbs -/

/-- The value of a 64-bit pattern read as `long long`. -/
def int64.toSigned (x : Nat) : Int :=
  if x < 2 ^ 63 then (x : Int) else (x : Int) - 2 ^ 64

/-- Built-in `<` on `int64`. -/
def int64.lt (a b : Nat) : Bool := decide (int64.toSigned a < int64.toSigned b)

/-- Built-in `<=` on `int64`. -/
def int64.le (a b : Nat) : Bool := decide (int64.toSigned a ≤ int64.toSigned b)

/-- Built-in `>` on `int64`. -/
def int64.gt (a b : Nat) : Bool := int64.lt b a

/-- Built-in `>=` on `int64`. -/
def int64.ge (a b : Nat) : Bool := int64.le b a

/-- `Multiply64(&A, &B)`: `mul` leaves the low word in `*A` and returns `rdx`. -/
def Multiply64 (A B : Nat) : Nat × Nat := x86_mul A B

/-- `Add64(&A, &B, carry)`: `add carry, A; adc B, A; adc ret, ret`, with
`ret_carry` a `char` that starts at 0. Returns `(*A, ret_carry)`. -/
def Add64 (A B carry : Nat) : Nat × Nat :=
  let s1 := x86_add 64 A carry
  let s2 := x86_adc 64 s1.1 B s1.2
  let s3 := x86_adc 8 0 0 s2.2
  (s2.1, s3.1)

/-- `Sub64(&A, &B, borrow)`: `clc; cmp $0, borrow; je 0f; stc; 0: sbb B, A;
adc ret, ret`. Returns `(*A, ret_borrow)`. -/
def Sub64 (A B borrow : Nat) : Nat × Nat :=
  let cf := if borrow = 0 then 0 else 1
  let s1 := x86_sbb 64 A B cf
  let s2 := x86_adc 32 0 0 s1.2
  (s1.1, s2.1)

/-! ## Failures -/

/-- The exceptions the classes throw. -/
inductive Failure where
  | divisionByZero
  | nonZeroCarry
  | borrowNecessary
deriving DecidableEq, Repr

/-! ## `int128_t` -/

/-- The class `int128_t`: two `int64` limbs. -/
structure int128_t where
  Hi : Nat
  Lo : Nat
deriving DecidableEq, Repr

namespace int128_t

/-- The static member `size`. -/
def size : Nat := 128

/-- The constructor `int128_t(const int64 &orig)`. -/
def ofInt64 (orig : Nat) : int128_t := ⟨0, orig⟩

/-- The member `operator==`. -/
def eq (a rhs : int128_t) : Bool := a.Hi == rhs.Hi && a.Lo == rhs.Lo

/-- The member `operator!=`. -/
def ne (a rhs : int128_t) : Bool := if a.Hi == rhs.Hi && a.Lo == rhs.Lo then false else true

/-- The member `operator>=`. -/
def ge (a rhs : int128_t) : Bool :=
  int64.gt a.Hi rhs.Hi || (a.Hi == rhs.Hi && int64.ge a.Lo rhs.Lo)

/-- The member `operator<=`. -/
def le (a rhs : int128_t) : Bool :=
  int64.lt a.Hi rhs.Hi || (a.Hi == rhs.Hi && int64.le a.Lo rhs.Lo)

/-- The member `operator>`. -/
def gt (a rhs : int128_t) : Bool :=
  int64.gt a.Hi rhs.Hi || (a.Hi == rhs.Hi && int64.gt a.Lo rhs.Lo)

/-- The member `operator<`. -/
def lt (a rhs : int128_t) : Bool :=
  int64.lt a.Hi rhs.Hi || (a.Hi == rhs.Hi && int64.lt a.Lo rhs.Lo)

/-- The member `operator|=(const int64 &rhs)`. -/
def orInt64 (a : int128_t) (rhs : Nat) : int128_t := { a with Lo := a.Lo ||| rhs }

/-- The member `operator&=(const int64 &rhs)`. -/
def andInt64 (a : int128_t) (rhs : Nat) : int128_t := { a with Lo := a.Lo &&& rhs }

/-- The member `operator^=(const int64 &rhs)`. -/
def xorInt64 (a : int128_t) (rhs : Nat) : int128_t := { a with Lo := a.Lo ^^^ rhs }

/-- The member `GetLowByte`. -/
def GetLowByte (a : int128_t) : Nat := a.Lo &&& 0xFF

/-- `SubDouble(&A, B, borrow)`: `(*A, returned borrow)`. -/
def SubDouble (A B : int128_t) (borrow : Nat) : int128_t × Nat :=
  let lo := Sub64 A.Lo B.Lo borrow
  let hi := Sub64 A.Hi B.Hi lo.2
  (⟨hi.1, lo.1⟩, hi.2)

/-- `AddDouble(&A, B, carry)`: `(*A, returned carry)`. -/
def AddDouble (A B : int128_t) (carry : Nat) : int128_t × Nat :=
  let lo := Add64 A.Lo B.Lo carry
  let hi := Add64 A.Hi B.Hi lo.2
  (⟨hi.1, lo.1⟩, hi.2)

/-- `MultiplyDouble(&A, B)`: `(*A, returned overflow)`. Each line is one
statement of the source, with the variable it writes renamed. -/
def MultiplyDouble (A B : int128_t) : int128_t × int128_t :=
  let a := A.Hi
  let b := A.Lo
  let c := B.Hi
  let d := B.Lo
  let m1 := Multiply64 b d            -- y=Multiply64(&b,&d);
  let y := m1.2
  let z := m1.1                       -- z=b;
  let b := A.Lo                       -- b=A->Lo;
  let m2 := Multiply64 a d            -- x=Multiply64(&a,&d);
  let x := m2.2
  let a := m2.1
  let s1 := Add64 y a 0               -- carry=Add64(&y,&a,0);
  let y := s1.1
  let carry := s1.2
  let a := A.Hi                       -- a=A->Hi;
  let m3 := Multiply64 b c            -- xp=Multiply64(&b,&c);
  let xp := m3.2
  let b := m3.1
  let s2 := Add64 x xp carry          -- carry=Add64(&x,&xp,carry);
  let x := s2.1
  let s3 := Add64 y b 0               -- carry2=Add64(&y,&b,0);
  let y := s3.1
  let carry2 := s3.2
  let m4 := Multiply64 a c            -- w=Multiply64(&a,&c);
  let w := m4.2
  let a := m4.1
  let s4 := Add64 x a carry2          -- carry2=Add64(&x,&a,carry2);
  let x := s4.1
  let carry2 := s4.2
  let longcarry := carry2             -- int64 longcarry=carry2;
  let s5 := Add64 w longcarry carry2  -- Add64(&w,&longcarry,carry2);
  let w := s5.1
  (⟨y, z⟩, ⟨w, x⟩)

/-- `shiftright(Value, Carry_prm)`: `stc` or `clc`, then `rcr $1, Hi;
rcr $1, Lo; adc ret, ret`. Returns `(*Value, Carry_ret)`. -/
def shiftright (Value : int128_t) (Carry_prm : Nat) : int128_t × Nat :=
  let cf := if Carry_prm ≠ 0 then 1 else 0
  let hi := x86_rcr1 64 Value.Hi cf
  let lo := x86_rcr1 64 Value.Lo hi.2
  let r := x86_adc 32 0 0 lo.2
  (⟨hi.1, lo.1⟩, r.1)

/-- `shiftleft(Value, Carry_prm)`: `stc` or `clc`, then `rcl $1, Lo;
rcl $1, Hi; adc ret, ret`. Returns `(*Value, Carry_ret)`. -/
def shiftleft (Value : int128_t) (Carry_prm : Nat) : int128_t × Nat :=
  let cf := if Carry_prm ≠ 0 then 1 else 0
  let lo := x86_rcl1 64 Value.Lo cf
  let hi := x86_rcl1 64 Value.Hi lo.2
  let r := x86_adc 8 0 0 hi.2
  (⟨hi.1, lo.1⟩, r.1)

/-- One turn of the loop of `DivideDouble` on `(quotient, remainder)`. -/
def divStep (B : int128_t) (s : int128_t × int128_t) : int128_t × int128_t :=
  let q := shiftleft s.1 0            -- int hibit=shiftleft(&quotient,0);
  let r := shiftleft s.2 q.2          -- shiftleft(&remainder,hibit);
  if ge r.1 B then                    -- if (remainder>=B)
    ({ q.1 with Lo := q.1.Lo ||| 1 }, (SubDouble r.1 B 0).1)
  else (q.1, r.1)

/-- `DivideDouble(&A, B)`: `(*A, thrown failure or returned remainder)`. -/
def DivideDouble (A B : int128_t) : int128_t × Except Failure int128_t :=
  let quotient := A
  let remainder : int128_t := ⟨0, 0⟩
  if eq B (ofInt64 0) then (A, .error .divisionByZero)
  else
    let s := (divStep B)^[size] (quotient, remainder)
    (s.1, .ok s.2)

/-- The member `operator<<=`: `rhs` calls of `shiftleft(this, 0)`. -/
def shlAssign (a : int128_t) (rhs : Nat) : int128_t := (fun v => (shiftleft v 0).1)^[rhs] a

/-- The member `operator>>=`: `rhs` calls of `shiftright(this, 0)`. -/
def shrAssign (a : int128_t) (rhs : Nat) : int128_t := (fun v => (shiftright v 0).1)^[rhs] a

/-- The member `operator<<`: a copy shifted by `<<=`. -/
def shl (a : int128_t) (rhs : Nat) : int128_t := shlAssign a rhs

/-- The member `operator>>`: a copy shifted by `>>=`. -/
def shr (a : int128_t) (rhs : Nat) : int128_t := shrAssign a rhs

end int128_t

/-! ## The interface `DoubleInt_t` uses of its template argument -/

/-- The members of `BaseIntT` that the template `DoubleInt_t<BaseIntT>` calls. -/
class BaseInt (T : Type) where
  size : Nat
  ofInt64 : Nat → T
  eq : T → T → Bool
  ne : T → T → Bool
  ge : T → T → Bool
  le : T → T → Bool
  gt : T → T → Bool
  lt : T → T → Bool
  orInt64 : T → Nat → T
  andInt64 : T → Nat → T
  xorInt64 : T → Nat → T
  GetLowByte : T → Nat
  SubDouble : T → T → Nat → T × Nat
  AddDouble : T → T → Nat → T × Nat
  MultiplyDouble : T → T → T × T
  DivideDouble : T → T → T × Except Failure T
  shiftleft : T → Nat → T × Nat
  shiftright : T → Nat → T × Nat
  shlAssign : T → Nat → T
  shrAssign : T → Nat → T
  shl : T → Nat → T
  shr : T → Nat → T
  xorAssign : T → T → T
  addAssign : T → T → T

/-- The member `int128_t::operator^=(const int128_t &rhs)`:
`this->Lo^=rhs.Lo; this->Hi^=rhs.Hi`. -/
def int128_t.xorAssign (a rhs : int128_t) : int128_t :=
  { Hi := a.Hi ^^^ rhs.Hi, Lo := a.Lo ^^^ rhs.Lo }

/-- The member `int128_t::operator+=`: `AddDouble(this,rhs,0); return *this;`. -/
def int128_t.addAssign (a rhs : int128_t) : int128_t := (int128_t.AddDouble a rhs 0).1

/-- The member `int128_t::operator*=`: `MultiplyDouble(this,rhs); return *this;`. -/
def int128_t.mulAssign (a rhs : int128_t) : int128_t := (int128_t.MultiplyDouble a rhs).1

/-- The member `int128_t::operator*`: a copy multiplied by `*=`. -/
def int128_t.mul (a rhs : int128_t) : int128_t := int128_t.mulAssign a rhs

/-- The member `int128_t::operator&(const int64 &rhs)`: `tmp=*this; tmp&=rhs; return tmp;`. -/
def int128_t.bitandInt64 (a : int128_t) (rhs : Nat) : int128_t := int128_t.andInt64 a rhs

instance int128_t.instBaseInt : BaseInt int128_t where
  size := int128_t.size
  ofInt64 := int128_t.ofInt64
  eq := int128_t.eq
  ne := int128_t.ne
  ge := int128_t.ge
  le := int128_t.le
  gt := int128_t.gt
  lt := int128_t.lt
  orInt64 := int128_t.orInt64
  andInt64 := int128_t.andInt64
  xorInt64 := int128_t.xorInt64
  GetLowByte := int128_t.GetLowByte
  SubDouble := int128_t.SubDouble
  AddDouble := int128_t.AddDouble
  MultiplyDouble := int128_t.MultiplyDouble
  DivideDouble := int128_t.DivideDouble
  shiftleft := int128_t.shiftleft
  shiftright := int128_t.shiftright
  shlAssign := int128_t.shlAssign
  shrAssign := int128_t.shrAssign
  shl := int128_t.shl
  shr := int128_t.shr
  xorAssign := int128_t.xorAssign
  addAssign := int128_t.addAssign

/-! ## `DoubleInt_t<BaseIntT>` -/

/-- The class template `DoubleInt_t`: two halves of the type below. The member
`size` is `Hi.size*2` in every constructor and is kept with the type. -/
structure DoubleInt_t (BaseIntT : Type) where
  Hi : BaseIntT
  Lo : BaseIntT
deriving DecidableEq, Repr

namespace DoubleInt_t

variable {BaseIntT : Type} [BaseInt BaseIntT]

/-- The member `size`, initialised to `Hi.size*2`. -/
def size (BaseIntT : Type) [BaseInt BaseIntT] : Nat := BaseInt.size BaseIntT * 2

/-- The constructor `DoubleInt_t(const int64 &orig)`: `Hi(0), Lo(orig)`. -/
def ofInt64 (orig : Nat) : DoubleInt_t BaseIntT :=
  ⟨BaseInt.ofInt64 0, BaseInt.ofInt64 orig⟩

/-- The constructor `DoubleInt_t(const BaseIntT &orig)`: `Hi(0), Lo(orig)`. -/
def ofBase (orig : BaseIntT) : DoubleInt_t BaseIntT := ⟨BaseInt.ofInt64 0, orig⟩

/-- The member `operator==`. -/
def eq (a rhs : DoubleInt_t BaseIntT) : Bool :=
  BaseInt.eq a.Hi rhs.Hi && BaseInt.eq a.Lo rhs.Lo

/-- The member `operator!=`. -/
def ne (a rhs : DoubleInt_t BaseIntT) : Bool :=
  if BaseInt.eq a.Hi rhs.Hi && BaseInt.eq a.Lo rhs.Lo then false else true

/-- The member `operator>=`. -/
def ge (a rhs : DoubleInt_t BaseIntT) : Bool :=
  BaseInt.gt a.Hi rhs.Hi || (BaseInt.eq a.Hi rhs.Hi && BaseInt.ge a.Lo rhs.Lo)

/-- The member `operator<=`. -/
def le (a rhs : DoubleInt_t BaseIntT) : Bool :=
  BaseInt.lt a.Hi rhs.Hi || (BaseInt.eq a.Hi rhs.Hi && BaseInt.le a.Lo rhs.Lo)

/-- The member `operator>`. -/
def gt (a rhs : DoubleInt_t BaseIntT) : Bool :=
  BaseInt.gt a.Hi rhs.Hi || (BaseInt.eq a.Hi rhs.Hi && BaseInt.gt a.Lo rhs.Lo)

/-- The member `operator<`. -/
def lt (a rhs : DoubleInt_t BaseIntT) : Bool :=
  BaseInt.lt a.Hi rhs.Hi || (BaseInt.eq a.Hi rhs.Hi && BaseInt.lt a.Lo rhs.Lo)

/-- The member `operator|=(const int64 &rhs)`: `this->Lo|=rhs`. -/
def orInt64 (a : DoubleInt_t BaseIntT) (rhs : Nat) : DoubleInt_t BaseIntT :=
  { a with Lo := BaseInt.orInt64 a.Lo rhs }

/-- The member `operator&=(const int64 &rhs)`: `this->Lo&=rhs`. -/
def andInt64 (a : DoubleInt_t BaseIntT) (rhs : Nat) : DoubleInt_t BaseIntT :=
  { a with Lo := BaseInt.andInt64 a.Lo rhs }

/-- The member `operator^=(const int64 &rhs)`: `this->Lo^=rhs`. -/
def xorInt64 (a : DoubleInt_t BaseIntT) (rhs : Nat) : DoubleInt_t BaseIntT :=
  { a with Lo := BaseInt.xorInt64 a.Lo rhs }

/-- The member `GetLowByte`. -/
def GetLowByte (a : DoubleInt_t BaseIntT) : Nat := BaseInt.GetLowByte a.Lo

/-- `SubDouble(&A, B, borrow)`: `(*A, returned borrow)`. -/
def SubDouble (A B : DoubleInt_t BaseIntT) (borrow : Nat) : DoubleInt_t BaseIntT × Nat :=
  let lo := BaseInt.SubDouble A.Lo B.Lo borrow
  let hi := BaseInt.SubDouble A.Hi B.Hi lo.2
  (⟨hi.1, lo.1⟩, hi.2)

/-- `AddDouble(&A, B, carry)`: `(*A, returned carry)`. -/
def AddDouble (A B : DoubleInt_t BaseIntT) (carry : Nat) : DoubleInt_t BaseIntT × Nat :=
  let lo := BaseInt.AddDouble A.Lo B.Lo carry
  let hi := BaseInt.AddDouble A.Hi B.Hi lo.2
  (⟨hi.1, lo.1⟩, hi.2)

/-- `MultiplyDouble(&A, B)`: `(*A, returned overflow)`. Each line is one
statement of the source, with the variable it writes renamed. -/
def MultiplyDouble (A B : DoubleInt_t BaseIntT) : DoubleInt_t BaseIntT × DoubleInt_t BaseIntT :=
  let a := A.Hi
  let b := A.Lo
  let c := B.Hi
  let d := B.Lo
  let m1 := BaseInt.MultiplyDouble b d          -- y=BaseIntT::MultiplyDouble(&b,d);
  let y := m1.2
  let z := m1.1                                 -- z=b;
  let b := A.Lo                                 -- b=A->Lo;
  let m2 := BaseInt.MultiplyDouble a d          -- x=BaseIntT::MultiplyDouble(&a,d);
  let x := m2.2
  let a := m2.1
  let s1 := BaseInt.AddDouble y a 0             -- carry=BaseIntT::AddDouble(&y,a,0);
  let y := s1.1
  let carry := s1.2
  let a := A.Hi                                 -- a=A->Hi;
  let m3 := BaseInt.MultiplyDouble b c          -- xp=BaseIntT::MultiplyDouble(&b,c);
  let xp := m3.2
  let b := m3.1
  let s2 := BaseInt.AddDouble x xp carry        -- carry=BaseIntT::AddDouble(&x,xp,carry);
  let x := s2.1
  let s3 := BaseInt.AddDouble y b 0             -- carry2=BaseIntT::AddDouble(&y,b,0);
  let y := s3.1
  let carry2 := s3.2
  let m4 := BaseInt.MultiplyDouble a c          -- w=BaseIntT::MultiplyDouble(&a,c);
  let w := m4.2
  let a := m4.1
  let s4 := BaseInt.AddDouble x a carry2        -- carry2=BaseIntT::AddDouble(&x,a,carry2);
  let x := s4.1
  let carry2 := s4.2
  let longcarry : BaseIntT := BaseInt.ofInt64 carry2   -- BaseIntT longcarry=carry2;
  let s5 := BaseInt.AddDouble w longcarry carry2       -- BaseIntT::AddDouble(&w,longcarry,carry2);
  let w := s5.1
  (⟨y, z⟩, ⟨w, x⟩)

/-- `shiftright(Value, Carry_prm)`: the high half first. -/
def shiftright (Value : DoubleInt_t BaseIntT) (Carry_prm : Nat) : DoubleInt_t BaseIntT × Nat :=
  let hi := BaseInt.shiftright Value.Hi Carry_prm
  let lo := BaseInt.shiftright Value.Lo hi.2
  (⟨hi.1, lo.1⟩, lo.2)

/-- `shiftleft(Value, Carry_prm)`: the low half first. -/
def shiftleft (Value : DoubleInt_t BaseIntT) (Carry_prm : Nat) : DoubleInt_t BaseIntT × Nat :=
  let lo := BaseInt.shiftleft Value.Lo Carry_prm
  let hi := BaseInt.shiftleft Value.Hi lo.2
  (⟨hi.1, lo.1⟩, hi.2)

/-- One turn of the loop of `DivideDouble` on `(quotient, remainder)`. -/
def divStep (B : DoubleInt_t BaseIntT) (s : DoubleInt_t BaseIntT × DoubleInt_t BaseIntT) :
    DoubleInt_t BaseIntT × DoubleInt_t BaseIntT :=
  let q := shiftleft s.1 0            -- int hibit=shiftleft(&quotient,0);
  let r := shiftleft s.2 q.2          -- shiftleft(&remainder,hibit);
  if ge r.1 B then                    -- if (remainder>=B)
    ({ q.1 with Lo := BaseInt.orInt64 q.1.Lo 1 }, (SubDouble r.1 B 0).1)
  else (q.1, r.1)

/-- `DivideDouble(&A, B)`: `(*A, thrown failure or returned remainder)`. -/
def DivideDouble (A B : DoubleInt_t BaseIntT) :
    DoubleInt_t BaseIntT × Except Failure (DoubleInt_t BaseIntT) :=
  let quotient := A
  let remainder : DoubleInt_t BaseIntT := ⟨BaseInt.ofInt64 0, BaseInt.ofInt64 0⟩
  if eq B (ofInt64 0) then (A, .error .divisionByZero)
  else
    let s := (divStep B)^[size BaseIntT] (quotient, remainder)
    (s.1, .ok s.2)

/-- The member `operator<<=`: `rhs` calls of `shiftleft(this, 0)`. -/
def shlAssign (a : DoubleInt_t BaseIntT) (rhs : Nat) : DoubleInt_t BaseIntT :=
  (fun v => (shiftleft v 0).1)^[rhs] a

/-- The member `operator>>=`: `rhs` calls of `shiftright(this, 0)`. -/
def shrAssign (a : DoubleInt_t BaseIntT) (rhs : Nat) : DoubleInt_t BaseIntT :=
  (fun v => (shiftright v 0).1)^[rhs] a

/-- The member `operator*`: a copy multiplied in place. -/
def mul (a rhs : DoubleInt_t BaseIntT) : DoubleInt_t BaseIntT := (MultiplyDouble a rhs).1

/-- The member `operator*=`. -/
def mulAssign (a rhs : DoubleInt_t BaseIntT) : DoubleInt_t BaseIntT := (MultiplyDouble a rhs).1

/-- The member `operator<<`: a copy shifted by `<<=`. -/
def shl (a : DoubleInt_t BaseIntT) (rhs : Nat) : DoubleInt_t BaseIntT := shlAssign a rhs

/-- The member `operator>>`: a copy shifted by `>>=`. -/
def shr (a : DoubleInt_t BaseIntT) (rhs : Nat) : DoubleInt_t BaseIntT := shrAssign a rhs

end DoubleInt_t

/-- The member `DoubleInt_t::operator^=(const DoubleInt_t &rhs)`:
`this->Lo^=rhs.Lo; this->Hi^=rhs.Hi`. -/
def DoubleInt_t.xorAssign {BaseIntT : Type} [BaseInt BaseIntT]
    (a rhs : DoubleInt_t BaseIntT) : DoubleInt_t BaseIntT :=
  { Hi := BaseInt.xorAssign a.Hi rhs.Hi, Lo := BaseInt.xorAssign a.Lo rhs.Lo }

/-- The member `DoubleInt_t::operator+=`: `AddDouble(this,rhs,0); return *this;`. -/
def DoubleInt_t.addAssign {BaseIntT : Type} [BaseInt BaseIntT]
    (a rhs : DoubleInt_t BaseIntT) : DoubleInt_t BaseIntT := (DoubleInt_t.AddDouble a rhs 0).1

/-- The member `DoubleInt_t::operator&(const int64 &rhs)`:
`tmp=*this; tmp.Lo&=rhs; return tmp;`. -/
def DoubleInt_t.bitandInt64 {BaseIntT : Type} [BaseInt BaseIntT]
    (a : DoubleInt_t BaseIntT) (rhs : Nat) : DoubleInt_t BaseIntT :=
  { a with Lo := BaseInt.andInt64 a.Lo rhs }

instance DoubleInt_t.instBaseInt {BaseIntT : Type} [BaseInt BaseIntT] :
    BaseInt (DoubleInt_t BaseIntT) where
  size := DoubleInt_t.size BaseIntT
  ofInt64 := DoubleInt_t.ofInt64
  eq := DoubleInt_t.eq
  ne := DoubleInt_t.ne
  ge := DoubleInt_t.ge
  le := DoubleInt_t.le
  gt := DoubleInt_t.gt
  lt := DoubleInt_t.lt
  orInt64 := DoubleInt_t.orInt64
  andInt64 := DoubleInt_t.andInt64
  xorInt64 := DoubleInt_t.xorInt64
  GetLowByte := DoubleInt_t.GetLowByte
  SubDouble := DoubleInt_t.SubDouble
  AddDouble := DoubleInt_t.AddDouble
  MultiplyDouble := DoubleInt_t.MultiplyDouble
  DivideDouble := DoubleInt_t.DivideDouble
  shiftleft := DoubleInt_t.shiftleft
  shiftright := DoubleInt_t.shiftright
  shlAssign := DoubleInt_t.shlAssign
  shrAssign := DoubleInt_t.shrAssign
  shl := DoubleInt_t.shl
  shr := DoubleInt_t.shr
  xorAssign := DoubleInt_t.xorAssign
  addAssign := DoubleInt_t.addAssign

/-! ## `SignedInt_t<BaseIntT>` -/

deriving instance DecidableEq for Except

/-- The class template `SignedInt_t`: a magnitude and the `int` flag `Negative`. -/
structure SignedInt_t (BaseIntT : Type) where
  Value : BaseIntT
  Negative : Nat
deriving DecidableEq, Repr

namespace SignedInt_t

variable {BaseIntT : Type} [BaseInt BaseIntT]

/-- The constructor `SignedInt_t(const BaseIntT &orig)`: `Value(orig), Negative(0)`. -/
def ofBase (orig : BaseIntT) : SignedInt_t BaseIntT := ⟨orig, 0⟩

/-- `DivideDouble(&A, B)`: `(*A, thrown failure or returned value)`. The
unsigned division runs on `A->Value` first; when it throws, the statements
after it are not run. -/
def DivideDouble (A B : SignedInt_t BaseIntT) :
    SignedInt_t BaseIntT × Except Failure (SignedInt_t BaseIntT) :=
  let d := BaseInt.DivideDouble A.Value B.Value   -- tmp.Value=BaseIntT::DivideDouble(&A->Value,B.Value);
  let A1 : SignedInt_t BaseIntT := { A with Value := d.1 }
  match d.2 with
  | .error e => (A1, .error e)
  | .ok r =>
    let tmp : SignedInt_t BaseIntT := { Value := r, Negative := 0 }
    let A2 : SignedInt_t BaseIntT :=
      if BaseInt.eq A1.Value (BaseInt.ofInt64 0) then { A1 with Negative := 0 }
      else { A1 with Negative := A1.Negative ^^^ B.Negative }
    (A2, .ok (ofBase tmp.Value))                  -- return tmp.Value;

end SignedInt_t

/-! ## The ladder of unsigned levels -/

/-- Level `n` of the ladder: `int128_t` doubled `n` times. -/
def Level : Nat → Type
  | 0 => int128_t
  | n + 1 => DoubleInt_t (Level n)

/-- The interface of level `n`. -/
def Level.inst : (n : Nat) → BaseInt (Level n)
  | 0 => int128_t.instBaseInt
  | n + 1 => @DoubleInt_t.instBaseInt (Level n) (Level.inst n)

instance Level.instBaseInt (n : Nat) : BaseInt (Level n) := Level.inst n

/-- The width in bits of level `n`. -/
def Level.width (n : Nat) : Nat := 128 * 2 ^ n

/-- The magnitude a level value represents: `Hi * 2^(w/2) + Lo`, every limb
read as unsigned. -/
def Level.val : (n : Nat) → Level n → Nat
  | 0, (a : int128_t) => a.Hi * 2 ^ 64 + a.Lo
  | n + 1, (a : DoubleInt_t (Level n)) =>
      Level.val n a.Hi * 2 ^ Level.width n + Level.val n a.Lo

/-- Every limb of a level value is a 64-bit pattern. -/
def Level.wf : (n : Nat) → Level n → Bool
  | 0, (a : int128_t) => decide (a.Hi < 2 ^ 64) && decide (a.Lo < 2 ^ 64)
  | n + 1, (a : DoubleInt_t (Level n)) => Level.wf n a.Hi && Level.wf n a.Lo

/-- Equality of two values of level `n` is decidable. -/
def Level.decEq : (n : Nat) → DecidableEq (Level n)
  | 0 => (inferInstance : DecidableEq int128_t)
  | n + 1 =>
    haveI := Level.decEq n
    (inferInstance : DecidableEq (DoubleInt_t (Level n)))

instance Level.instDecidableEq (n : Nat) : DecidableEq (Level n) := Level.decEq n

/-! ## C strings -/

/-- The terminating character of a C string. -/
def NUL : Char := Char.ofNat 0

/-- The conversion of an `int` to `char`: the low 8 bits. -/
def toChar (i : Nat) : Char := Char.ofNat (i % 256)

/-- The C string a `char` buffer holds: the characters before the first NUL. -/
def cstr (buf : List Char) : List Char := buf.takeWhile (fun c => c != NUL)

/-- The library function `toupper` in the "C" locale. -/
def toupper (c : Char) : Char :=
  if 'a' ≤ c ∧ c ≤ 'z' then Char.ofNat (c.toNat - ('a'.toNat - 'A'.toNat)) else c

/-! ## `int128_t::AsString` -/

namespace int128_t

/-- Four calls of `shiftright(&tmp,0)`. -/
def shiftright4 (tmp : int128_t) : int128_t :=
  (shiftright (shiftright (shiftright (shiftright tmp 0).1 0).1 0).1 0).1

/-- The loop of `AsString` case 'X'/'x' with `x + 1 = k` on entry: the buffer
entries `temp[0] .. temp[k-1]` it writes. -/
def asStringHexLoop : Nat → int128_t → List Char
  | 0, _ => []
  | k + 1, tmp =>
    let t := tmp.Lo &&& 0xF                       -- temp[x]=(tmp.Lo)&0xF;
    let c := if t > 0x9 then toChar (t + ('A'.toNat - 10)) else toChar (t + '0'.toNat)
    asStringHexLoop k (shiftright4 tmp) ++ [c]

/-- `AsString(format)`. In the cases 'X' and 'x' the buffer is filled and
terminated; in every other case the source copies the buffer without having
written it, and no text is modelled (`none`). -/
def AsString (self : int128_t) (format : String) : Option String :=
  let f := (cstr format.toList).getD 1 NUL        -- format[1]
  if f = 'X' ∨ f = 'x' then
    let tmp := self
    let temp := asStringHexLoop (size >>> 2) tmp ++ [NUL]   -- temp[(tmp.size>>2)]=0;
    some (String.mk (cstr temp))                  -- ret=temp;
  else none

end int128_t

/-! ## `DoubleInt_t::AsString` and `DoubleInt_t::FromString` -/

namespace DoubleInt_t

variable {BaseIntT : Type} [BaseInt BaseIntT]

/-- Four calls of `shiftright(&tmp,0)`. -/
def shiftright4 (tmp : DoubleInt_t BaseIntT) : DoubleInt_t BaseIntT :=
  (shiftright (shiftright (shiftright (shiftright tmp 0).1 0).1 0).1 0).1

/-- Four calls of `shiftleft(this,0)`. -/
def shiftleft4 (v : DoubleInt_t BaseIntT) : DoubleInt_t BaseIntT :=
  (shiftleft (shiftleft (shiftleft (shiftleft v 0).1 0).1 0).1 0).1

/-- The loop `while (tmp!=0)` of `AsString` case 'd' on `(tmp, ret)`; `none`
when the loop has not ended after `fuel` tests of its condition. -/
def asStringDecLoop :
    Nat → DoubleInt_t BaseIntT → List Char → Option (Except Failure (List Char))
  | 0, _, _ => none
  | fuel + 1, tmp, ret =>
    if ne tmp (ofInt64 0) then
      let d := DivideDouble tmp (ofInt64 10)      -- remainder=DivideDouble(&tmp,DoubleInt_t(10));
      match d.2 with
      | .error e => some (.error e)
      | .ok remainder =>
        let temp := [toChar (GetLowByte remainder + '0'.toNat), NUL]
        asStringDecLoop fuel d.1 (cstr temp ++ ret)   -- ret.insert(0,string(temp));
    else some (.ok ret)

/-- The loop of `AsString` case 'b' with `tmp.size - x = k` on entry: the buffer
entries `temp[x] .. temp[tmp.size-1]` it writes. In C, `&` binds weaker than
`+`, so the mask of `tmp.GetLowByte()&0x01+'0'` is `0x01+'0'`. -/
def asStringBinLoop : Nat → DoubleInt_t BaseIntT → List Char
  | 0, _ => []
  | k + 1, tmp =>
    toChar (GetLowByte tmp &&& (0x01 + '0'.toNat)) :: asStringBinLoop k (shiftright tmp 0).1

/-- The loop of `AsString` case 'X'/'x' with `x + 1 = k` on entry: the buffer
entries `temp[0] .. temp[k-1]` it writes. -/
def asStringHexLoop : Nat → DoubleInt_t BaseIntT → List Char
  | 0, _ => []
  | k + 1, tmp =>
    let t := BaseInt.GetLowByte tmp.Lo &&& 0xF    -- temp[x]=(tmp.Lo).GetLowByte()&0xF;
    let c := if t > 0x9 then toChar (t + ('A'.toNat - 10)) else toChar (t + '0'.toNat)
    asStringHexLoop k (shiftright4 tmp) ++ [c]

/-- `AsString(format)`: `none` when the loop of case 'd' has not ended within
`fuel` tests, otherwise the thrown failure or the returned text. -/
def AsString (fuel : Nat) (self : DoubleInt_t BaseIntT) (format : String) :
    Option (Except Failure String) :=
  let f := (cstr format.toList).getD 1 NUL        -- format[1]
  if f = 'd' then
    let tmp := self
    if eq tmp (ofInt64 0) then some (.ok "0")
    else (asStringDecLoop fuel tmp []).map (fun r => r.map String.mk)
  else if f = 'b' then
    let tmp := self
    let temp := asStringBinLoop (size BaseIntT) tmp ++ [NUL]   -- temp[tmp.size]='\0';
    some (.ok (String.mk (cstr temp)))            -- ret=temp;
  else if f = 'X' ∨ f = 'x' then
    let tmp := self
    let temp := asStringHexLoop (size BaseIntT >>> 2) tmp ++ [NUL]   -- temp[(tmp.size>>2)]=0;
    some (.ok (String.mk (cstr temp)))            -- ret=temp;
  else some (.ok "")

/-- The first loop of `FromString` on the text from `Source_prm[start]` on:
`(base, the text from the final start on)`. -/
def fromStringStart : List Char → Nat × List Char
  | [] => (10, [])
  | c :: cs =>
    if c = '0' then
      if cs.headD NUL = 'x' then (16, cs.tail) else (10, c :: cs)
    else if '0' ≤ c ∧ c ≤ '9' then (10, c :: cs)
    else fromStringStart cs

/-- The base 10 loop of `FromString` on the text from `Source_prm[start]` on. -/
def fromStringDec : List Char → DoubleInt_t BaseIntT → DoubleInt_t BaseIntT
  | [], v => v
  | c :: cs, v =>
    if c ≤ '9' ∧ '0' ≤ c then
      let tmp := c.toNat - '0'.toNat                      -- char tmp=Source_prm[start]-'0';
      let v := (MultiplyDouble v (ofInt64 10)).1          -- MultiplyDouble(this,multconst);
      let v := (AddDouble v (ofInt64 tmp) 0).1            -- AddDouble(this,DoubleInt_t(tmp),0);
      fromStringDec cs v
    else v

/-- The base 16 loop of `FromString` on the text from `Source_prm[start]` on. -/
def fromStringHex : List Char → DoubleInt_t BaseIntT → DoubleInt_t BaseIntT
  | [], v => v
  | c :: cs, v =>
    let upper := toupper c
    if (upper ≤ '9' ∧ '0' ≤ upper) ∨ ('A' ≤ upper ∧ upper ≤ 'F') then
      let tmp := if upper ≤ '9' then upper.toNat - '0'.toNat else upper.toNat - 'A'.toNat
      let v := shiftleft4 v
      let v := { v with Lo := BaseInt.orInt64 v.Lo tmp }  -- Lo|=int64(tmp);
      fromStringHex cs v
    else v

/-- `FromString(Source_prm)`: the value of `*this` after the call. `Hi=Lo=0`
comes first, so the value before the call is not read. -/
def FromString (Source_prm : String) : DoubleInt_t BaseIntT :=
  let zero : DoubleInt_t BaseIntT := ⟨BaseInt.ofInt64 0, BaseInt.ofInt64 0⟩   -- Hi=Lo=0;
  let s := fromStringStart (cstr Source_prm.toList)
  if s.1 = 10 then fromStringDec s.2 zero else fromStringHex s.2 zero

end DoubleInt_t

/-! ## `SignedInt_t` arithmetic -/

namespace SignedInt_t

variable {BaseIntT : Type} [BaseInt BaseIntT]

/-- `AddDouble(&A, B, carry)`: `(*A, thrown failure or returned carry)`. -/
def AddDouble (A B : SignedInt_t BaseIntT) (carry : Nat) :
    SignedInt_t BaseIntT × Except Failure Nat :=
  if carry ≠ 0 then (A, .error .nonZeroCarry)
  else if A.Negative = B.Negative then
    let r := BaseInt.AddDouble A.Value B.Value carry
    ({ A with Value := r.1 }, .ok r.2)
  else if BaseInt.gt A.Value B.Value then
    let r := BaseInt.SubDouble A.Value B.Value 0
    if r.2 ≠ 0 then ({ A with Value := r.1 }, .error .borrowNecessary)
    else ({ A with Value := r.1 }, .ok 0)
  else if BaseInt.eq A.Value B.Value then
    ({ Value := BaseInt.ofInt64 0, Negative := 0 }, .ok 0)
  else
    let tmp := A.Value                            -- BaseIntT tmp=A->Value;
    let r := BaseInt.SubDouble B.Value tmp 0      -- A->Value=B.Value; SubDouble(&A->Value,tmp,0)
    if r.2 ≠ 0 then ({ A with Value := r.1 }, .error .borrowNecessary)
    else ({ Value := r.1, Negative := B.Negative }, .ok 0)

/-- `SubDouble(&A, B, borrow)`: `A->Negative^=1; return AddDouble(A,B,0);`. -/
def SubDouble (A B : SignedInt_t BaseIntT) (_borrow : Nat) :
    SignedInt_t BaseIntT × Except Failure Nat :=
  AddDouble { A with Negative := A.Negative ^^^ 1 } B 0

/-- `MultiplyDouble(&A, B)`: the value of `*A` after the call. The body has no
`return` statement, so no returned value is modelled. -/
def MultiplyDouble (A B : SignedInt_t BaseIntT) : SignedInt_t BaseIntT :=
  let m := BaseInt.MultiplyDouble A.Value B.Value   -- BaseIntT::MultiplyDouble(&A->Value,B.Value);
  if BaseInt.eq m.1 (BaseInt.ofInt64 0) then { Value := m.1, Negative := 0 }
  else { Value := m.1, Negative := A.Negative ^^^ B.Negative }

end SignedInt_t

/-! ## Numerals, as the specification words them -/

/-- The upper-case hexadecimal digit of `d`: '0'-'9' for 0-9, 'A'-'F' for 10-15. -/
def hexDigitUpper (d : Nat) : Char :=
  if d < 10 then Char.ofNat ('0'.toNat + d) else Char.ofNat ('A'.toNat + (d - 10))

/-- The zero-padded big-endian base-16 numeral of `v` with `k` digits: the `i`-th
character from the left is the digit of nibble number `k - 1 - i`. -/
def hexNumeral (k v : Nat) : List Char :=
  (List.range k).map (fun i => hexDigitUpper (v / 16 ^ (k - 1 - i) % 16))

/-- The loop body of `DivideDouble` at level `n`. -/
def Level.divStep : (n : Nat) → Level n → Level n × Level n → Level n × Level n
  | 0, B, s => int128_t.divStep B s
  | _ + 1, B, s => DoubleInt_t.divStep B s

/-! ## `SignedInt_t` comparisons, shifts and `FromString` -/

namespace SignedInt_t

variable {BaseIntT : Type} [BaseInt BaseIntT]

/-- The member `operator==`. -/
def eq (a rhs : SignedInt_t BaseIntT) : Bool :=
  BaseInt.eq a.Value rhs.Value && a.Negative == rhs.Negative

/-- The member `operator!=`. -/
def ne (a rhs : SignedInt_t BaseIntT) : Bool :=
  if BaseInt.eq a.Value rhs.Value && a.Negative == rhs.Negative then false else true

/-- The member `operator>=`. -/
def ge (a rhs : SignedInt_t BaseIntT) : Bool :=
  if a.Negative == 1 && rhs.Negative == 1 then
    (if BaseInt.le a.Value rhs.Value then true else false)
  else if a.Negative == 0 && rhs.Negative == 0 then
    (if BaseInt.ge a.Value rhs.Value then true else false)
  else if a.Negative == 1 then false
  else true

/-- The member `operator<=`. -/
def le (a rhs : SignedInt_t BaseIntT) : Bool :=
  if eq a rhs then true else if ge a rhs then false else true

/-- The member `operator>`. -/
def gt (a rhs : SignedInt_t BaseIntT) : Bool :=
  if eq a rhs then false else ge a rhs

/-- The member `operator<`. -/
def lt (a rhs : SignedInt_t BaseIntT) : Bool :=
  if eq a rhs then false else !(ge a rhs)

/-- The member `operator>>=`: `Value>>=rhs`. -/
def shrAssign (a : SignedInt_t BaseIntT) (rhs : Nat) : SignedInt_t BaseIntT :=
  { a with Value := BaseInt.shrAssign a.Value rhs }

/-- The member `operator<<=`: `Value<<=rhs`. -/
def shlAssign (a : SignedInt_t BaseIntT) (rhs : Nat) : SignedInt_t BaseIntT :=
  { a with Value := BaseInt.shlAssign a.Value rhs }

/-- The member `operator&=(const int64 &rhs)`: `Value&=rhs`. -/
def andInt64 (a : SignedInt_t BaseIntT) (rhs : Nat) : SignedInt_t BaseIntT :=
  { a with Value := BaseInt.andInt64 a.Value rhs }

/-- The loop of `FromString` on the text from `Source_prm[start]` on, with the
current `Negative`: the text at the `break` (`none` when the loop ends at the
terminator) and the final `Negative`. -/
def fromStringScan : List Char → Nat → Option (List Char) × Nat
  | [], neg => (none, neg)
  | c :: cs, neg =>
    if c = '0' ∧ cs.headD NUL = 'x' then (some (c :: cs), neg)
    else if '0' ≤ c ∧ c ≤ '9' then (some (c :: cs), neg)
    else fromStringScan cs (if c = '-' then 1 else neg)

/-- `FromString(Source_prm)` over a `DoubleInt_t`: the value of `*this` after the
call. `Value` is written by `Value.FromString` at the `break` or by `Value=0`
after the loop, so the value before the call is not read. -/
def FromString (Source_prm : String) : SignedInt_t (DoubleInt_t BaseIntT) :=
  let s := fromStringScan (cstr Source_prm.toList) 0      -- Negative=0;
  match s.1 with
  | some text => { Value := DoubleInt_t.FromString (String.mk text), Negative := s.2 }
  | none => { Value := DoubleInt_t.ofInt64 0, Negative := s.2 }   -- Value=0;

end SignedInt_t

/-- The integer a signed value stands for: the magnitude, negated when
`Negative` is 1. -/
def SignedInt_t.toInt (n : Nat) (a : SignedInt_t (Level n)) : Int :=
  if a.Negative = 1 then -(Level.val n a.Value : Int) else (Level.val n a.Value : Int)

/-! ## The word division `Divide64` -/

/-- The instruction `div src` on 64-bit operands: `rdx:rax` is divided by
`src`, the quotient goes to `rax` and the remainder to `rdx`. The processor
raises the divide error when `src` is zero or the quotient does not fit
`rax`; that is `none`. -/
def x86_div (rax rdx src : Nat) : Option (Nat × Nat) :=
  if src = 0 ∨ 2 ^ 64 ≤ (rdx * 2 ^ 64 + rax) / src then none
  else some ((rdx * 2 ^ 64 + rax) / src, (rdx * 2 ^ 64 + rax) % src)

/-- The ways `Divide64` does not return: the two `throw`s of its body and
the divide error of the `div` instruction. -/
inductive Divide64Failure where
  | divideByZero   -- throw "Divide by zero"
  | underflow      -- throw "Underflow"
  | divideError    -- the processor's divide error on `div`
deriving DecidableEq, Repr

/-- `Divide64(&A, &B, &C)`: `(*A, returned remainder)`. The two tests are on
`int64`, so `*B>*C` reads both words as signed. -/
def Divide64 (A B C : Nat) : Except Divide64Failure (Nat × Nat) :=
  if C = 0 then .error .divideByZero            -- if (*C==0) throw "Divide by zero";
  else if int64.gt B C then .error .underflow   -- if (*B>*C) throw "Underflow";
  else
    match x86_div A B C with                    -- div %4  ("a"(*A), "d"(*B), "r"(*C))
    | none => .error .divideError
    | some r => .ok r

/-! ## The constructor `SignedInt_t(const int64 &orig)` -/

/-- The constructor `SignedInt_t(const int64 &orig)`:
`Value(orig),Negative(0) { if (orig<0) { Negative=1; Value^=BaseIntT(-1); Value+=BaseIntT(1);}}`.
The argument is the bit pattern of `orig`; `BaseIntT(-1)` goes through the
`int64` constructor, whose argument has the pattern `2^64 - 1`. -/
def SignedInt_t.ofInt64 {BaseIntT : Type} [BaseInt BaseIntT] (orig : Nat) :
    SignedInt_t BaseIntT :=
  let s : SignedInt_t BaseIntT := { Value := BaseInt.ofInt64 orig, Negative := 0 }
  if int64.lt orig 0 then
    let v1 := BaseInt.xorAssign s.Value (BaseInt.ofInt64 (2 ^ 64 - 1))   -- Value^=BaseIntT(-1);
    let v2 := BaseInt.addAssign v1 (BaseInt.ofInt64 1)                   -- Value+=BaseIntT(1);
    { Value := v2, Negative := 1 }
  else s

/-! ## The order the comparisons realise -/

/-- The place of a 64-bit pattern in the order of `long long`: its signed
reading moved up by `2^63`. -/
def int64.rank (x : Nat) : Nat := (x + 2 ^ 63) % 2 ^ 64

/-- The place of a value of level `n` in the order its comparison operators
realise: the limbs ranked as `long long`, the higher limb first. -/
def Level.rank : (n : Nat) → Level n → Nat
  | 0, a => int64.rank a.Hi * 2 ^ 64 + int64.rank a.Lo
  | n + 1, a => Level.rank n a.Hi * 2 ^ Level.width n + Level.rank n a.Lo

/-! ## Facts about the ladder -/

theorem Level.width_succ (n : Nat) : Level.width (n + 1) = 2 * Level.width n := by
  unfold Level.width; rw [pow_succ]; ring

theorem Level.two_pow_width_succ (n : Nat) :
    2 ^ Level.width (n + 1) = 2 ^ Level.width n * 2 ^ Level.width n := by
  rw [Level.width_succ, two_mul, pow_add]

theorem Level.width_pos (n : Nat) : 0 < Level.width n := by
  unfold Level.width; positivity

theorem Level.val_lt : ∀ (n : Nat) (a : Level n), Level.wf n a = true →
    Level.val n a < 2 ^ Level.width n
  | 0, a, h => by
    obtain ⟨hi, lo⟩ := a
    simp only [Level.wf, Bool.and_eq_true, decide_eq_true_eq] at h
    simp only [Level.val, Level.width]
    omega
  | n + 1, a, h => by
    obtain ⟨hi, lo⟩ := a
    simp only [Level.wf, Bool.and_eq_true] at h
    have h1 := Level.val_lt n hi h.1
    have h2 := Level.val_lt n lo h.2
    simp only [Level.val]
    rw [Level.two_pow_width_succ]
    nlinarith

/-! ## Word primitives -/

theorem Sub64_eq (A B borrow : Nat) (hA : A < 2 ^ 64) (hB : B < 2 ^ 64) (hb : borrow ≤ 1) :
    (Sub64 A B borrow).1 < 2 ^ 64 ∧ (Sub64 A B borrow).2 ≤ 1 ∧
    (Sub64 A B borrow).1 + B + borrow = A + 2 ^ 64 * (Sub64 A B borrow).2 := by
  unfold Sub64 x86_sbb x86_adc
  have hb' : borrow = 0 ∨ borrow = 1 := by omega
  rcases hb' with rfl | rfl <;> simp <;> split <;> omega

theorem x86_rcl1_eq (dst cf : Nat) (hd : dst < 2 ^ 64) (hc : cf ≤ 1) :
    (x86_rcl1 64 dst cf).1 < 2 ^ 64 ∧ (x86_rcl1 64 dst cf).2 ≤ 1 ∧
    (x86_rcl1 64 dst cf).1 + 2 ^ 64 * (x86_rcl1 64 dst cf).2 = 2 * dst + cf := by
  unfold x86_rcl1
  simp only [Nat.add_one_sub_one, Nat.reducePow, Nat.reduceSub]
  omega

theorem x86_rcr1_eq (dst cf : Nat) (hd : dst < 2 ^ 64) (hc : cf ≤ 1) :
    (x86_rcr1 64 dst cf).1 < 2 ^ 64 ∧ (x86_rcr1 64 dst cf).2 ≤ 1 ∧
    2 * (x86_rcr1 64 dst cf).1 + (x86_rcr1 64 dst cf).2 = dst + cf * 2 ^ 64 := by
  unfold x86_rcr1
  simp only [Nat.reducePow, Nat.reduceSub]
  omega

/-! ## Subtraction and the one-bit shifts at every level -/

theorem Level.SubDouble_eq : ∀ (n : Nat) (a b : Level n) (bin : Nat),
    Level.wf n a = true → Level.wf n b = true → bin ≤ 1 →
    Level.wf n (BaseInt.SubDouble a b bin).1 = true ∧ (BaseInt.SubDouble a b bin).2 ≤ 1 ∧
    Level.val n (BaseInt.SubDouble a b bin).1 + Level.val n b + bin
      = Level.val n a + 2 ^ Level.width n * (BaseInt.SubDouble a b bin).2
  | 0, a, b, bin, ha, hb, hbin => by
    obtain ⟨ah, al⟩ := a
    obtain ⟨bh, bl⟩ := b
    simp only [Level.wf, Bool.and_eq_true, decide_eq_true_eq] at ha hb
    show Level.wf 0 (int128_t.SubDouble ⟨ah, al⟩ ⟨bh, bl⟩ bin).1 = true ∧
      (int128_t.SubDouble ⟨ah, al⟩ ⟨bh, bl⟩ bin).2 ≤ 1 ∧
      Level.val 0 (int128_t.SubDouble ⟨ah, al⟩ ⟨bh, bl⟩ bin).1 + Level.val 0 ⟨bh, bl⟩ + bin
        = Level.val 0 ⟨ah, al⟩ + 2 ^ Level.width 0 * (int128_t.SubDouble ⟨ah, al⟩ ⟨bh, bl⟩ bin).2
    obtain ⟨l1, l2, l3⟩ := Sub64_eq al bl bin ha.2 hb.2 hbin
    obtain ⟨h1, h2, h3⟩ := Sub64_eq ah bh (Sub64 al bl bin).2 ha.1 hb.1 l2
    simp only [int128_t.SubDouble, Level.wf, Level.val, Level.width, Bool.and_eq_true,
      decide_eq_true_eq]
    refine ⟨⟨h1, l1⟩, h2, ?_⟩
    omega
  | n + 1, a, b, bin, ha, hb, hbin => by
    obtain ⟨ah, al⟩ := a
    obtain ⟨bh, bl⟩ := b
    simp only [Level.wf, Bool.and_eq_true] at ha hb
    obtain ⟨l1, l2, l3⟩ := Level.SubDouble_eq n al bl bin ha.2 hb.2 hbin
    obtain ⟨h1, h2, h3⟩ :=
      Level.SubDouble_eq n ah bh (BaseInt.SubDouble al bl bin).2 ha.1 hb.1 l2
    show Level.wf (n + 1) (DoubleInt_t.SubDouble ⟨ah, al⟩ ⟨bh, bl⟩ bin).1 = true ∧
      (DoubleInt_t.SubDouble ⟨ah, al⟩ ⟨bh, bl⟩ bin).2 ≤ 1 ∧
      Level.val (n + 1) (DoubleInt_t.SubDouble ⟨ah, al⟩ ⟨bh, bl⟩ bin).1
          + Level.val (n + 1) ⟨bh, bl⟩ + bin
        = Level.val (n + 1) ⟨ah, al⟩
          + 2 ^ Level.width (n + 1) * (DoubleInt_t.SubDouble ⟨ah, al⟩ ⟨bh, bl⟩ bin).2
    simp only [DoubleInt_t.SubDouble, Level.wf, Level.val, Bool.and_eq_true]
    refine ⟨⟨h1, l1⟩, h2, ?_⟩
    rw [Level.two_pow_width_succ]
    generalize 2 ^ Level.width n = W at *
    generalize Level.val n (BaseInt.SubDouble ah bh (BaseInt.SubDouble al bl bin).2).1 = rh at *
    generalize (BaseInt.SubDouble ah bh (BaseInt.SubDouble al bl bin).2).2 = c2 at *
    generalize Level.val n (BaseInt.SubDouble al bl bin).1 = rl at *
    generalize (BaseInt.SubDouble al bl bin).2 = c1 at *
    calc rh * W + rl + (Level.val n bh * W + Level.val n bl) + bin
        = (rh + Level.val n bh) * W + (rl + Level.val n bl + bin) := by ring
      _ = (rh + Level.val n bh + c1) * W + Level.val n al := by rw [l3]; ring
      _ = (Level.val n ah + W * c2) * W + Level.val n al := by rw [h3]
      _ = Level.val n ah * W + Level.val n al + W * W * c2 := by ring

theorem Level.shiftleft_eq : ∀ (n : Nat) (v : Level n) (c : Nat),
    Level.wf n v = true → c ≤ 1 →
    Level.wf n (BaseInt.shiftleft v c).1 = true ∧ (BaseInt.shiftleft v c).2 ≤ 1 ∧
    Level.val n (BaseInt.shiftleft v c).1 + 2 ^ Level.width n * (BaseInt.shiftleft v c).2
      = 2 * Level.val n v + c
  | 0, v, c, hv, hc => by
    obtain ⟨vh, vl⟩ := v
    simp only [Level.wf, Bool.and_eq_true, decide_eq_true_eq] at hv
    show Level.wf 0 (int128_t.shiftleft ⟨vh, vl⟩ c).1 = true ∧
      (int128_t.shiftleft ⟨vh, vl⟩ c).2 ≤ 1 ∧
      Level.val 0 (int128_t.shiftleft ⟨vh, vl⟩ c).1
          + 2 ^ Level.width 0 * (int128_t.shiftleft ⟨vh, vl⟩ c).2
        = 2 * Level.val 0 ⟨vh, vl⟩ + c
    have hcf : (if c ≠ 0 then 1 else 0) = c := by
      have : c = 0 ∨ c = 1 := by omega
      rcases this with rfl | rfl <;> simp
    obtain ⟨l1, l2, l3⟩ := x86_rcl1_eq vl c hv.2 hc
    obtain ⟨h1, h2, h3⟩ := x86_rcl1_eq vh (x86_rcl1 64 vl c).2 hv.1 l2
    simp only [int128_t.shiftleft, hcf, x86_adc, Level.wf, Level.val, Level.width,
      Bool.and_eq_true, decide_eq_true_eq]
    refine ⟨⟨h1, l1⟩, ?_, ?_⟩ <;> omega
  | n + 1, v, c, hv, hc => by
    obtain ⟨vh, vl⟩ := v
    simp only [Level.wf, Bool.and_eq_true] at hv
    obtain ⟨l1, l2, l3⟩ := Level.shiftleft_eq n vl c hv.2 hc
    obtain ⟨h1, h2, h3⟩ := Level.shiftleft_eq n vh (BaseInt.shiftleft vl c).2 hv.1 l2
    show Level.wf (n + 1) (DoubleInt_t.shiftleft ⟨vh, vl⟩ c).1 = true ∧
      (DoubleInt_t.shiftleft ⟨vh, vl⟩ c).2 ≤ 1 ∧
      Level.val (n + 1) (DoubleInt_t.shiftleft ⟨vh, vl⟩ c).1
          + 2 ^ Level.width (n + 1) * (DoubleInt_t.shiftleft ⟨vh, vl⟩ c).2
        = 2 * Level.val (n + 1) ⟨vh, vl⟩ + c
    simp only [DoubleInt_t.shiftleft, Level.wf, Level.val, Bool.and_eq_true]
    refine ⟨⟨h1, l1⟩, h2, ?_⟩
    rw [Level.two_pow_width_succ]
    generalize 2 ^ Level.width n = W at *
    generalize Level.val n (BaseInt.shiftleft vh (BaseInt.shiftleft vl c).2).1 = rh at *
    generalize (BaseInt.shiftleft vh (BaseInt.shiftleft vl c).2).2 = c2 at *
    generalize Level.val n (BaseInt.shiftleft vl c).1 = rl at *
    generalize (BaseInt.shiftleft vl c).2 = c1 at *
    calc rh * W + rl + W * W * c2
        = (rh + W * c2) * W + rl := by ring
      _ = (2 * Level.val n vh + c1) * W + rl := by rw [h3]
      _ = 2 * Level.val n vh * W + (rl + W * c1) := by ring
      _ = 2 * (Level.val n vh * W + Level.val n vl) + c := by rw [l3]; ring

theorem Level.shiftright_eq : ∀ (n : Nat) (v : Level n) (c : Nat),
    Level.wf n v = true → c ≤ 1 →
    Level.wf n (BaseInt.shiftright v c).1 = true ∧ (BaseInt.shiftright v c).2 ≤ 1 ∧
    2 * Level.val n (BaseInt.shiftright v c).1 + (BaseInt.shiftright v c).2
      = Level.val n v + c * 2 ^ Level.width n
  | 0, v, c, hv, hc => by
    obtain ⟨vh, vl⟩ := v
    simp only [Level.wf, Bool.and_eq_true, decide_eq_true_eq] at hv
    show Level.wf 0 (int128_t.shiftright ⟨vh, vl⟩ c).1 = true ∧
      (int128_t.shiftright ⟨vh, vl⟩ c).2 ≤ 1 ∧
      2 * Level.val 0 (int128_t.shiftright ⟨vh, vl⟩ c).1 + (int128_t.shiftright ⟨vh, vl⟩ c).2
        = Level.val 0 ⟨vh, vl⟩ + c * 2 ^ Level.width 0
    have hcf : (if c ≠ 0 then 1 else 0) = c := by
      have : c = 0 ∨ c = 1 := by omega
      rcases this with rfl | rfl <;> simp
    obtain ⟨h1, h2, h3⟩ := x86_rcr1_eq vh c hv.1 hc
    obtain ⟨l1, l2, l3⟩ := x86_rcr1_eq vl (x86_rcr1 64 vh c).2 hv.2 h2
    simp only [int128_t.shiftright, hcf, x86_adc, Level.wf, Level.val, Level.width,
      Bool.and_eq_true, decide_eq_true_eq]
    refine ⟨⟨h1, l1⟩, ?_, ?_⟩ <;> omega
  | n + 1, v, c, hv, hc => by
    obtain ⟨vh, vl⟩ := v
    simp only [Level.wf, Bool.and_eq_true] at hv
    obtain ⟨h1, h2, h3⟩ := Level.shiftright_eq n vh c hv.1 hc
    obtain ⟨l1, l2, l3⟩ := Level.shiftright_eq n vl (BaseInt.shiftright vh c).2 hv.2 h2
    show Level.wf (n + 1) (DoubleInt_t.shiftright ⟨vh, vl⟩ c).1 = true ∧
      (DoubleInt_t.shiftright ⟨vh, vl⟩ c).2 ≤ 1 ∧
      2 * Level.val (n + 1) (DoubleInt_t.shiftright ⟨vh, vl⟩ c).1
          + (DoubleInt_t.shiftright ⟨vh, vl⟩ c).2
        = Level.val (n + 1) ⟨vh, vl⟩ + c * 2 ^ Level.width (n + 1)
    simp only [DoubleInt_t.shiftright, Level.wf, Level.val, Bool.and_eq_true]
    refine ⟨⟨h1, l1⟩, l2, ?_⟩
    rw [Level.two_pow_width_succ]
    generalize 2 ^ Level.width n = W at *
    generalize Level.val n (BaseInt.shiftright vl (BaseInt.shiftright vh c).2).1 = rl at *
    generalize (BaseInt.shiftright vl (BaseInt.shiftright vh c).2).2 = c2 at *
    generalize Level.val n (BaseInt.shiftright vh c).1 = rh at *
    generalize (BaseInt.shiftright vh c).2 = c1 at *
    calc 2 * (rh * W + rl) + c2
        = 2 * rh * W + (2 * rl + c2) := by ring
      _ = (2 * rh + c1) * W + Level.val n vl := by rw [l3]; ring
      _ = (Level.val n vh + c * W) * W + Level.val n vl := by rw [h3]
      _ = Level.val n vh * W + Level.val n vl + c * (W * W) := by ring

/-! ## Multi-bit shifts -/

theorem Level.shlAssign_eq (n : Nat) (v : Level n) (k : Nat) :
    BaseInt.shlAssign v k = (fun x : Level n => (BaseInt.shiftleft x 0).1)^[k] v := by
  cases n <;> rfl

theorem Level.shrAssign_eq (n : Nat) (v : Level n) (k : Nat) :
    BaseInt.shrAssign v k = (fun x : Level n => (BaseInt.shiftright x 0).1)^[k] v := by
  cases n <;> rfl

theorem Level.shl_eq (n : Nat) (v : Level n) (k : Nat) :
    BaseInt.shl v k = BaseInt.shlAssign v k := by
  cases n <;> rfl

theorem Level.shr_eq (n : Nat) (v : Level n) (k : Nat) :
    BaseInt.shr v k = BaseInt.shrAssign v k := by
  cases n <;> rfl

theorem Level.iterate_shiftleft (n : Nat) (v : Level n) (hv : Level.wf n v = true) (k : Nat) :
    Level.wf n ((fun x : Level n => (BaseInt.shiftleft x 0).1)^[k] v) = true ∧
    Level.val n ((fun x : Level n => (BaseInt.shiftleft x 0).1)^[k] v)
      = (Level.val n v * 2 ^ k) % 2 ^ Level.width n := by
  induction k with
  | zero =>
    refine ⟨hv, ?_⟩
    simp only [Function.iterate_zero, id_eq, pow_zero, mul_one]
    exact (Nat.mod_eq_of_lt (Level.val_lt n v hv)).symm
  | succ k ih =>
    rw [Function.iterate_succ_apply']
    obtain ⟨h1, h2, h3⟩ := Level.shiftleft_eq n _ 0 ih.1 (Nat.zero_le 1)
    refine ⟨h1, ?_⟩
    have hlt := Level.val_lt n _ h1
    have hmod : Level.val n (BaseInt.shiftleft
        ((fun x : Level n => (BaseInt.shiftleft x 0).1)^[k] v) 0).1
        = (2 * Level.val n ((fun x : Level n => (BaseInt.shiftleft x 0).1)^[k] v))
          % 2 ^ Level.width n := by
      rw [← Nat.add_zero (2 * _), ← h3, Nat.add_mul_mod_self_left, Nat.mod_eq_of_lt hlt]
    rw [hmod, ih.2, Nat.mul_mod, Nat.mod_mod, ← Nat.mul_mod, pow_succ]
    congr 1
    ring

theorem Level.iterate_shiftright (n : Nat) (v : Level n) (hv : Level.wf n v = true) (k : Nat) :
    Level.wf n ((fun x : Level n => (BaseInt.shiftright x 0).1)^[k] v) = true ∧
    Level.val n ((fun x : Level n => (BaseInt.shiftright x 0).1)^[k] v)
      = Level.val n v / 2 ^ k := by
  induction k with
  | zero => exact ⟨hv, by simp⟩
  | succ k ih =>
    rw [Function.iterate_succ_apply']
    obtain ⟨h1, h2, h3⟩ := Level.shiftright_eq n _ 0 ih.1 (Nat.zero_le 1)
    refine ⟨h1, ?_⟩
    have hhalf : Level.val n (BaseInt.shiftright
        ((fun x : Level n => (BaseInt.shiftright x 0).1)^[k] v) 0).1
        = Level.val n ((fun x : Level n => (BaseInt.shiftright x 0).1)^[k] v) / 2 := by
      omega
    rw [hhalf, ih.2, Nat.div_div_eq_div_mul, pow_succ]

/-! ## Division by zero -/

theorem Level.val_ofInt64_zero : ∀ (n : Nat), Level.val n (BaseInt.ofInt64 0) = 0
  | 0 => rfl
  | n + 1 => by
    show Level.val (n + 1) (DoubleInt_t.ofInt64 0) = 0
    simp only [DoubleInt_t.ofInt64, Level.val, Level.val_ofInt64_zero n]
    simp

theorem Level.eq_zero_iff : ∀ (n : Nat) (B : Level n),
    BaseInt.eq B (BaseInt.ofInt64 0) = true ↔ Level.val n B = 0
  | 0, B => by
    obtain ⟨bh, bl⟩ := B
    show int128_t.eq ⟨bh, bl⟩ (int128_t.ofInt64 0) = true ↔ Level.val 0 ⟨bh, bl⟩ = 0
    simp only [int128_t.eq, int128_t.ofInt64, Level.val, Bool.and_eq_true, beq_iff_eq]
    omega
  | n + 1, B => by
    obtain ⟨bh, bl⟩ := B
    show DoubleInt_t.eq ⟨bh, bl⟩ (DoubleInt_t.ofInt64 0) = true ↔ Level.val (n + 1) ⟨bh, bl⟩ = 0
    simp only [DoubleInt_t.eq, DoubleInt_t.ofInt64, Level.val, Bool.and_eq_true,
      Level.eq_zero_iff n]
    have hW : 0 < 2 ^ Level.width n := by positivity
    constructor
    · rintro ⟨h1, h2⟩
      rw [h1, h2]; simp
    · intro h
      have h2 : Level.val n bl = 0 := by omega
      have h1 : Level.val n bh * 2 ^ Level.width n = 0 := by omega
      rcases Nat.mul_eq_zero.mp h1 with h | h
      · exact ⟨h, h2⟩
      · omega

theorem Level.DivideDouble_cases (n : Nat) (A B : Level n) :
    (BaseInt.eq B (BaseInt.ofInt64 0) = true ∧
      BaseInt.DivideDouble A B = (A, .error .divisionByZero)) ∨
    (BaseInt.eq B (BaseInt.ofInt64 0) = false ∧
      ∃ r, (BaseInt.DivideDouble A B).2 = .ok r) := by
  cases n with
  | zero =>
    show (int128_t.eq B (int128_t.ofInt64 0) = true ∧
        int128_t.DivideDouble A B = (A, .error .divisionByZero)) ∨
      (int128_t.eq B (int128_t.ofInt64 0) = false ∧ ∃ r, (int128_t.DivideDouble A B).2 = .ok r)
    unfold int128_t.DivideDouble
    cases h : int128_t.eq B (int128_t.ofInt64 0)
    · right; simp
    · left; simp
  | succ n =>
    show (DoubleInt_t.eq B (DoubleInt_t.ofInt64 0) = true ∧
        DoubleInt_t.DivideDouble A B = (A, .error .divisionByZero)) ∨
      (DoubleInt_t.eq B (DoubleInt_t.ofInt64 0) = false ∧
        ∃ r, (DoubleInt_t.DivideDouble A B).2 = .ok r)
    unfold DoubleInt_t.DivideDouble
    cases h : DoubleInt_t.eq B (DoubleInt_t.ofInt64 0)
    · right; simp
    · left; simp

/-! ## The claims -/

/-- C1, at the failing input: `int128_t::AddDouble` on `a = 2^128 - 1`, `b = 1`, carry-in 0.
The sum is `2^128`, so `A` should become 0 and the call should return 1; the code
leaves `A = 2^64` (`Hi = 1`, `Lo = 0`) and returns 0, because `Add64` on the high limb
adds the carry-in with `add`, which wraps the limb to 0 and sets the carry flag, and
the following `adc` adds that flag again as if it were part of the operand. -/
theorem AddDouble_carry_into_full_limb :
    int128_t.AddDouble ⟨2 ^ 64 - 1, 2 ^ 64 - 1⟩ ⟨0, 1⟩ 0 = (⟨1, 0⟩, 0) ∧
    Level.wf 0 (⟨2 ^ 64 - 1, 2 ^ 64 - 1⟩ : int128_t) = true ∧
    Level.wf 0 (⟨0, 1⟩ : int128_t) = true ∧
    (Level.val 0 (⟨2 ^ 64 - 1, 2 ^ 64 - 1⟩ : int128_t) + Level.val 0 (⟨0, 1⟩ : int128_t) + 0)
      % 2 ^ Level.width 0 = 0 ∧
    2 ^ Level.width 0 ≤
      Level.val 0 (⟨2 ^ 64 - 1, 2 ^ 64 - 1⟩ : int128_t) + Level.val 0 (⟨0, 1⟩ : int128_t) + 0 ∧
    Level.val 0 (int128_t.AddDouble ⟨2 ^ 64 - 1, 2 ^ 64 - 1⟩ ⟨0, 1⟩ 0).1 = 2 ^ 64 := by
  decide

/-- C2: at every unsigned level of width `w`, for well-formed `a`, `b` and a borrow-in
`bin` in {0, 1}, `SubDouble(&A, B, bin)` leaves `A = (a - b - bin) mod 2^w` and returns
1 if `a < b + bin` and 0 otherwise. -/
theorem SubDouble_spec (n : Nat) (a b : Level n) (bin : Nat)
    (ha : Level.wf n a = true) (hb : Level.wf n b = true) (hbin : bin ≤ 1) :
    (Level.val n (BaseInt.SubDouble a b bin).1 : Int)
      = ((Level.val n a : Int) - (Level.val n b : Int) - (bin : Int))
          % (2 : Int) ^ Level.width n ∧
    (BaseInt.SubDouble a b bin).2 = (if Level.val n a < Level.val n b + bin then 1 else 0) := by
  obtain ⟨h1, h2, h3⟩ := Level.SubDouble_eq n a b bin ha hb hbin
  have hr := Level.val_lt n _ h1
  have hlt := Level.val_lt n a ha
  generalize Level.val n (BaseInt.SubDouble a b bin).1 = r at *
  generalize (BaseInt.SubDouble a b bin).2 = c at *
  generalize Level.val n a = x at *
  generalize Level.val n b = y at *
  have hW : ((2 : Int) ^ Level.width n) = ((2 ^ Level.width n : Nat) : Int) := by push_cast; rfl
  rw [hW]
  generalize 2 ^ Level.width n = W at *
  have hc : c = 0 ∨ c = 1 := by omega
  rcases hc with rfl | rfl
  · simp only [Nat.mul_zero, Nat.add_zero] at h3
    constructor
    · have : ((x : Int) - y - bin) = r := by omega
      rw [this]
      exact (Int.emod_eq_of_lt (by omega) (by omega)).symm
    · rw [if_neg (by omega)]
  · simp only [Nat.mul_one] at h3
    constructor
    · have : ((x : Int) - y - bin) = r + (W : Int) * (-1) := by omega
      rw [this, Int.add_mul_emod_self_left]
      exact (Int.emod_eq_of_lt (by omega) (by omega)).symm
    · rw [if_pos (by omega)]

/-- C2, at 256 bits: `0 - 1` with borrow-in 1 borrows through both halves. -/
theorem SubDouble_spec_witness :
    (Level.val 1 (BaseInt.SubDouble (T := Level 1) ⟨⟨0, 0⟩, ⟨0, 0⟩⟩ ⟨⟨0, 0⟩, ⟨0, 1⟩⟩ 1).1 : Int)
      = ((Level.val 1 ⟨⟨0, 0⟩, ⟨0, 0⟩⟩ : Int) - (Level.val 1 ⟨⟨0, 0⟩, ⟨0, 1⟩⟩ : Int) - ((1 : Nat) : Int))
          % (2 : Int) ^ Level.width 1 ∧
    (BaseInt.SubDouble (T := Level 1) ⟨⟨0, 0⟩, ⟨0, 0⟩⟩ ⟨⟨0, 0⟩, ⟨0, 1⟩⟩ 1).2
      = (if Level.val 1 ⟨⟨0, 0⟩, ⟨0, 0⟩⟩ < Level.val 1 ⟨⟨0, 0⟩, ⟨0, 1⟩⟩ + 1 then 1 else 0) :=
  SubDouble_spec 1 ⟨⟨0, 0⟩, ⟨0, 0⟩⟩ ⟨⟨0, 0⟩, ⟨0, 1⟩⟩ 1 (by decide) (by decide) (by decide)

/-- C3, at the failing input: `int128_t::MultiplyDouble` on `a = b = 2^128 - 1`. The
product is `2^256 - 2^129 + 1`, so the returned high half should be `2^128 - 2`; the
code returns `Hi = 2^64 - 2`, `Lo = 2^64 - 2`, one unit of `2^64` short, because the carry
out of `x += xp` is never added to `w`. -/
theorem MultiplyDouble_high_half_loses_carry :
    int128_t.MultiplyDouble ⟨2 ^ 64 - 1, 2 ^ 64 - 1⟩ ⟨2 ^ 64 - 1, 2 ^ 64 - 1⟩
      = (⟨0, 1⟩, ⟨2 ^ 64 - 2, 2 ^ 64 - 2⟩) ∧
    Level.val 0 (⟨2 ^ 64 - 1, 2 ^ 64 - 1⟩ : int128_t) = 2 ^ 128 - 1 ∧
    Level.val 0 (int128_t.MultiplyDouble ⟨2 ^ 64 - 1, 2 ^ 64 - 1⟩ ⟨2 ^ 64 - 1, 2 ^ 64 - 1⟩).1
      + 2 ^ Level.width 0 *
        Level.val 0 (int128_t.MultiplyDouble ⟨2 ^ 64 - 1, 2 ^ 64 - 1⟩ ⟨2 ^ 64 - 1, 2 ^ 64 - 1⟩).2
      ≠ (2 ^ 128 - 1) * (2 ^ 128 - 1) := by
  decide

/-- C4, at the failing input: at 256 bits, `a = b = 2^128 - 1` (`Hi = 0`). The product
`2^256 - 2^129 + 1` is below `2^256`, yet `a * b` and `a *= b` leave
`Hi = (2^64 - 2, 2^64 - 2)`, `Lo = (0, 1)`: the high half that the 128-bit
`MultiplyDouble` returns for `b * d` is one unit of `2^64` short. -/
theorem mul_256_wrong_product :
    DoubleInt_t.mul (⟨⟨0, 0⟩, ⟨2 ^ 64 - 1, 2 ^ 64 - 1⟩⟩ : DoubleInt_t int128_t)
        ⟨⟨0, 0⟩, ⟨2 ^ 64 - 1, 2 ^ 64 - 1⟩⟩
      = ⟨⟨2 ^ 64 - 2, 2 ^ 64 - 2⟩, ⟨0, 1⟩⟩ ∧
    DoubleInt_t.mulAssign (⟨⟨0, 0⟩, ⟨2 ^ 64 - 1, 2 ^ 64 - 1⟩⟩ : DoubleInt_t int128_t)
        ⟨⟨0, 0⟩, ⟨2 ^ 64 - 1, 2 ^ 64 - 1⟩⟩
      = ⟨⟨2 ^ 64 - 2, 2 ^ 64 - 2⟩, ⟨0, 1⟩⟩ ∧
    Level.val 1 ⟨⟨0, 0⟩, ⟨2 ^ 64 - 1, 2 ^ 64 - 1⟩⟩ = 2 ^ 128 - 1 ∧
    Level.val 1 (DoubleInt_t.mul (⟨⟨0, 0⟩, ⟨2 ^ 64 - 1, 2 ^ 64 - 1⟩⟩ : DoubleInt_t int128_t)
        ⟨⟨0, 0⟩, ⟨2 ^ 64 - 1, 2 ^ 64 - 1⟩⟩)
      ≠ ((2 ^ 128 - 1) * (2 ^ 128 - 1)) % 2 ^ Level.width 1 := by
  decide

/-- C5, at the failing input: `int128_t::DivideDouble` on `a = 0`, `b = 2^63`. The
quotient and the remainder should both be 0; in the first turn of the loop
`remainder >= B` compares the low limbs as signed (`0 >= -2^63`), so `B` is subtracted
from a smaller remainder, and the call ends with a non-zero quotient and a remainder
that is not below `b`. -/
theorem DivideDouble_signed_compare :
    int128_t.DivideDouble ⟨0, 0⟩ ⟨0, 2 ^ 63⟩
      = (⟨2 ^ 63, 2 ^ 62⟩, .ok ⟨2 ^ 63 + 2 ^ 62 + 2 ^ 61, 0⟩) ∧
    int128_t.ge ⟨0, 0⟩ ⟨0, 2 ^ 63⟩ = true ∧
    Level.val 0 (⟨0, 2 ^ 63⟩ : int128_t) ≠ 0 ∧
    Level.val 0 (int128_t.DivideDouble ⟨0, 0⟩ ⟨0, 2 ^ 63⟩).1
      ≠ Level.val 0 (⟨0, 0⟩ : int128_t) / Level.val 0 (⟨0, 2 ^ 63⟩ : int128_t) ∧
    ¬ (Level.val 0 (int128_t.DivideDouble ⟨0, 0⟩ ⟨0, 2 ^ 63⟩).1
          * Level.val 0 (⟨0, 2 ^ 63⟩ : int128_t)
          + Level.val 0 (⟨2 ^ 63 + 2 ^ 62 + 2 ^ 61, 0⟩ : int128_t)
        = Level.val 0 (⟨0, 0⟩ : int128_t)) ∧
    ¬ (Level.val 0 (⟨2 ^ 63 + 2 ^ 62 + 2 ^ 61, 0⟩ : int128_t)
        < Level.val 0 (⟨0, 2 ^ 63⟩ : int128_t)) := by
  decide!

/-- C6: at every unsigned level, and for `SignedInt_t` over it, `DivideDouble(&A, B)`
fails exactly when the magnitude of `B` is zero, and when it fails `A` is what it was
before the call (magnitude, and sign for the signed wrapper). -/
theorem DivideDouble_fails_iff_zero (n : Nat) (A B : Level n) (SA SB : SignedInt_t (Level n)) :
    ((∃ e, (BaseInt.DivideDouble A B).2 = .error e) ↔ Level.val n B = 0) ∧
    ((∃ e, (BaseInt.DivideDouble A B).2 = .error e) → (BaseInt.DivideDouble A B).1 = A) ∧
    ((∃ e, (SignedInt_t.DivideDouble SA SB).2 = .error e) ↔ Level.val n SB.Value = 0) ∧
    ((∃ e, (SignedInt_t.DivideDouble SA SB).2 = .error e) →
      (SignedInt_t.DivideDouble SA SB).1 = SA) := by
  have key : ∀ X Y : Level n,
      ((∃ e, (BaseInt.DivideDouble X Y).2 = .error e) ↔ Level.val n Y = 0) ∧
      ((∃ e, (BaseInt.DivideDouble X Y).2 = .error e) → (BaseInt.DivideDouble X Y).1 = X) := by
    intro X Y
    rcases Level.DivideDouble_cases n X Y with ⟨hz, hd⟩ | ⟨hz, r, hr⟩
    · rw [hd]
      exact ⟨⟨fun _ => (Level.eq_zero_iff n Y).mp hz, fun _ => ⟨_, rfl⟩⟩, fun _ => rfl⟩
    · have hne : ¬ Level.val n Y = 0 := by
        intro h
        rw [(Level.eq_zero_iff n Y).mpr h] at hz
        exact Bool.noConfusion hz
      rw [hr]
      refine ⟨⟨?_, fun h => absurd h hne⟩, ?_⟩ <;> rintro ⟨e, he⟩ <;> cases he
  have skey :
      ((∃ e, (SignedInt_t.DivideDouble SA SB).2 = .error e) ↔
        ∃ e, (BaseInt.DivideDouble SA.Value SB.Value).2 = .error e) ∧
      ((∃ e, (SignedInt_t.DivideDouble SA SB).2 = .error e) →
        (SignedInt_t.DivideDouble SA SB).1
          = { SA with Value := (BaseInt.DivideDouble SA.Value SB.Value).1 }) := by
    unfold SignedInt_t.DivideDouble
    generalize BaseInt.DivideDouble SA.Value SB.Value = d
    obtain ⟨d1, d2⟩ := d
    cases d2 <;> simp
  refine ⟨(key A B).1, (key A B).2, skey.1.trans (key SA.Value SB.Value).1, ?_⟩
  intro h
  rw [skey.2 h, (key SA.Value SB.Value).2 (skey.1.mp h)]

/-- C6, at 256 bits: dividing 5, and the signed -5, by zero fails and leaves them. -/
theorem DivideDouble_fails_iff_zero_witness :
    (BaseInt.DivideDouble (T := Level 1) ⟨⟨0, 0⟩, ⟨0, 5⟩⟩ ⟨⟨0, 0⟩, ⟨0, 0⟩⟩).1
      = ⟨⟨0, 0⟩, ⟨0, 5⟩⟩ ∧
    (SignedInt_t.DivideDouble (⟨⟨⟨0, 0⟩, ⟨0, 5⟩⟩, 1⟩ : SignedInt_t (Level 1))
        ⟨⟨⟨0, 0⟩, ⟨0, 0⟩⟩, 0⟩).1 = ⟨⟨⟨0, 0⟩, ⟨0, 5⟩⟩, 1⟩ :=
  have h := DivideDouble_fails_iff_zero 1 ⟨⟨0, 0⟩, ⟨0, 5⟩⟩ ⟨⟨0, 0⟩, ⟨0, 0⟩⟩
    ⟨⟨⟨0, 0⟩, ⟨0, 5⟩⟩, 1⟩ ⟨⟨⟨0, 0⟩, ⟨0, 0⟩⟩, 0⟩
  ⟨h.2.1 (h.1.mpr (by decide)), h.2.2.2 (h.2.2.1.mpr (by decide))⟩

/-- C7, at the failing input: at 128 bits `a = 2^63` and `b = 1` (both with `Hi = 0`).
The magnitude of `a` is the larger, yet `a < b` and `a <= b` return true and `a > b`,
`a >= b` return false: the limbs are `long long` and `Lo < rhs.Lo` reads the pattern
`2^63` as `-2^63`. -/
theorem compare_reads_limbs_signed :
    int128_t.lt ⟨0, 2 ^ 63⟩ ⟨0, 1⟩ = true ∧ int128_t.le ⟨0, 2 ^ 63⟩ ⟨0, 1⟩ = true ∧
    int128_t.gt ⟨0, 2 ^ 63⟩ ⟨0, 1⟩ = false ∧ int128_t.ge ⟨0, 2 ^ 63⟩ ⟨0, 1⟩ = false ∧
    Level.wf 0 (⟨0, 2 ^ 63⟩ : int128_t) = true ∧ Level.wf 0 (⟨0, 1⟩ : int128_t) = true ∧
    Level.val 0 (⟨0, 1⟩ : int128_t) < Level.val 0 (⟨0, 2 ^ 63⟩ : int128_t) := by
  decide

/-- C8: at every unsigned level of width `w`, for a well-formed `v` and a carry-in `c`
in {0, 1}, `shiftleft(&V, c)` leaves `V = (2*v + c) mod 2^w` and returns
`floor(v / 2^(w-1))`, the old top bit; at 128 bits, 127 shifts of 1 give `2^127` and one
more shift gives 0 and returns 1. -/
theorem shiftleft_spec (n : Nat) (v : Level n) (c : Nat)
    (hv : Level.wf n v = true) (hc : c ≤ 1) :
    Level.val n (BaseInt.shiftleft v c).1 = (2 * Level.val n v + c) % 2 ^ Level.width n ∧
    (BaseInt.shiftleft v c).2 = Level.val n v / 2 ^ (Level.width n - 1) ∧
    (fun x => (int128_t.shiftleft x 0).1)^[127] ⟨0, 1⟩ = ⟨2 ^ 63, 0⟩ ∧
    int128_t.shiftleft ⟨2 ^ 63, 0⟩ 0 = (⟨0, 0⟩, 1) := by
  obtain ⟨h1, h2, h3⟩ := Level.shiftleft_eq n v c hv hc
  have hr := Level.val_lt n _ h1
  have hlt := Level.val_lt n v hv
  have hW : 2 ^ Level.width n = 2 * 2 ^ (Level.width n - 1) := by
    rw [← pow_succ']
    congr 1
    have := Level.width_pos n
    omega
  refine ⟨?_, ?_, by decide!, by decide⟩
  · rw [← h3, Nat.add_mul_mod_self_left, Nat.mod_eq_of_lt hr]
  · rw [hW] at h3 hr hlt
    generalize 2 ^ (Level.width n - 1) = H at *
    generalize (BaseInt.shiftleft v c).2 = t at *
    have ht : t = 0 ∨ t = 1 := by omega
    rcases ht with rfl | rfl
    · exact (Nat.div_eq_of_lt (by omega)).symm
    · exact (Nat.div_eq_of_lt_le (by omega) (by omega)).symm

/-- C8, at 256 bits: `2^255 + 1` shifted left with carry-in 1. -/
theorem shiftleft_spec_witness :
    Level.val 1 (BaseInt.shiftleft (T := Level 1) ⟨⟨2 ^ 63, 0⟩, ⟨0, 1⟩⟩ 1).1
      = (2 * Level.val 1 ⟨⟨2 ^ 63, 0⟩, ⟨0, 1⟩⟩ + 1) % 2 ^ Level.width 1 ∧
    (BaseInt.shiftleft (T := Level 1) ⟨⟨2 ^ 63, 0⟩, ⟨0, 1⟩⟩ 1).2
      = Level.val 1 ⟨⟨2 ^ 63, 0⟩, ⟨0, 1⟩⟩ / 2 ^ (Level.width 1 - 1) ∧
    (fun x => (int128_t.shiftleft x 0).1)^[127] ⟨0, 1⟩ = ⟨2 ^ 63, 0⟩ ∧
    int128_t.shiftleft ⟨2 ^ 63, 0⟩ 0 = (⟨0, 0⟩, 1) :=
  shiftleft_spec 1 ⟨⟨2 ^ 63, 0⟩, ⟨0, 1⟩⟩ 1 (by decide) (by decide)

/-- C9: at every unsigned level of width `w`, for a well-formed `v` and a carry-in `c`
in {0, 1}, `shiftright(&V, c)` leaves `V = floor(v / 2) + c * 2^(w-1)` and returns
`v mod 2`, the old bit 0. -/
theorem shiftright_spec (n : Nat) (v : Level n) (c : Nat)
    (hv : Level.wf n v = true) (hc : c ≤ 1) :
    Level.val n (BaseInt.shiftright v c).1
      = Level.val n v / 2 + c * 2 ^ (Level.width n - 1) ∧
    (BaseInt.shiftright v c).2 = Level.val n v % 2 := by
  obtain ⟨_, h2, h3⟩ := Level.shiftright_eq n v c hv hc
  have hW : 2 ^ Level.width n = 2 * 2 ^ (Level.width n - 1) := by
    rw [← pow_succ']
    congr 1
    have := Level.width_pos n
    omega
  rw [hW] at h3
  generalize 2 ^ (Level.width n - 1) = H at *
  have hcH : c * (2 * H) = 2 * (c * H) := by ring
  rw [hcH] at h3
  generalize c * H = t at *
  omega

/-- C9, at 256 bits: `2^128 + 1` shifted right with carry-in 1. -/
theorem shiftright_spec_witness :
    Level.val 1 (BaseInt.shiftright (T := Level 1) ⟨⟨0, 1⟩, ⟨0, 1⟩⟩ 1).1
      = Level.val 1 ⟨⟨0, 1⟩, ⟨0, 1⟩⟩ / 2 + 1 * 2 ^ (Level.width 1 - 1) ∧
    (BaseInt.shiftright (T := Level 1) ⟨⟨0, 1⟩, ⟨0, 1⟩⟩ 1).2
      = Level.val 1 ⟨⟨0, 1⟩, ⟨0, 1⟩⟩ % 2 :=
  shiftright_spec 1 ⟨⟨0, 1⟩, ⟨0, 1⟩⟩ 1 (by decide) (by decide)

/-- C10: at every unsigned level of width `w`, for a well-formed `v` and every bit
count `k`, `v << k` and `v <<= k` equal `(v * 2^k) mod 2^w`, and `v >> k` and `v >>= k`
equal `floor(v / 2^k)`. -/
theorem shift_by_k_spec (n : Nat) (v : Level n) (k : Nat) (hv : Level.wf n v = true) :
    Level.val n (BaseInt.shl v k) = (Level.val n v * 2 ^ k) % 2 ^ Level.width n ∧
    Level.val n (BaseInt.shlAssign v k) = (Level.val n v * 2 ^ k) % 2 ^ Level.width n ∧
    Level.val n (BaseInt.shr v k) = Level.val n v / 2 ^ k ∧
    Level.val n (BaseInt.shrAssign v k) = Level.val n v / 2 ^ k := by
  rw [Level.shl_eq, Level.shr_eq, Level.shlAssign_eq, Level.shrAssign_eq]
  exact ⟨(Level.iterate_shiftleft n v hv k).2, (Level.iterate_shiftleft n v hv k).2,
    (Level.iterate_shiftright n v hv k).2, (Level.iterate_shiftright n v hv k).2⟩

/-- C10, at 256 bits: `2^128 + 3` shifted by 130 bits each way. -/
theorem shift_by_k_spec_witness :
    Level.val 1 (BaseInt.shl (T := Level 1) ⟨⟨0, 1⟩, ⟨0, 3⟩⟩ 130)
      = (Level.val 1 ⟨⟨0, 1⟩, ⟨0, 3⟩⟩ * 2 ^ 130) % 2 ^ Level.width 1 ∧
    Level.val 1 (BaseInt.shlAssign (T := Level 1) ⟨⟨0, 1⟩, ⟨0, 3⟩⟩ 130)
      = (Level.val 1 ⟨⟨0, 1⟩, ⟨0, 3⟩⟩ * 2 ^ 130) % 2 ^ Level.width 1 ∧
    Level.val 1 (BaseInt.shr (T := Level 1) ⟨⟨0, 1⟩, ⟨0, 3⟩⟩ 130)
      = Level.val 1 ⟨⟨0, 1⟩, ⟨0, 3⟩⟩ / 2 ^ 130 ∧
    Level.val 1 (BaseInt.shrAssign (T := Level 1) ⟨⟨0, 1⟩, ⟨0, 3⟩⟩ 130)
      = Level.val 1 ⟨⟨0, 1⟩, ⟨0, 3⟩⟩ / 2 ^ 130 :=
  shift_by_k_spec 1 ⟨⟨0, 1⟩, ⟨0, 3⟩⟩ 130 (by decide)

/-! ## Claims on the signed wrapper and on texts, evaluated -/

/-- C12, at the failing input: at 256 bits `FromString` on the decimal text of `2^128`
leaves `2^64`. Before the last digit the value is `2^128 - 6`, whose second limb is all
ones; adding the digit 6 carries into that limb, and `Add64` turns an all-ones limb
with carry-in 1 into 1 with carry-out 0 instead of 0 with carry-out 1. -/
theorem FromString_decimal_two_pow_128 :
    (DoubleInt_t.FromString "340282366920938463463374607431768211456" : Level 1)
      = ⟨⟨0, 0⟩, ⟨1, 0⟩⟩ ∧
    Level.val 1 (DoubleInt_t.FromString "340282366920938463463374607431768211456" : Level 1)
      = 2 ^ 64 ∧
    (340282366920938463463374607431768211456 : Nat) = 2 ^ 128 ∧
    (340282366920938463463374607431768211456 : Nat) < 2 ^ Level.width 1 ∧
    Level.val 1 (DoubleInt_t.FromString "340282366920938463463374607431768211456" : Level 1)
      ≠ 340282366920938463463374607431768211456 := by
  decide!

/-- C14, at the failing input: at 256 bits `FromString("0xA")` leaves 0 and
`FromString("0xff")` leaves `0x55`, not 10 and 255: for a letter the digit is computed as
`upper-'A'`, which makes A-F worth 0-5. -/
theorem FromString_hex_letters :
    (DoubleInt_t.FromString "0xA" : Level 1) = ⟨⟨0, 0⟩, ⟨0, 0⟩⟩ ∧
    (DoubleInt_t.FromString "0xff" : Level 1) = ⟨⟨0, 0⟩, ⟨0, 0x55⟩⟩ ∧
    Level.val 1 (DoubleInt_t.FromString "0xA" : Level 1) ≠ 10 ∧
    Level.val 1 (DoubleInt_t.FromString "0xff" : Level 1) ≠ 255 := by
  decide

/-- C16, at the failing input: at 256 bits `AsString("%b")` of the value 1 returns the
one character with code 1, and of the value 2 the empty text, not 256 characters '0' or
'1': the expression `tmp.GetLowByte()&0x01+'0'` masks the low byte with `0x31` and adds
nothing, the first zero byte ends the text, and the bits are written least significant
first. -/
theorem AsString_binary_not_digits :
    DoubleInt_t.AsString 0 (⟨⟨0, 0⟩, ⟨0, 1⟩⟩ : Level 1) "%b"
      = some (.ok (String.mk [Char.ofNat 1])) ∧
    DoubleInt_t.AsString 0 (⟨⟨0, 0⟩, ⟨0, 2⟩⟩ : Level 1) "%b" = some (.ok "") ∧
    DoubleInt_t.size (Level 0) = 256 ∧
    (String.mk [Char.ofNat 1]).length ≠ 256 := by
  decide

/-- C17, at the failing input: over 256 bits, `A = +2^63` and `B = -1`. The sum is
`2^63 - 1`, but `A->Value>B.Value` compares the limbs as signed and is false, so the code
subtracts `A` from `B`, sees the borrow and throws; `A` is left with the magnitude
`1 - 2^63 mod 2^256`. -/
theorem SignedInt_AddDouble_throws_on_borrow :
    SignedInt_t.AddDouble (⟨⟨⟨0, 0⟩, ⟨0, 2 ^ 63⟩⟩, 0⟩ : SignedInt_t (Level 1))
        ⟨⟨⟨0, 0⟩, ⟨0, 1⟩⟩, 1⟩ 0
      = (⟨⟨⟨2 ^ 64 - 1, 2 ^ 64 - 1⟩, ⟨2 ^ 64 - 1, 2 ^ 63 + 1⟩⟩, 0⟩, .error .borrowNecessary) ∧
    BaseInt.gt (⟨⟨0, 0⟩, ⟨0, 2 ^ 63⟩⟩ : Level 1) ⟨⟨0, 0⟩, ⟨0, 1⟩⟩ = false ∧
    Level.val 1 ⟨⟨0, 0⟩, ⟨0, 2 ^ 63⟩⟩ + Level.val 1 ⟨⟨0, 0⟩, ⟨0, 1⟩⟩ < 2 ^ Level.width 1 := by
  decide

/-- C18, at the failing input: over 256 bits, `A = +11` and `B = -10`.
`SubDouble(&A, B, 0)` leaves `-21`, while `AddDouble(&A, B', 0)` with `B' = +10` leaves
`+21`: the code flips the sign of `A`, not of `B`, so `x - y` comes out as `y - x`. -/
theorem SignedInt_SubDouble_negates :
    SignedInt_t.SubDouble (⟨⟨⟨0, 0⟩, ⟨0, 11⟩⟩, 0⟩ : SignedInt_t (Level 1))
        ⟨⟨⟨0, 0⟩, ⟨0, 10⟩⟩, 1⟩ 0
      = (⟨⟨⟨0, 0⟩, ⟨0, 21⟩⟩, 1⟩, .ok 0) ∧
    SignedInt_t.AddDouble (⟨⟨⟨0, 0⟩, ⟨0, 11⟩⟩, 0⟩ : SignedInt_t (Level 1))
        ⟨⟨⟨0, 0⟩, ⟨0, 10⟩⟩, 0⟩ 0
      = (⟨⟨⟨0, 0⟩, ⟨0, 21⟩⟩, 0⟩, .ok 0) ∧
    SignedInt_t.SubDouble (⟨⟨⟨0, 0⟩, ⟨0, 11⟩⟩, 0⟩ : SignedInt_t (Level 1))
        ⟨⟨⟨0, 0⟩, ⟨0, 10⟩⟩, 1⟩ 0
      ≠ SignedInt_t.AddDouble (⟨⟨⟨0, 0⟩, ⟨0, 11⟩⟩, 0⟩ : SignedInt_t (Level 1))
        ⟨⟨⟨0, 0⟩, ⟨0, 10⟩⟩, 0⟩ 0 := by
  decide

/-- C19: for `SignedInt_t` over every level and all `A`, `B`, `MultiplyDouble(&A, B)`
leaves as magnitude the in-place result of the unsigned `MultiplyDouble` on the two
magnitudes, and leaves `Negative = 0` when that magnitude is zero and
`A.Negative XOR B.Negative` otherwise; over 256 bits `(-10) * (-10) = +100`. -/
theorem SignedInt_MultiplyDouble_spec (n : Nat) (A B : SignedInt_t (Level n)) :
    (SignedInt_t.MultiplyDouble A B).Value = (BaseInt.MultiplyDouble A.Value B.Value).1 ∧
    (SignedInt_t.MultiplyDouble A B).Negative
      = (if Level.val n (BaseInt.MultiplyDouble A.Value B.Value).1 = 0 then 0
         else A.Negative ^^^ B.Negative) ∧
    SignedInt_t.MultiplyDouble (⟨⟨⟨0, 0⟩, ⟨0, 10⟩⟩, 1⟩ : SignedInt_t (Level 1))
        ⟨⟨⟨0, 0⟩, ⟨0, 10⟩⟩, 1⟩
      = ⟨⟨⟨0, 0⟩, ⟨0, 100⟩⟩, 0⟩ := by
  refine ⟨?_, ?_, by decide⟩
  · unfold SignedInt_t.MultiplyDouble
    dsimp only
    split <;> rfl
  · unfold SignedInt_t.MultiplyDouble
    dsimp only
    by_cases h : Level.val n (BaseInt.MultiplyDouble A.Value B.Value).1 = 0
    · rw [if_pos ((Level.eq_zero_iff n _).mpr h), if_pos h]
    · have h' : ¬ BaseInt.eq (BaseInt.MultiplyDouble A.Value B.Value).1 (BaseInt.ofInt64 0)
          = true := fun e => h ((Level.eq_zero_iff n _).mp e)
      rw [if_neg h', if_neg h]

/-- C20: for `SignedInt_t` over every level and all `A`, `B` with the magnitude of `B`
non-zero, `DivideDouble(&A, B)` succeeds, leaves as magnitude the quotient the unsigned
`DivideDouble` leaves, leaves `Negative = 0` when that quotient is zero and
`A.Negative XOR B.Negative` otherwise, and returns the unsigned remainder with
`Negative = 0`; over 256 bits `(-10) / (+3)` leaves magnitude 3 with `Negative = 1`. -/
theorem SignedInt_DivideDouble_spec (n : Nat) (A B : SignedInt_t (Level n))
    (hB : Level.val n B.Value ≠ 0) :
    (∃ r, (BaseInt.DivideDouble A.Value B.Value).2 = .ok r ∧
      (SignedInt_t.DivideDouble A B).2 = .ok ⟨r, 0⟩) ∧
    (SignedInt_t.DivideDouble A B).1.Value = (BaseInt.DivideDouble A.Value B.Value).1 ∧
    (SignedInt_t.DivideDouble A B).1.Negative
      = (if Level.val n (BaseInt.DivideDouble A.Value B.Value).1 = 0 then 0
         else A.Negative ^^^ B.Negative) ∧
    SignedInt_t.DivideDouble (⟨⟨⟨0, 0⟩, ⟨0, 10⟩⟩, 1⟩ : SignedInt_t (Level 1))
        ⟨⟨⟨0, 0⟩, ⟨0, 3⟩⟩, 0⟩
      = (⟨⟨⟨0, 0⟩, ⟨0, 3⟩⟩, 1⟩, .ok ⟨⟨⟨0, 0⟩, ⟨0, 1⟩⟩, 0⟩) := by
  rcases Level.DivideDouble_cases n A.Value B.Value with ⟨hz, _⟩ | ⟨_, r, hr⟩
  · exact absurd ((Level.eq_zero_iff n _).mp hz) hB
  · have hzero : ∀ x : Level n, (BaseInt.eq x (BaseInt.ofInt64 0) = true) = (Level.val n x = 0) :=
      fun x => propext (Level.eq_zero_iff n x)
    refine ⟨⟨r, hr, ?_⟩, ?_, ?_, by decide!⟩
    · unfold SignedInt_t.DivideDouble
      simp only [hr, SignedInt_t.ofBase]
    · unfold SignedInt_t.DivideDouble
      simp only [hr]
      split <;> rfl
    · unfold SignedInt_t.DivideDouble
      simp only [hr, hzero]
      split <;> rfl

/-- C20, over 256 bits: `(-10) / (+3)`. -/
theorem SignedInt_DivideDouble_spec_witness :
    (∃ r, (BaseInt.DivideDouble (⟨⟨0, 0⟩, ⟨0, 10⟩⟩ : Level 1) ⟨⟨0, 0⟩, ⟨0, 3⟩⟩).2 = .ok r ∧
      (SignedInt_t.DivideDouble (⟨⟨⟨0, 0⟩, ⟨0, 10⟩⟩, 1⟩ : SignedInt_t (Level 1))
        ⟨⟨⟨0, 0⟩, ⟨0, 3⟩⟩, 0⟩).2 = .ok ⟨r, 0⟩) ∧
    (SignedInt_t.DivideDouble (⟨⟨⟨0, 0⟩, ⟨0, 10⟩⟩, 1⟩ : SignedInt_t (Level 1))
        ⟨⟨⟨0, 0⟩, ⟨0, 3⟩⟩, 0⟩).1.Negative = 1 :=
  have h := SignedInt_DivideDouble_spec 1 (⟨⟨⟨0, 0⟩, ⟨0, 10⟩⟩, 1⟩ : SignedInt_t (Level 1))
    ⟨⟨⟨0, 0⟩, ⟨0, 3⟩⟩, 0⟩ (by decide)
  ⟨h.1, by rw [h.2.2.2]⟩

/-! ## Low byte, size, and the hexadecimal text -/

theorem Level.size_eq_width : ∀ (n : Nat), BaseInt.size (Level n) = Level.width n
  | 0 => rfl
  | n + 1 => by
    show DoubleInt_t.size (Level n) = Level.width (n + 1)
    rw [DoubleInt_t.size, Level.size_eq_width n, Level.width_succ, Nat.mul_comm]

theorem Level.two_pow_width_dvd (n : Nat) : ∃ K, 2 ^ Level.width n = 256 * K := by
  refine ⟨2 ^ (Level.width n - 8), ?_⟩
  have h : 8 ≤ Level.width n := by
    have : 1 ≤ 2 ^ n := Nat.one_le_two_pow
    unfold Level.width
    omega
  have : (256 : Nat) = 2 ^ 8 := by norm_num
  rw [this, ← pow_add]
  congr 1
  omega

theorem Level.GetLowByte_eq : ∀ (n : Nat) (x : Level n),
    BaseInt.GetLowByte x = Level.val n x % 256
  | 0, x => by
    obtain ⟨hi, lo⟩ := x
    show lo &&& 0xFF = Level.val 0 ⟨hi, lo⟩ % 256
    have h := Nat.and_pow_two_sub_one_eq_mod lo 8
    simp only [Level.val]
    norm_num at h ⊢
    omega
  | n + 1, x => by
    obtain ⟨hi, lo⟩ := x
    show BaseInt.GetLowByte lo = Level.val (n + 1) ⟨hi, lo⟩ % 256
    rw [Level.GetLowByte_eq n lo]
    obtain ⟨K, hK⟩ := Level.two_pow_width_dvd n
    simp only [Level.val, hK]
    have : Level.val n hi * (256 * K) = 256 * (Level.val n hi * K) := by ring
    rw [this]
    omega

theorem Level.shiftright_zero (n : Nat) (x : Level n) (hx : Level.wf n x = true) :
    Level.wf n (BaseInt.shiftright x 0).1 = true ∧
    Level.val n (BaseInt.shiftright x 0).1 = Level.val n x / 2 := by
  obtain ⟨h1, h2, h3⟩ := Level.shiftright_eq n x 0 hx (Nat.zero_le 1)
  exact ⟨h1, by omega⟩

theorem Level.shiftright_four (n : Nat) (x : Level n) (hx : Level.wf n x = true) :
    Level.wf n (BaseInt.shiftright (BaseInt.shiftright (BaseInt.shiftright
      (BaseInt.shiftright x 0).1 0).1 0).1 0).1 = true ∧
    Level.val n (BaseInt.shiftright (BaseInt.shiftright (BaseInt.shiftright
      (BaseInt.shiftright x 0).1 0).1 0).1 0).1 = Level.val n x / 16 := by
  obtain ⟨a1, a2⟩ := Level.shiftright_zero n x hx
  obtain ⟨b1, b2⟩ := Level.shiftright_zero n _ a1
  obtain ⟨c1, c2⟩ := Level.shiftright_zero n _ b1
  obtain ⟨d1, d2⟩ := Level.shiftright_zero n _ c1
  exact ⟨d1, by omega⟩

theorem hexChar_eq (t : Nat) (ht : t < 16) :
    (if t > 0x9 then toChar (t + ('A'.toNat - 10)) else toChar (t + '0'.toNat))
      = hexDigitUpper t ∧ hexDigitUpper t ≠ NUL := by
  interval_cases t <;> decide

theorem low_nibble (m : Nat) : (m % 256) &&& 0xF = m % 16 := by
  have h := Nat.and_pow_two_sub_one_eq_mod (m % 256) 4
  norm_num at h ⊢
  omega

theorem hexNumeral_succ (k v : Nat) :
    hexNumeral (k + 1) v = hexNumeral k (v / 16) ++ [hexDigitUpper (v % 16)] := by
  unfold hexNumeral
  rw [List.range_succ, List.map_append]
  congr 1
  · apply List.map_congr_left
    intro i hi
    have hik : i < k := List.mem_range.mp hi
    have e : k + 1 - 1 - i = (k - 1 - i) + 1 := by omega
    rw [e, pow_succ, Nat.mul_comm, Nat.div_div_eq_div_mul]
  · simp

theorem hexNumeral_length (k v : Nat) : (hexNumeral k v).length = k := by
  simp [hexNumeral]

theorem hexNumeral_get (k v i : Nat) (hi : i < k) :
    (hexNumeral k v)[i]? = some (hexDigitUpper (v / 16 ^ (k - 1 - i) % 16)) := by
  simp [hexNumeral, List.getElem?_map, List.getElem?_range hi]

theorem hexNumeral_ne_NUL (k v : Nat) : ∀ c ∈ hexNumeral k v, c ≠ NUL := by
  intro c hc
  simp only [hexNumeral, List.mem_map, List.mem_range] at hc
  obtain ⟨i, _, rfl⟩ := hc
  exact (hexChar_eq _ (Nat.mod_lt _ (by norm_num))).2

theorem cstr_append_NUL (l : List Char) (h : ∀ c ∈ l, c ≠ NUL) : cstr (l ++ [NUL]) = l := by
  unfold cstr
  induction l with
  | nil => simp [List.takeWhile]
  | cons c cs ih =>
    have hc : (c != NUL) = true := by simpa using h c (List.mem_cons_self _ _)
    rw [List.cons_append, List.takeWhile_cons, hc]
    simp only [if_true]
    rw [ih (fun d hd => h d (List.mem_cons_of_mem _ hd))]

theorem int128_t.asStringHexLoop_base_eq (k : Nat) : ∀ (tmp : int128_t), Level.wf 0 tmp = true →
    int128_t.asStringHexLoop k tmp = hexNumeral k (Level.val 0 tmp) := by
  induction k with
  | zero => intro tmp _; rfl
  | succ k ih =>
    intro tmp htmp
    obtain ⟨w4, v4⟩ := Level.shiftright_four 0 tmp htmp
    have hnib : tmp.Lo &&& 0xF = Level.val 0 tmp % 16 := by
      have h := Nat.and_pow_two_sub_one_eq_mod tmp.Lo 4
      simp only [Level.val]
      norm_num at h ⊢
      omega
    rw [int128_t.asStringHexLoop, hexNumeral_succ]
    simp only [hnib]
    rw [(hexChar_eq _ (Nat.mod_lt _ (by norm_num))).1]
    congr 1
    exact (ih tmp.shiftright4 w4).trans (congrArg (hexNumeral k) v4)

theorem DoubleInt_t.asStringHexLoop_eq (n k : Nat) : ∀ (tmp : DoubleInt_t (Level n)),
    Level.wf (n + 1) tmp = true →
    DoubleInt_t.asStringHexLoop k tmp = hexNumeral k (Level.val (n + 1) tmp) := by
  induction k with
  | zero => intro tmp _; rfl
  | succ k ih =>
    intro tmp htmp
    obtain ⟨w4, v4⟩ := Level.shiftright_four (n + 1) tmp htmp
    have hnib : BaseInt.GetLowByte tmp.Lo &&& 0xF = Level.val (n + 1) tmp % 16 := by
      have h := Level.GetLowByte_eq (n + 1) tmp
      have h' : BaseInt.GetLowByte tmp.Lo = Level.val (n + 1) tmp % 256 := h
      rw [h', low_nibble]
    rw [DoubleInt_t.asStringHexLoop, hexNumeral_succ]
    simp only [hnib]
    rw [(hexChar_eq _ (Nat.mod_lt _ (by norm_num))).1]
    congr 1
    exact (ih tmp.shiftright4 w4).trans (congrArg (hexNumeral k) v4)

/-- C15: at every unsigned level, for a well-formed `v`, `AsString("%X")` and
`AsString("%x")` both return the zero-padded big-endian upper-case base-16 numeral of
`v`: exactly `size/4` characters, the `i`-th from the left being the digit ('0'-'9',
'A'-'F') of nibble number `size/4 - 1 - i`. -/
theorem AsString_hex_spec (n : Nat) (v0 : int128_t) (v : DoubleInt_t (Level n)) (fuel : Nat)
    (h0 : Level.wf 0 v0 = true) (hv : Level.wf (n + 1) v = true) :
    (∀ f ∈ ["%X", "%x"], int128_t.AsString v0 f
      = some (String.mk (hexNumeral (int128_t.size / 4) (Level.val 0 v0)))) ∧
    (∀ f ∈ ["%X", "%x"], DoubleInt_t.AsString fuel v f
      = some (.ok (String.mk (hexNumeral (DoubleInt_t.size (Level n) / 4)
          (Level.val (n + 1) v))))) ∧
    (∀ k x, (hexNumeral k x).length = k ∧
      ∀ i, i < k → (hexNumeral k x)[i]? = some (hexDigitUpper (x / 16 ^ (k - 1 - i) % 16))) ∧
    (∀ d, d < 16 → hexDigitUpper d = "0123456789ABCDEF".toList.getD d NUL) ∧
    DoubleInt_t.size (Level n) = Level.width (n + 1) := by
  refine ⟨?_, ?_, fun k x => ⟨hexNumeral_length k x, fun i hi => hexNumeral_get k x i hi⟩,
    fun d hd => by interval_cases d <;> decide,
    Level.size_eq_width (n + 1)⟩
  · intro f hf
    have hsel : ((cstr f.toList).getD 1 NUL = 'X' ∨ (cstr f.toList).getD 1 NUL = 'x') := by
      simp only [List.mem_cons, List.mem_singleton, List.not_mem_nil, or_false] at hf
      rcases hf with rfl | rfl
      · left; decide
      · right; decide
    unfold int128_t.AsString
    simp only [hsel, if_true, Nat.shiftRight_eq_div_pow]
    rw [int128_t.asStringHexLoop_base_eq _ v0 h0, cstr_append_NUL _ (hexNumeral_ne_NUL _ _)]
  · intro f hf
    have hsel : (cstr f.toList).getD 1 NUL ≠ 'd' ∧ (cstr f.toList).getD 1 NUL ≠ 'b' ∧
        ((cstr f.toList).getD 1 NUL = 'X' ∨ (cstr f.toList).getD 1 NUL = 'x') := by
      simp only [List.mem_cons, List.mem_singleton, List.not_mem_nil, or_false] at hf
      rcases hf with rfl | rfl
      · exact ⟨by decide, by decide, Or.inl (by decide)⟩
      · exact ⟨by decide, by decide, Or.inr (by decide)⟩
    unfold DoubleInt_t.AsString
    simp only [hsel.1, hsel.2.1, hsel.2.2, if_true, if_false, Nat.shiftRight_eq_div_pow]
    rw [DoubleInt_t.asStringHexLoop_eq n _ v hv, cstr_append_NUL _ (hexNumeral_ne_NUL _ _)]

/-- C15, at 128 and 256 bits: the values `2^64 + 255` and `2^128 + 0xAB`. -/
theorem AsString_hex_spec_witness :
    int128_t.AsString ⟨1, 255⟩ "%x"
      = some (String.mk (hexNumeral (int128_t.size / 4) (Level.val 0 ⟨1, 255⟩))) ∧
    DoubleInt_t.AsString 0 (⟨⟨0, 1⟩, ⟨0, 0xAB⟩⟩ : DoubleInt_t (Level 0)) "%X"
      = some (.ok (String.mk (hexNumeral (DoubleInt_t.size (Level 0) / 4)
          (Level.val 1 ⟨⟨0, 1⟩, ⟨0, 0xAB⟩⟩)))) :=
  have h := AsString_hex_spec 0 ⟨1, 255⟩ (⟨⟨0, 1⟩, ⟨0, 0xAB⟩⟩ : DoubleInt_t (Level 0)) 0
    (by decide) (by decide)
  ⟨h.1 "%x" (by decide), h.2.1 "%X" (by decide)⟩

/-! ## Small constants and comparisons of small values -/

theorem Level.two_pow_128_le (n : Nat) : 2 ^ 128 ≤ 2 ^ Level.width n := by
  apply Nat.pow_le_pow_right (by norm_num)
  have : 1 ≤ 2 ^ n := Nat.one_le_two_pow
  unfold Level.width
  omega

theorem Level.ofInt64_spec : ∀ (n : Nat) (k : Nat), k < 2 ^ 64 →
    Level.wf n (BaseInt.ofInt64 k) = true ∧ Level.val n (BaseInt.ofInt64 k) = k
  | 0, k, hk => by
    show Level.wf 0 (int128_t.ofInt64 k) = true ∧ Level.val 0 (int128_t.ofInt64 k) = k
    simp only [int128_t.ofInt64, Level.wf, Level.val, Bool.and_eq_true, decide_eq_true_eq]
    omega
  | n + 1, k, hk => by
    show Level.wf (n + 1) (DoubleInt_t.ofInt64 k) = true ∧
      Level.val (n + 1) (DoubleInt_t.ofInt64 k) = k
    obtain ⟨z1, z2⟩ := Level.ofInt64_spec n 0 (by norm_num)
    obtain ⟨k1, k2⟩ := Level.ofInt64_spec n k hk
    simp only [DoubleInt_t.ofInt64, Level.wf, Level.val, Bool.and_eq_true, z1, z2, k1, k2]
    simp

theorem Level.hi_zero_of_small (n : Nat) (hi lo : Level n) (B : Nat) (hB : B ≤ 2 ^ 128)
    (h : Level.val (n + 1) (⟨hi, lo⟩ : DoubleInt_t (Level n)) < B) :
    Level.val n hi = 0 ∧ Level.val n lo < B := by
  simp only [Level.val] at h
  have hW := Level.two_pow_128_le n
  generalize 2 ^ Level.width n = W at *
  rcases Nat.eq_zero_or_pos (Level.val n hi) with h0 | hpos
  · rw [h0] at h
    exact ⟨h0, by omega⟩
  · have : W ≤ Level.val n hi * W := Nat.le_mul_of_pos_left W hpos
    omega

theorem int64.toSigned_small (x : Nat) (h : x < 2 ^ 63) : int64.toSigned x = (x : Int) := by
  unfold int64.toSigned
  rw [if_pos h]

theorem Level.compare_small : ∀ (n : Nat) (x y : Level n),
    Level.wf n x = true → Level.wf n y = true →
    Level.val n x < 2 ^ 63 → Level.val n y < 2 ^ 63 →
    BaseInt.eq x y = decide (Level.val n x = Level.val n y) ∧
    BaseInt.gt x y = decide (Level.val n y < Level.val n x) ∧
    BaseInt.ge x y = decide (Level.val n y ≤ Level.val n x)
  | 0, x, y, hx, hy, sx, sy => by
    obtain ⟨xh, xl⟩ := x
    obtain ⟨yh, yl⟩ := y
    simp only [Level.val] at sx sy
    have hxh : xh = 0 := by omega
    have hyh : yh = 0 := by omega
    subst hxh hyh
    have hxl : xl < 2 ^ 63 := by omega
    have hyl : yl < 2 ^ 63 := by omega
    show int128_t.eq ⟨0, xl⟩ ⟨0, yl⟩ = _ ∧ int128_t.gt ⟨0, xl⟩ ⟨0, yl⟩ = _ ∧
      int128_t.ge ⟨0, xl⟩ ⟨0, yl⟩ = _
    simp only [int128_t.eq, int128_t.gt, int128_t.ge, int64.gt, int64.ge, int64.lt, int64.le,
      int64.toSigned_small _ hxl, int64.toSigned_small _ hyl,
      int64.toSigned_small 0 (by norm_num), Level.val]
    simp
    rfl
  | n + 1, x, y, hx, hy, sx, sy => by
    obtain ⟨xh, xl⟩ := x
    obtain ⟨yh, yl⟩ := y
    simp only [Level.wf, Bool.and_eq_true] at hx hy
    obtain ⟨hxh, hxl⟩ := Level.hi_zero_of_small n xh xl (2 ^ 63) (by norm_num) sx
    obtain ⟨hyh, hyl⟩ := Level.hi_zero_of_small n yh yl (2 ^ 63) (by norm_num) sy
    obtain ⟨e1, g1, _⟩ := Level.compare_small n xh yh hx.1 hy.1 (by omega) (by omega)
    obtain ⟨e2, g2, ge2⟩ := Level.compare_small n xl yl hx.2 hy.2 hxl hyl
    show DoubleInt_t.eq ⟨xh, xl⟩ ⟨yh, yl⟩ = _ ∧ DoubleInt_t.gt ⟨xh, xl⟩ ⟨yh, yl⟩ = _ ∧
      DoubleInt_t.ge ⟨xh, xl⟩ ⟨yh, yl⟩ = _
    simp only [DoubleInt_t.eq, DoubleInt_t.gt, DoubleInt_t.ge, e1, g1, e2, g2, ge2, Level.val,
      hxh, hyh]
    simp

theorem Level.orInt64_one : ∀ (n : Nat) (x : Level n), Level.wf n x = true →
    Level.val n x % 2 = 0 →
    Level.wf n (BaseInt.orInt64 x 1) = true ∧
    Level.val n (BaseInt.orInt64 x 1) = Level.val n x + 1
  | 0, x, hx, he => by
    obtain ⟨hi, lo⟩ := x
    simp only [Level.wf, Bool.and_eq_true, decide_eq_true_eq] at hx
    simp only [Level.val] at he
    show Level.wf 0 (int128_t.orInt64 ⟨hi, lo⟩ 1) = true ∧
      Level.val 0 (int128_t.orInt64 ⟨hi, lo⟩ 1) = Level.val 0 ⟨hi, lo⟩ + 1
    have hor : lo ||| 1 = lo + 1 := by
      have h := Nat.mul_add_lt_is_or (show 1 < 2 ^ 1 by norm_num) (lo / 2)
      have h2 : 2 ^ 1 * (lo / 2) = lo := by omega
      rw [h2] at h
      exact h.symm
    simp only [int128_t.orInt64, Level.wf, Level.val, hor, Bool.and_eq_true, decide_eq_true_eq]
    omega
  | n + 1, x, hx, he => by
    obtain ⟨hi, lo⟩ := x
    simp only [Level.wf, Bool.and_eq_true] at hx
    obtain ⟨K, hK⟩ := Level.two_pow_width_dvd n
    have hlo : Level.val n lo % 2 = 0 := by
      simp only [Level.val, hK] at he
      have : Level.val n hi * (256 * K) = 2 * (128 * (Level.val n hi * K)) := by ring
      rw [this] at he
      omega
    obtain ⟨w1, v1⟩ := Level.orInt64_one n lo hx.2 hlo
    show Level.wf (n + 1) (DoubleInt_t.orInt64 ⟨hi, lo⟩ 1) = true ∧
      Level.val (n + 1) (DoubleInt_t.orInt64 ⟨hi, lo⟩ 1) = Level.val (n + 1) ⟨hi, lo⟩ + 1
    simp only [DoubleInt_t.orInt64, Level.wf, Level.val, Bool.and_eq_true, hx.1, w1, v1]
    simp only [true_and]
    omega

theorem Level.SubDouble_of_le (n : Nat) (x y : Level n)
    (hx : Level.wf n x = true) (hy : Level.wf n y = true)
    (hle : Level.val n y ≤ Level.val n x) :
    Level.wf n (BaseInt.SubDouble x y 0).1 = true ∧
    Level.val n (BaseInt.SubDouble x y 0).1 = Level.val n x - Level.val n y ∧
    (BaseInt.SubDouble x y 0).2 = 0 := by
  obtain ⟨h1, h2, h3⟩ := Level.SubDouble_eq n x y 0 hx hy (Nat.zero_le 1)
  have hr := Level.val_lt n _ h1
  have hxl := Level.val_lt n x hx
  generalize 2 ^ Level.width n = W at *
  generalize (BaseInt.SubDouble x y 0).2 = c at *
  have hc : c = 0 ∨ c = 1 := by omega
  rcases hc with rfl | rfl
  · exact ⟨h1, by omega, rfl⟩
  · omega

/-! ## The division loop with a small divisor -/

theorem Level.divStep_eq (n : Nat) (B : Level n) (s : Level n × Level n) :
    Level.divStep n B s =
      if BaseInt.ge (BaseInt.shiftleft s.2 (BaseInt.shiftleft s.1 0).2).1 B = true then
        (BaseInt.orInt64 (BaseInt.shiftleft s.1 0).1 1,
          (BaseInt.SubDouble (BaseInt.shiftleft s.2 (BaseInt.shiftleft s.1 0).2).1 B 0).1)
      else ((BaseInt.shiftleft s.1 0).1, (BaseInt.shiftleft s.2 (BaseInt.shiftleft s.1 0).2).1) := by
  cases n <;> rfl

theorem Level.DivideDouble_eq (n : Nat) (A B : Level n) :
    BaseInt.DivideDouble A B =
      if BaseInt.eq B (BaseInt.ofInt64 0) = true then (A, .error .divisionByZero)
      else (((Level.divStep n B)^[BaseInt.size (Level n)] (A, BaseInt.ofInt64 0)).1,
        .ok ((Level.divStep n B)^[BaseInt.size (Level n)] (A, BaseInt.ofInt64 0)).2) := by
  cases n <;> rfl

/-- One turn of restoring division on numbers: the quotient register holds the
unread bits `m` of the dividend above the quotient bits `Q` found so far. -/
theorem div_shift_numeric (P E a t m Q q q1 h : Nat)
    (hm : m < 2 * P) (ha : a = t * (2 * P) + m) (ht : t < E) (hQ : Q ≤ t)
    (hq : q = m * E + Q) (hq1 : q1 + (2 * P * E) * h = 2 * q) (hq1lt : q1 < 2 * P * E)
    (hh : h ≤ 1) :
    ∃ m', a = (2 * t + h) * P + m' ∧ m' < P ∧ q1 = m' * (2 * E) + 2 * Q ∧ 2 * t + h < 2 * E := by
  have e1 : 2 * P * E = 2 * (P * E) := by ring
  have e2 : t * (2 * P) = 2 * (t * P) := by ring
  rw [e1] at hq1 hq1lt
  rw [e2] at ha
  rcases Nat.lt_or_ge m P with hlt | hge
  · have k1 : (m + 1) * E ≤ P * E := Nat.mul_le_mul_right E hlt
    have k2 : (m + 1) * E = m * E + E := by ring
    have hh0 : h = 0 := by
      rcases Nat.eq_zero_or_pos h with h0 | hpos
      · exact h0
      · have : h = 1 := by omega
        subst this
        omega
    subst hh0
    refine ⟨m, ?_, hlt, ?_, by omega⟩
    · have : (2 * t + 0) * P = 2 * (t * P) := by ring
      omega
    · have : m * (2 * E) = 2 * (m * E) := by ring
      omega
  · have k1 : P * E ≤ m * E := Nat.mul_le_mul_right E hge
    have k2 : (m + 1) * E ≤ (2 * P) * E := Nat.mul_le_mul_right E hm
    have k3 : (m + 1) * E = m * E + E := by ring
    have k4 : (2 * P) * E = 2 * (P * E) := by ring
    have k5 : (m - P) * E = m * E - P * E := Nat.sub_mul m P E
    have hh1 : h = 1 := by
      rcases Nat.eq_zero_or_pos h with h0 | hpos
      · subst h0
        omega
      · omega
    subst hh1
    refine ⟨m - P, ?_, by omega, ?_, by omega⟩
    · have : (2 * t + 1) * P = 2 * (t * P) + P := by ring
      omega
    · have : (m - P) * (2 * E) = 2 * ((m - P) * E) := by ring
      omega

theorem Level.divLoop_inv (n : Nat) (A B : Level n)
    (hA : Level.wf n A = true) (hB : Level.wf n B = true)
    (hb0 : 0 < Level.val n B) (hb : 2 * Level.val n B ≤ 2 ^ 63) :
    ∀ i, i ≤ Level.width n → ∃ t m Q,
      Level.wf n ((Level.divStep n B)^[i] (A, BaseInt.ofInt64 0)).1 = true ∧
      Level.wf n ((Level.divStep n B)^[i] (A, BaseInt.ofInt64 0)).2 = true ∧
      Level.val n A = t * 2 ^ (Level.width n - i) + m ∧ m < 2 ^ (Level.width n - i) ∧
      t < 2 ^ i ∧
      t = Level.val n B * Q + Level.val n ((Level.divStep n B)^[i] (A, BaseInt.ofInt64 0)).2 ∧
      Level.val n ((Level.divStep n B)^[i] (A, BaseInt.ofInt64 0)).2 < Level.val n B ∧
      Level.val n ((Level.divStep n B)^[i] (A, BaseInt.ofInt64 0)).1 = m * 2 ^ i + Q := by
  intro i
  induction i with
  | zero =>
    intro _
    obtain ⟨z1, z2⟩ := Level.ofInt64_spec n 0 (by norm_num)
    refine ⟨0, Level.val n A, 0, hA, z1, ?_, ?_, by norm_num, ?_, ?_, ?_⟩
    · simp
    · simpa using Level.val_lt n A hA
    · simp [z2]
    · simpa [z2] using hb0
    · simp
  | succ i ih =>
    intro hi
    obtain ⟨t, m, Q, wq, wr, ha, hm, ht, htq, hr, hq⟩ := ih (by omega)
    rw [Function.iterate_succ_apply', Level.divStep_eq]
    generalize (Level.divStep n B)^[i] (A, BaseInt.ofInt64 0) = s at *
    obtain ⟨q, r⟩ := s
    simp only at wq wr htq hr hq ⊢
    obtain ⟨wq1, hh, eq1⟩ := Level.shiftleft_eq n q 0 wq (Nat.zero_le 1)
    obtain ⟨wr1, hc, er1⟩ := Level.shiftleft_eq n r (BaseInt.shiftleft q 0).2 wr hh
    have q1lt := Level.val_lt n _ wq1
    have r1lt := Level.val_lt n _ wr1
    have hW128 := Level.two_pow_128_le n
    have hP : 2 ^ (Level.width n - i) = 2 * 2 ^ (Level.width n - (i + 1)) := by
      rw [← pow_succ']
      congr 1
      omega
    have hWPE : 2 ^ Level.width n = 2 * 2 ^ (Level.width n - (i + 1)) * 2 ^ i := by
      rw [← hP, ← pow_add]
      congr 1
      omega
    have hE : 2 ^ (i + 1) = 2 * 2 ^ i := by rw [pow_succ']
    rw [hP] at ha hm
    rw [hE]
    generalize 2 ^ (Level.width n - (i + 1)) = P at *
    generalize 2 ^ i = E at *
    generalize hq1def : Level.val n (BaseInt.shiftleft q 0).1 = q1 at *
    generalize (BaseInt.shiftleft q 0).2 = h at *
    obtain ⟨m', ha', hm', hq1, ht'⟩ := div_shift_numeric P E (Level.val n A) t m Q
      (Level.val n q) q1 h hm ha ht
      (by rw [htq]; exact Nat.le_add_right_of_le (Nat.le_mul_of_pos_left Q hb0))
      hq (by rw [← hWPE]; omega) (by rw [← hWPE]; exact q1lt) hh
    -- the remainder register: shifting in `h` does not overflow
    have hr1 : Level.val n (BaseInt.shiftleft r h).1 = 2 * Level.val n r + h := by
      generalize (BaseInt.shiftleft r h).2 = c at *
      have hc' : c = 0 ∨ c = 1 := by omega
      rcases hc' with rfl | rfl
      · omega
      · omega
    have hcmp := (Level.compare_small n (BaseInt.shiftleft r h).1 B wr1 hB
      (by omega) (by omega)).2.2
    have hBQ : Level.val n B * (2 * Q + 1) = 2 * (Level.val n B * Q) + Level.val n B := by ring
    have hBQ' : Level.val n B * (2 * Q) = 2 * (Level.val n B * Q) := by ring
    by_cases hge : Level.val n B ≤ Level.val n (BaseInt.shiftleft r h).1
    · rw [if_pos (by rw [hcmp]; exact decide_eq_true hge)]
      obtain ⟨ws, vs, _⟩ := Level.SubDouble_of_le n _ B wr1 hB hge
      have heven : Level.val n (BaseInt.shiftleft q 0).1 % 2 = 0 := by
        have : m' * (2 * E) = 2 * (m' * E) := by ring
        omega
      obtain ⟨wo, vo⟩ := Level.orInt64_one n _ wq1 heven
      refine ⟨2 * t + h, m', 2 * Q + 1, wo, ws, ha', hm', ht', ?_, ?_, ?_⟩
      · simp only [vs]
        omega
      · simp only [vs]
        omega
      · simp only [vo]
        omega
    · rw [if_neg (by rw [hcmp, decide_eq_false hge]; exact Bool.false_ne_true)]
      refine ⟨2 * t + h, m', 2 * Q, wq1, wr1, ha', hm', ht', ?_, ?_, ?_⟩
      · simp only
        omega
      · simp only
        omega
      · simp only
        omega

theorem Level.DivideDouble_small (n : Nat) (A B : Level n)
    (hA : Level.wf n A = true) (hB : Level.wf n B = true)
    (hb0 : 0 < Level.val n B) (hb : 2 * Level.val n B ≤ 2 ^ 63) :
    ∃ q r, BaseInt.DivideDouble A B = (q, .ok r) ∧
      Level.wf n q = true ∧ Level.wf n r = true ∧
      Level.val n q = Level.val n A / Level.val n B ∧
      Level.val n r = Level.val n A % Level.val n B := by
  have hne : ¬ BaseInt.eq B (BaseInt.ofInt64 0) = true := by
    intro h
    have := (Level.eq_zero_iff n B).mp h
    omega
  rw [Level.DivideDouble_eq, if_neg hne, Level.size_eq_width]
  obtain ⟨t, m, Q, wq, wr, ha, hm, _, htq, hr, hq⟩ :=
    Level.divLoop_inv n A B hA hB hb0 hb (Level.width n) (Nat.le_refl _)
  refine ⟨_, _, rfl, wq, wr, ?_, ?_⟩
  all_goals
    simp only [Nat.sub_self, pow_zero, Nat.mul_one, Nat.lt_one_iff] at ha hm
    subst hm
    simp only [Nat.zero_mul, Nat.zero_add, Nat.add_zero] at hq ha
    generalize Level.val n ((Level.divStep n B)^[Level.width n] (A, BaseInt.ofInt64 0)).2 = r at *
    generalize Level.val n ((Level.divStep n B)^[Level.width n] (A, BaseInt.ofInt64 0)).1 = q at *
    subst hq
    rw [ha, htq]
  · rw [Nat.add_comm, Nat.add_mul_div_left _ _ hb0, Nat.div_eq_of_lt hr, Nat.zero_add]
  · rw [Nat.add_comm, Nat.add_mul_mod_self_left, Nat.mod_eq_of_lt hr]

/-! ## The decimal text -/

theorem toDigitsCore_fuel (f1 : Nat) : ∀ (f2 n : Nat) (ds : List Char),
    0 < n → n < 10 ^ f1 → n < 10 ^ f2 →
    Nat.toDigitsCore 10 f1 n ds = Nat.toDigitsCore 10 f2 n ds := by
  induction f1 with
  | zero => intro f2 n ds h0 h1 _; simp at h1; omega
  | succ f1 ih =>
    intro f2 n ds h0 h1 h2
    cases f2 with
    | zero => simp at h2; omega
    | succ f2 =>
      simp only [Nat.toDigitsCore]
      by_cases hz : n / 10 = 0
      · simp [hz]
      · simp only [hz, if_false]
        apply ih
        · omega
        · rw [pow_succ] at h1; omega
        · rw [pow_succ] at h2; omega

theorem decChar_eq (d : Nat) (hd : d < 10) :
    toChar (d % 256 + '0'.toNat) = Nat.digitChar d ∧ Nat.digitChar d ≠ NUL := by
  interval_cases d <;> decide

theorem DoubleInt_t.asStringDecLoop_eq (n f : Nat) : ∀ (tmp : DoubleInt_t (Level n))
    (ret : List Char), Level.wf (n + 1) tmp = true → 0 < Level.val (n + 1) tmp →
    Level.val (n + 1) tmp < 10 ^ f →
    DoubleInt_t.asStringDecLoop (f + 1) tmp ret
      = some (.ok (Nat.toDigitsCore 10 f (Level.val (n + 1) tmp) ret)) := by
  induction f with
  | zero => intro tmp ret _ h0 h1; simp at h1; omega
  | succ f ih =>
    intro tmp ret hw h0 h1
    have hne : DoubleInt_t.ne tmp (DoubleInt_t.ofInt64 0) = true := by
      have h : ¬ BaseInt.eq (T := Level (n + 1)) tmp (BaseInt.ofInt64 0) = true := by
        intro e
        have := (Level.eq_zero_iff (n + 1) tmp).mp e
        omega
      have h' : ¬ DoubleInt_t.eq tmp (DoubleInt_t.ofInt64 0) = true := h
      unfold DoubleInt_t.ne
      have h'' : ¬ (BaseInt.eq tmp.Hi (DoubleInt_t.ofInt64 0 : DoubleInt_t (Level n)).Hi
          && BaseInt.eq tmp.Lo (DoubleInt_t.ofInt64 0 : DoubleInt_t (Level n)).Lo) = true := h'
      rw [if_neg h'']
    obtain ⟨t1, t2⟩ := Level.ofInt64_spec (n + 1) 10 (by norm_num)
    obtain ⟨q, r, hd, wq, wr, vq, vr⟩ := Level.DivideDouble_small (n + 1) tmp
      (BaseInt.ofInt64 10) hw t1 (by rw [t2]; norm_num) (by rw [t2]; norm_num)
    rw [t2] at vq vr
    have hd' : DoubleInt_t.DivideDouble tmp (DoubleInt_t.ofInt64 10) = (q, .ok r) := hd
    have hlow : DoubleInt_t.GetLowByte r = Level.val (n + 1) r % 256 :=
      Level.GetLowByte_eq (n + 1) r
    have hrlt : Level.val (n + 1) tmp % 10 < 10 := Nat.mod_lt _ (by norm_num)
    obtain ⟨hc1, hc2⟩ := decChar_eq _ hrlt
    have hcstr : cstr [Nat.digitChar (Level.val (n + 1) tmp % 10), NUL]
        = [Nat.digitChar (Level.val (n + 1) tmp % 10)] :=
      cstr_append_NUL [_] (by intro c hc; rw [List.mem_singleton.mp hc]; exact hc2)
    rw [DoubleInt_t.asStringDecLoop, if_pos hne]
    simp only [hd', hlow, vr, hc1, hcstr, List.singleton_append]
    rw [Nat.toDigitsCore]
    by_cases hz : Level.val (n + 1) tmp / 10 = 0
    · simp only [hz, if_true]
      have hqne : DoubleInt_t.ne q (DoubleInt_t.ofInt64 0) = false := by
        have e : BaseInt.eq (T := Level (n + 1)) q (BaseInt.ofInt64 0) = true :=
          (Level.eq_zero_iff (n + 1) q).mpr (by rw [vq]; exact hz)
        have e' : (BaseInt.eq q.Hi (DoubleInt_t.ofInt64 0 : DoubleInt_t (Level n)).Hi
            && BaseInt.eq q.Lo (DoubleInt_t.ofInt64 0 : DoubleInt_t (Level n)).Lo) = true := e
        unfold DoubleInt_t.ne
        rw [if_pos e']
      rw [DoubleInt_t.asStringDecLoop, hqne]
      simp
    · simp only [hz, if_false]
      rw [ih q _ wq (by rw [vq]; omega) (by rw [vq, pow_succ] at *; omega), vq]

theorem toDigitsCore_digits (f : Nat) : ∀ (m : Nat) (ds : List Char), 0 < m → m < 10 ^ f →
    Nat.toDigitsCore 10 f m ds = (Nat.digits 10 m).reverse.map Nat.digitChar ++ ds := by
  induction f with
  | zero => intro m ds h0 h1; simp at h1; omega
  | succ f ih =>
    intro m ds h0 h1
    rw [Nat.toDigitsCore, Nat.digits_def' (by norm_num) h0]
    by_cases hz : m / 10 = 0
    · simp [hz]
    · simp only [hz, if_false]
      rw [ih (m / 10) _ (by omega) (by rw [pow_succ] at h1; omega)]
      simp

theorem DoubleInt_t.AsString_decimal_repr (n : Nat) (v : DoubleInt_t (Level n)) (fuel : Nat)
    (hv : Level.wf (n + 1) v = true) (hfuel : Level.val (n + 1) v < 10 ^ fuel) :
    DoubleInt_t.AsString (fuel + 1) v "%d" = some (.ok (Nat.repr (Level.val (n + 1) v))) := by
  have hsel : (cstr "%d".toList).getD 1 NUL = 'd' := by decide
  have hrepr : ∀ m : Nat, 0 < m → ∀ f, m < 10 ^ f →
      Nat.repr m = String.mk (Nat.toDigitsCore 10 f m []) := by
    intro m hm f hf
    show String.mk (Nat.toDigitsCore 10 (m + 1) m []) = _
    rw [toDigitsCore_fuel (m + 1) f m [] hm
      (Nat.lt_trans (Nat.lt_pow_self (by norm_num) m)
        (Nat.pow_lt_pow_right (by norm_num) (Nat.lt_succ_self m))) hf]
  unfold DoubleInt_t.AsString
  simp only [hsel, if_true]
  by_cases hz : Level.val (n + 1) v = 0
  · have e : DoubleInt_t.eq v (DoubleInt_t.ofInt64 0) = true :=
      (Level.eq_zero_iff (n + 1) v).mpr hz
    rw [if_pos e, hz]
    rfl
  · have e : ¬ DoubleInt_t.eq v (DoubleInt_t.ofInt64 0) = true :=
      fun e => hz ((Level.eq_zero_iff (n + 1) v).mp e)
    rw [if_neg e, DoubleInt_t.asStringDecLoop_eq n fuel v [] hv (by omega) hfuel,
      hrepr _ (by omega) fuel hfuel]
    rfl

/-- C13: at every `DoubleInt_t` level, for a well-formed `v`, `AsString("%d")` ends (as
soon as the loop may test its condition once more than `v` has decimal digits) and
returns the canonical decimal numeral of the magnitude of `v`: "0" for zero, otherwise
the decimal digits most significant first without a leading zero. -/
theorem AsString_decimal_spec (n : Nat) (v : DoubleInt_t (Level n)) (fuel : Nat)
    (hv : Level.wf (n + 1) v = true) (hfuel : Level.val (n + 1) v < 10 ^ fuel) :
    DoubleInt_t.AsString (fuel + 1) v "%d" = some (.ok (Nat.repr (Level.val (n + 1) v))) ∧
    (Level.val (n + 1) v = 0 → Nat.repr (Level.val (n + 1) v) = "0") ∧
    (0 < Level.val (n + 1) v → Nat.repr (Level.val (n + 1) v)
      = String.mk ((Nat.digits 10 (Level.val (n + 1) v)).reverse.map Nat.digitChar)) := by
  have hrepr : ∀ m : Nat, 0 < m → ∀ f, m < 10 ^ f →
      Nat.repr m = String.mk (Nat.toDigitsCore 10 f m []) := by
    intro m hm f hf
    show String.mk (Nat.toDigitsCore 10 (m + 1) m []) = _
    rw [toDigitsCore_fuel (m + 1) f m [] hm
      (Nat.lt_trans (Nat.lt_pow_self (by norm_num) m)
        (Nat.pow_lt_pow_right (by norm_num) (Nat.lt_succ_self m))) hf]
  refine ⟨DoubleInt_t.AsString_decimal_repr n v fuel hv hfuel, fun h => by rw [h]; rfl,
    fun h => ?_⟩
  · rw [hrepr _ h _ (Nat.lt_pow_self (by norm_num) _), toDigitsCore_digits _ _ [] h
      (Nat.lt_pow_self (by norm_num) _), List.append_nil]

/-- C13, at 256 bits: the value `2^64 + 5`, twenty decimal digits. -/
theorem AsString_decimal_spec_witness :
    DoubleInt_t.AsString (20 + 1) (⟨⟨0, 0⟩, ⟨1, 5⟩⟩ : DoubleInt_t (Level 0)) "%d"
      = some (.ok (Nat.repr (Level.val 1 ⟨⟨0, 0⟩, ⟨1, 5⟩⟩))) :=
  (AsString_decimal_spec 0 (⟨⟨0, 0⟩, ⟨1, 5⟩⟩ : DoubleInt_t (Level 0)) 20
    (by decide) (by decide)).1

/-! ## Additions that do not meet the carry defect -/

theorem Add64_small_dest (A B carry : Nat) (hB : B < 2 ^ 64) (hc : carry ≤ 1)
    (hA : A + carry < 2 ^ 64) :
    (Add64 A B carry).1 < 2 ^ 64 ∧ (Add64 A B carry).2 ≤ 1 ∧
    (Add64 A B carry).1 + 2 ^ 64 * (Add64 A B carry).2 = A + B + carry := by
  unfold Add64 x86_add x86_adc
  have h1 : ¬ 2 ^ 64 ≤ A + carry := by omega
  simp only [h1, if_false, Nat.add_zero, Nat.zero_add]
  rw [Nat.mod_eq_of_lt hA]
  split <;> simp <;> omega

theorem Add64_zero (A : Nat) (hA : A < 2 ^ 64) : Add64 A 0 0 = (A, 0) := by
  obtain ⟨h1, h2, h3⟩ := Add64_small_dest A 0 0 (by norm_num) (Nat.zero_le 1) (by omega)
  apply Prod.ext <;> simp only <;> omega

theorem Level.AddDouble_small_dest : ∀ (n : Nat) (A B : Level n) (cin : Nat),
    Level.wf n A = true → Level.wf n B = true → cin ≤ 1 → Level.val n A + cin < 2 ^ 64 →
    Level.wf n (BaseInt.AddDouble A B cin).1 = true ∧ (BaseInt.AddDouble A B cin).2 ≤ 1 ∧
    Level.val n (BaseInt.AddDouble A B cin).1
        + 2 ^ Level.width n * (BaseInt.AddDouble A B cin).2
      = Level.val n A + Level.val n B + cin
  | 0, A, B, cin, hA, hB, hc, hs => by
    obtain ⟨ah, al⟩ := A
    obtain ⟨bh, bl⟩ := B
    simp only [Level.wf, Bool.and_eq_true, decide_eq_true_eq] at hA hB
    simp only [Level.val] at hs
    have hah : ah = 0 := by omega
    subst hah
    show Level.wf 0 (int128_t.AddDouble ⟨0, al⟩ ⟨bh, bl⟩ cin).1 = true ∧
      (int128_t.AddDouble ⟨0, al⟩ ⟨bh, bl⟩ cin).2 ≤ 1 ∧
      Level.val 0 (int128_t.AddDouble ⟨0, al⟩ ⟨bh, bl⟩ cin).1
          + 2 ^ Level.width 0 * (int128_t.AddDouble ⟨0, al⟩ ⟨bh, bl⟩ cin).2
        = Level.val 0 ⟨0, al⟩ + Level.val 0 ⟨bh, bl⟩ + cin
    obtain ⟨l1, l2, l3⟩ := Add64_small_dest al bl cin hB.2 hc (by omega)
    obtain ⟨h1, h2, h3⟩ := Add64_small_dest 0 bh (Add64 al bl cin).2 hB.1 l2 (by omega)
    simp only [int128_t.AddDouble, Level.wf, Level.val, Level.width, Bool.and_eq_true,
      decide_eq_true_eq]
    refine ⟨⟨h1, l1⟩, h2, ?_⟩
    omega
  | n + 1, A, B, cin, hA, hB, hc, hs => by
    obtain ⟨ah, al⟩ := A
    obtain ⟨bh, bl⟩ := B
    simp only [Level.wf, Bool.and_eq_true] at hA hB
    obtain ⟨hah, hal⟩ := Level.hi_zero_of_small n ah al (2 ^ 64 - cin) (by omega) (by omega)
    obtain ⟨l1, l2, l3⟩ := Level.AddDouble_small_dest n al bl cin hA.2 hB.2 hc (by omega)
    obtain ⟨h1, h2, h3⟩ := Level.AddDouble_small_dest n ah bh (BaseInt.AddDouble al bl cin).2
      hA.1 hB.1 l2 (by omega)
    show Level.wf (n + 1) (DoubleInt_t.AddDouble ⟨ah, al⟩ ⟨bh, bl⟩ cin).1 = true ∧
      (DoubleInt_t.AddDouble ⟨ah, al⟩ ⟨bh, bl⟩ cin).2 ≤ 1 ∧
      Level.val (n + 1) (DoubleInt_t.AddDouble ⟨ah, al⟩ ⟨bh, bl⟩ cin).1
          + 2 ^ Level.width (n + 1) * (DoubleInt_t.AddDouble ⟨ah, al⟩ ⟨bh, bl⟩ cin).2
        = Level.val (n + 1) ⟨ah, al⟩ + Level.val (n + 1) ⟨bh, bl⟩ + cin
    simp only [DoubleInt_t.AddDouble, Level.wf, Level.val, Bool.and_eq_true]
    refine ⟨⟨h1, l1⟩, h2, ?_⟩
    rw [Level.two_pow_width_succ]
    generalize 2 ^ Level.width n = W at *
    generalize Level.val n (BaseInt.AddDouble ah bh (BaseInt.AddDouble al bl cin).2).1 = rh at *
    generalize (BaseInt.AddDouble ah bh (BaseInt.AddDouble al bl cin).2).2 = c2 at *
    generalize Level.val n (BaseInt.AddDouble al bl cin).1 = rl at *
    generalize (BaseInt.AddDouble al bl cin).2 = c1 at *
    calc rh * W + rl + W * W * c2
        = (rh + W * c2) * W + rl := by ring
      _ = (Level.val n ah + Level.val n bh + c1) * W + rl := by rw [h3]
      _ = (Level.val n ah + Level.val n bh) * W + (rl + W * c1) := by ring
      _ = Level.val n ah * W + Level.val n al + (Level.val n bh * W + Level.val n bl) + cin := by
          rw [l3]; ring

theorem Level.val_eq_zero : ∀ (n : Nat) (x : Level n), Level.val n x = 0 →
    x = BaseInt.ofInt64 0
  | 0, x, h => by
    obtain ⟨hi, lo⟩ := x
    simp only [Level.val] at h
    have h1 : hi = 0 := by omega
    have h2 : lo = 0 := by omega
    subst h1 h2
    rfl
  | n + 1, x, h => by
    obtain ⟨hi, lo⟩ := x
    simp only [Level.val] at h
    have hW : 0 < 2 ^ Level.width n := by positivity
    have h2 : Level.val n lo = 0 := by omega
    have h1 : Level.val n hi = 0 := by
      rcases Nat.mul_eq_zero.mp (show Level.val n hi * 2 ^ Level.width n = 0 by omega) with h | h
      · exact h
      · omega
    rw [Level.val_eq_zero n hi h1, Level.val_eq_zero n lo h2]
    rfl

theorem Level.AddDouble_zero : ∀ (n : Nat) (A : Level n), Level.wf n A = true →
    BaseInt.AddDouble A (BaseInt.ofInt64 0) 0 = (A, 0)
  | 0, A, hA => by
    obtain ⟨ah, al⟩ := A
    simp only [Level.wf, Bool.and_eq_true, decide_eq_true_eq] at hA
    show int128_t.AddDouble ⟨ah, al⟩ (int128_t.ofInt64 0) 0 = (⟨ah, al⟩, 0)
    have e1 : Add64 al 0 0 = (al, 0) := Add64_zero al hA.2
    have e2 : Add64 ah 0 0 = (ah, 0) := Add64_zero ah hA.1
    simp only [int128_t.AddDouble, int128_t.ofInt64, e1, e2]
  | n + 1, A, hA => by
    obtain ⟨ah, al⟩ := A
    simp only [Level.wf, Bool.and_eq_true] at hA
    show DoubleInt_t.AddDouble ⟨ah, al⟩ (DoubleInt_t.ofInt64 0) 0 = (⟨ah, al⟩, 0)
    simp only [DoubleInt_t.AddDouble, DoubleInt_t.ofInt64, Level.AddDouble_zero n al hA.2,
      Level.AddDouble_zero n ah hA.1]

theorem Level.AddDouble_small_src : ∀ (n : Nat) (A : Level n) (k : Nat),
    Level.wf n A = true → k < 2 ^ 64 → Level.val n A + k < 2 ^ 128 →
    Level.wf n (BaseInt.AddDouble A (BaseInt.ofInt64 k) 0).1 = true ∧
    Level.val n (BaseInt.AddDouble A (BaseInt.ofInt64 k) 0).1 = Level.val n A + k ∧
    (BaseInt.AddDouble A (BaseInt.ofInt64 k) 0).2 = 0
  | 0, A, k, hA, hk, hs => by
    obtain ⟨ah, al⟩ := A
    simp only [Level.wf, Bool.and_eq_true, decide_eq_true_eq] at hA
    simp only [Level.val] at hs
    show Level.wf 0 (int128_t.AddDouble ⟨ah, al⟩ (int128_t.ofInt64 k) 0).1 = true ∧
      Level.val 0 (int128_t.AddDouble ⟨ah, al⟩ (int128_t.ofInt64 k) 0).1
        = Level.val 0 ⟨ah, al⟩ + k ∧
      (int128_t.AddDouble ⟨ah, al⟩ (int128_t.ofInt64 k) 0).2 = 0
    obtain ⟨l1, l2, l3⟩ := Add64_small_dest al k 0 hk (Nat.zero_le 1) (by omega)
    obtain ⟨h1, h2, h3⟩ := Add64_small_dest ah 0 (Add64 al k 0).2 (by norm_num) l2 (by omega)
    simp only [int128_t.AddDouble, int128_t.ofInt64, Level.wf, Level.val, Bool.and_eq_true,
      decide_eq_true_eq]
    refine ⟨⟨h1, l1⟩, ?_, ?_⟩ <;> omega
  | n + 1, A, k, hA, hk, hs => by
    obtain ⟨ah, al⟩ := A
    simp only [Level.wf, Bool.and_eq_true] at hA
    obtain ⟨hah, hal⟩ := Level.hi_zero_of_small n ah al (2 ^ 128 - k) (by omega) (by omega)
    obtain ⟨l1, l2, l3⟩ := Level.AddDouble_small_src n al k hA.2 hk (by omega)
    show Level.wf (n + 1) (DoubleInt_t.AddDouble ⟨ah, al⟩ (DoubleInt_t.ofInt64 k) 0).1 = true ∧
      Level.val (n + 1) (DoubleInt_t.AddDouble ⟨ah, al⟩ (DoubleInt_t.ofInt64 k) 0).1
        = Level.val (n + 1) ⟨ah, al⟩ + k ∧
      (DoubleInt_t.AddDouble ⟨ah, al⟩ (DoubleInt_t.ofInt64 k) 0).2 = 0
    simp only [DoubleInt_t.AddDouble, DoubleInt_t.ofInt64, l3, Level.AddDouble_zero n ah hA.1,
      Level.wf, Level.val, Bool.and_eq_true, hA.1, l1, l2]
    simp only [true_and, and_true]
    omega

theorem Level.val_inj : ∀ (n : Nat) (x y : Level n), Level.wf n x = true →
    Level.wf n y = true → Level.val n x = Level.val n y → x = y
  | 0, x, y, hx, hy, h => by
    obtain ⟨xh, xl⟩ := x
    obtain ⟨yh, yl⟩ := y
    simp only [Level.wf, Bool.and_eq_true, decide_eq_true_eq] at hx hy
    simp only [Level.val] at h
    have h1 : xh = yh := by omega
    have h2 : xl = yl := by omega
    rw [h1, h2]
  | n + 1, x, y, hx, hy, h => by
    obtain ⟨xh, xl⟩ := x
    obtain ⟨yh, yl⟩ := y
    simp only [Level.wf, Bool.and_eq_true] at hx hy
    simp only [Level.val] at h
    have lx := Level.val_lt n xl hx.2
    have ly := Level.val_lt n yl hy.2
    generalize 2 ^ Level.width n = W at *
    have hh : Level.val n xh = Level.val n yh := by
      rcases Nat.lt_trichotomy (Level.val n xh) (Level.val n yh) with hl | he | hg
      · have : (Level.val n xh + 1) * W ≤ Level.val n yh * W := Nat.mul_le_mul_right W hl
        have e : (Level.val n xh + 1) * W = Level.val n xh * W + W := by ring
        omega
      · exact he
      · have : (Level.val n yh + 1) * W ≤ Level.val n xh * W := Nat.mul_le_mul_right W hg
        have e : (Level.val n yh + 1) * W = Level.val n yh * W + W := by ring
        omega
    have hl : Level.val n xl = Level.val n yl := by rw [hh] at h; omega
    rw [Level.val_inj n xh yh hx.1 hy.1 hh, Level.val_inj n xl yl hx.2 hy.2 hl]

/-! ## Multiplication by a one-limb constant -/

theorem hi_le_of_mul (W z y b k : Nat) (h : z + W * y = b * k) (hb : b < W) (hk : k < 2 ^ 64) :
    y + 1 < 2 ^ 64 + 1 ∧ y + 1 ≤ 2 ^ 64 - 1 + (if k = 0 then 1 else 0) ∧ (k = 0 → y = 0 ∧ z = 0)
    ∧ (0 < k → y < k) := by
  rcases Nat.eq_zero_or_pos k with h0 | hpos
  · subst h0
    simp only [Nat.mul_zero, Nat.add_eq_zero_iff, Nat.mul_eq_zero] at h
    have hy : y = 0 := by
      rcases h.2 with hW | hy
      · omega
      · exact hy
    subst hy
    simp
    omega
  · have hy : y < k := by
      by_contra hcon
      have h1 : W * k ≤ W * y := Nat.mul_le_mul_left W (Nat.le_of_not_lt hcon)
      have h2 : b * k < W * k := Nat.mul_lt_mul_of_pos_right hb hpos
      omega
    refine ⟨by omega, ?_, fun h0 => by omega, fun _ => hy⟩
    rw [if_neg (by omega)]
    omega

theorem Level.MultiplyDouble_ofInt64 : ∀ (n : Nat) (A : Level n) (k : Nat),
    Level.wf n A = true → k < 2 ^ 64 →
    Level.wf n (BaseInt.MultiplyDouble A (BaseInt.ofInt64 k)).1 = true ∧
    Level.wf n (BaseInt.MultiplyDouble A (BaseInt.ofInt64 k)).2 = true ∧
    Level.val n (BaseInt.MultiplyDouble A (BaseInt.ofInt64 k)).1
        + 2 ^ Level.width n * Level.val n (BaseInt.MultiplyDouble A (BaseInt.ofInt64 k)).2
      = Level.val n A * k
  | 0, A, k, hA, hk => by
    obtain ⟨a, b⟩ := A
    simp only [Level.wf, Bool.and_eq_true, decide_eq_true_eq] at hA
    have hak : a * k ≤ (2 ^ 64 - 1) * (2 ^ 64 - 1) :=
      Nat.mul_le_mul (by omega) (by omega)
    have hbk : b * k ≤ (2 ^ 64 - 1) * (2 ^ 64 - 1) :=
      Nat.mul_le_mul (by omega) (by omega)
    have hy0 : b * k / 2 ^ 64 + 0 < 2 ^ 64 := by omega
    have ha1 : a * k % 2 ^ 64 < 2 ^ 64 := Nat.mod_lt _ (by norm_num)
    obtain ⟨s1a, s1b, s1c⟩ := Add64_small_dest (b * k / 2 ^ 64) (a * k % 2 ^ 64) 0 ha1
      (Nat.zero_le 1) hy0
    obtain ⟨s2a, s2b, s2c⟩ := Add64_small_dest (a * k / 2 ^ 64) 0
      (Add64 (b * k / 2 ^ 64) (a * k % 2 ^ 64) 0).2 (by norm_num) s1b (by omega)
    have hres : int128_t.MultiplyDouble ⟨a, b⟩ (int128_t.ofInt64 k)
        = (⟨(Add64 (b * k / 2 ^ 64) (a * k % 2 ^ 64) 0).1, b * k % 2 ^ 64⟩,
           ⟨0, (Add64 (a * k / 2 ^ 64) 0 (Add64 (b * k / 2 ^ 64) (a * k % 2 ^ 64) 0).2).1⟩) := by
      simp only [int128_t.MultiplyDouble, int128_t.ofInt64, Multiply64, x86_mul, Nat.mul_zero,
        Nat.zero_mod, Nat.zero_div, Add64_zero _ s1a, Add64_zero _ s2a,
        Add64_zero 0 (by norm_num)]
    show Level.wf 0 (int128_t.MultiplyDouble ⟨a, b⟩ (int128_t.ofInt64 k)).1 = true ∧
      Level.wf 0 (int128_t.MultiplyDouble ⟨a, b⟩ (int128_t.ofInt64 k)).2 = true ∧
      Level.val 0 (int128_t.MultiplyDouble ⟨a, b⟩ (int128_t.ofInt64 k)).1
          + 2 ^ Level.width 0 * Level.val 0 (int128_t.MultiplyDouble ⟨a, b⟩ (int128_t.ofInt64 k)).2
        = Level.val 0 ⟨a, b⟩ * k
    rw [hres]
    simp only [Level.wf, Level.val, Level.width, Bool.and_eq_true, decide_eq_true_eq]
    have hbz : b * k % 2 ^ 64 < 2 ^ 64 := Nat.mod_lt _ (by norm_num)
    refine ⟨⟨s1a, hbz⟩, ⟨by norm_num, s2a⟩, ?_⟩
    have e : (a * 2 ^ 64 + b) * k = 2 ^ 64 * (a * k) + b * k := by ring
    rw [e]
    generalize a * k = ak at *
    generalize b * k = bk at *
    generalize (Add64 (ak / 2 ^ 64) 0 (Add64 (bk / 2 ^ 64) (ak % 2 ^ 64) 0).2).1 = x1 at *
    generalize (Add64 (ak / 2 ^ 64) 0 (Add64 (bk / 2 ^ 64) (ak % 2 ^ 64) 0).2).2 = c2 at *
    generalize (Add64 (bk / 2 ^ 64) (ak % 2 ^ 64) 0).1 = y1 at *
    generalize (Add64 (bk / 2 ^ 64) (ak % 2 ^ 64) 0).2 = c1 at *
    omega
  | n + 1, A, k, hA, hk => by
    obtain ⟨a, b⟩ := A
    simp only [Level.wf, Bool.and_eq_true] at hA
    have hal := Level.val_lt n a hA.1
    have hbl := Level.val_lt n b hA.2
    have hW64 : 2 ^ 64 ≤ 2 ^ Level.width n :=
      Nat.le_trans (by norm_num) (Level.two_pow_128_le n)
    -- the partial products with the upper half of the constant, which is 0
    have hzero : ∀ x : Level n, Level.wf n x = true →
        BaseInt.MultiplyDouble x (BaseInt.ofInt64 0) = (BaseInt.ofInt64 0, BaseInt.ofInt64 0) := by
      intro x hx
      obtain ⟨_, _, e⟩ := Level.MultiplyDouble_ofInt64 n x 0 hx (by norm_num)
      have hp : 0 < 2 ^ Level.width n := by positivity
      simp only [Nat.mul_zero, Nat.add_eq_zero_iff, Nat.mul_eq_zero] at e
      have e2 : Level.val n (BaseInt.MultiplyDouble x (BaseInt.ofInt64 0)).2 = 0 := by
        rcases e.2 with h | h
        · omega
        · exact h
      exact Prod.ext (Level.val_eq_zero n _ e.1) (Level.val_eq_zero n _ e2)
    obtain ⟨m1a, m1b, m1c⟩ := Level.MultiplyDouble_ofInt64 n b k hA.2 hk
    obtain ⟨m2a, m2b, m2c⟩ := Level.MultiplyDouble_ofInt64 n a k hA.1 hk
    obtain ⟨y1, y2, y3, y4⟩ := hi_le_of_mul _ _ _ _ _ m1c hbl hk
    obtain ⟨x1, x2, x3, x4⟩ := hi_le_of_mul _ _ _ _ _ m2c hal hk
    obtain ⟨s1a, s1b, s1c⟩ := Level.AddDouble_small_dest n
      (BaseInt.MultiplyDouble b (BaseInt.ofInt64 k)).2
      (BaseInt.MultiplyDouble a (BaseInt.ofInt64 k)).1 0 m1b m2a (Nat.zero_le 1) (by omega)
    obtain ⟨z1, z2⟩ := Level.ofInt64_spec n 0 (by norm_num)
    have hx0c : Level.val n (BaseInt.MultiplyDouble a (BaseInt.ofInt64 k)).2
        + (BaseInt.AddDouble (BaseInt.MultiplyDouble b (BaseInt.ofInt64 k)).2
            (BaseInt.MultiplyDouble a (BaseInt.ofInt64 k)).1 0).2 < 2 ^ 64 := by
      rcases Nat.eq_zero_or_pos k with h0 | hpos
      · have := (x3 h0).1
        omega
      · have := x4 hpos
        omega
    obtain ⟨s2a, s2b, s2c⟩ := Level.AddDouble_small_dest n
      (BaseInt.MultiplyDouble a (BaseInt.ofInt64 k)).2 (BaseInt.ofInt64 0)
      (BaseInt.AddDouble (BaseInt.MultiplyDouble b (BaseInt.ofInt64 k)).2
        (BaseInt.MultiplyDouble a (BaseInt.ofInt64 k)).1 0).2 m2b z1 s1b hx0c
    have hres : DoubleInt_t.MultiplyDouble ⟨a, b⟩ (DoubleInt_t.ofInt64 k)
        = (⟨(BaseInt.AddDouble (BaseInt.MultiplyDouble b (BaseInt.ofInt64 k)).2
              (BaseInt.MultiplyDouble a (BaseInt.ofInt64 k)).1 0).1,
            (BaseInt.MultiplyDouble b (BaseInt.ofInt64 k)).1⟩,
           ⟨BaseInt.ofInt64 0,
            (BaseInt.AddDouble (BaseInt.MultiplyDouble a (BaseInt.ofInt64 k)).2
              (BaseInt.ofInt64 0)
              (BaseInt.AddDouble (BaseInt.MultiplyDouble b (BaseInt.ofInt64 k)).2
                (BaseInt.MultiplyDouble a (BaseInt.ofInt64 k)).1 0).2).1⟩) := by
      simp only [DoubleInt_t.MultiplyDouble, DoubleInt_t.ofInt64, hzero a hA.1, hzero b hA.2,
        Level.AddDouble_zero n _ s1a, Level.AddDouble_zero n _ s2a, Level.AddDouble_zero n _ z1]
    show Level.wf (n + 1) (DoubleInt_t.MultiplyDouble ⟨a, b⟩ (DoubleInt_t.ofInt64 k)).1 = true ∧
      Level.wf (n + 1) (DoubleInt_t.MultiplyDouble ⟨a, b⟩ (DoubleInt_t.ofInt64 k)).2 = true ∧
      Level.val (n + 1) (DoubleInt_t.MultiplyDouble ⟨a, b⟩ (DoubleInt_t.ofInt64 k)).1
          + 2 ^ Level.width (n + 1)
            * Level.val (n + 1) (DoubleInt_t.MultiplyDouble ⟨a, b⟩ (DoubleInt_t.ofInt64 k)).2
        = Level.val (n + 1) ⟨a, b⟩ * k
    rw [hres]
    simp only [Level.wf, Level.val, Bool.and_eq_true, z2, Nat.zero_mul, Nat.zero_add]
    refine ⟨⟨s1a, m1a⟩, ⟨z1, s2a⟩, ?_⟩
    rw [Level.two_pow_width_succ]
    have s2lt := Level.val_lt n _ s2a
    generalize 2 ^ Level.width n = W at *
    generalize Level.val n (BaseInt.AddDouble (BaseInt.MultiplyDouble a (BaseInt.ofInt64 k)).2
      (BaseInt.ofInt64 0) (BaseInt.AddDouble (BaseInt.MultiplyDouble b (BaseInt.ofInt64 k)).2
        (BaseInt.MultiplyDouble a (BaseInt.ofInt64 k)).1 0).2).1 = X1 at *
    generalize (BaseInt.AddDouble (BaseInt.MultiplyDouble a (BaseInt.ofInt64 k)).2
      (BaseInt.ofInt64 0) (BaseInt.AddDouble (BaseInt.MultiplyDouble b (BaseInt.ofInt64 k)).2
        (BaseInt.MultiplyDouble a (BaseInt.ofInt64 k)).1 0).2).2 = C2 at *
    generalize Level.val n (BaseInt.AddDouble (BaseInt.MultiplyDouble b (BaseInt.ofInt64 k)).2
      (BaseInt.MultiplyDouble a (BaseInt.ofInt64 k)).1 0).1 = Y1 at *
    generalize (BaseInt.AddDouble (BaseInt.MultiplyDouble b (BaseInt.ofInt64 k)).2
      (BaseInt.MultiplyDouble a (BaseInt.ofInt64 k)).1 0).2 = C1 at *
    generalize Level.val n (BaseInt.MultiplyDouble a (BaseInt.ofInt64 k)).2 = X0 at *
    generalize Level.val n (BaseInt.MultiplyDouble a (BaseInt.ofInt64 k)).1 = A1 at *
    generalize Level.val n (BaseInt.MultiplyDouble b (BaseInt.ofInt64 k)).2 = Y0 at *
    generalize Level.val n (BaseInt.MultiplyDouble b (BaseInt.ofInt64 k)).1 = Z at *
    have hC2 : C2 = 0 := by
      rcases Nat.eq_zero_or_pos C2 with h | h
      · exact h
      · have : W ≤ W * C2 := Nat.le_mul_of_pos_right W h
        omega
    subst hC2
    have hX1 : X1 = X0 + C1 := by omega
    subst hX1
    calc Y1 * W + Z + W * W * (X0 + C1)
        = (Y1 + W * C1) * W + Z + W * (W * X0) := by ring
      _ = (Y0 + A1 + 0) * W + Z + W * (W * X0) := by rw [s1c]
      _ = W * (A1 + W * X0) + (Z + W * Y0) := by ring
      _ = W * (Level.val n a * k) + Level.val n b * k := by rw [m2c, m1c]
      _ = (Level.val n a * W + Level.val n b) * k := by ring

/-! ## Reading a decimal text back -/

theorem digitChar_facts (d : Nat) (hd : d < 10) :
    (Nat.digitChar d ≤ '9' ∧ '0' ≤ Nat.digitChar d) ∧
    ('0' ≤ Nat.digitChar d ∧ Nat.digitChar d ≤ '9') ∧
    (Nat.digitChar d).toNat - '0'.toNat = d ∧
    Nat.digitChar d ≠ 'x' ∧ Nat.digitChar d ≠ NUL := by
  interval_cases d <;> decide

theorem foldl_decimal_ge (ds : List Nat) : ∀ acc : Nat,
    acc ≤ ds.foldl (fun a d => 10 * a + d) acc := by
  induction ds with
  | nil => intro acc; exact Nat.le_refl _
  | cons d ds ih =>
    intro acc
    exact Nat.le_trans (by omega) (ih (10 * acc + d))

theorem foldl_decimal_reverse (L : List Nat) :
    L.reverse.foldl (fun a d => 10 * a + d) 0 = Nat.ofDigits 10 L := by
  induction L with
  | nil => rfl
  | cons d L ih =>
    rw [List.reverse_cons, List.foldl_append, ih, Nat.ofDigits_cons]
    simp only [List.foldl_cons, List.foldl_nil]
    omega

theorem cstr_digits (ds : List Nat) (hds : ∀ d ∈ ds, d < 10) :
    cstr (ds.map Nat.digitChar) = ds.map Nat.digitChar := by
  unfold cstr
  rw [List.takeWhile_eq_self_iff]
  intro c hc
  obtain ⟨d, hd, rfl⟩ := List.mem_map.mp hc
  simpa using (digitChar_facts d (hds d hd)).2.2.2.2

theorem DoubleInt_t.fromStringStart_digits (ds : List Nat) (hds : ∀ d ∈ ds, d < 10) :
    DoubleInt_t.fromStringStart (ds.map Nat.digitChar) = (10, ds.map Nat.digitChar) := by
  cases ds with
  | nil => rfl
  | cons d rest =>
    have hd := digitChar_facts d (hds d (List.mem_cons_self _ _))
    rw [List.map_cons, DoubleInt_t.fromStringStart]
    by_cases h0 : Nat.digitChar d = '0'
    · rw [if_pos h0]
      have hx : ¬ (List.map Nat.digitChar rest).headD NUL = 'x' := by
        cases rest with
        | nil => decide
        | cons e rest' =>
          simpa using (digitChar_facts e (hds e (by simp))).2.2.2.1
      rw [if_neg hx]
    · rw [if_neg h0, if_pos hd.2.1]

theorem DoubleInt_t.fromStringDec_digits (n : Nat) (ds : List Nat) :
    ∀ (v : DoubleInt_t (Level n)), (∀ d ∈ ds, d < 10) → Level.wf (n + 1) v = true →
    ds.foldl (fun a d => 10 * a + d) (Level.val (n + 1) v) < 2 ^ 128 →
    Level.wf (n + 1) (DoubleInt_t.fromStringDec (ds.map Nat.digitChar) v) = true ∧
    Level.val (n + 1) (DoubleInt_t.fromStringDec (ds.map Nat.digitChar) v)
      = ds.foldl (fun a d => 10 * a + d) (Level.val (n + 1) v) := by
  induction ds with
  | nil => intro v _ hv _; exact ⟨hv, rfl⟩
  | cons d ds ih =>
    intro v hds hv hlt
    have hd := digitChar_facts d (hds d (List.mem_cons_self _ _))
    have hd10 : d < 10 := hds d (List.mem_cons_self _ _)
    rw [List.foldl_cons] at hlt ⊢
    have hge := foldl_decimal_ge ds (10 * Level.val (n + 1) v + d)
    obtain ⟨m1, m2, m3⟩ := Level.MultiplyDouble_ofInt64 (n + 1) v 10 hv (by norm_num)
    have hW := Level.two_pow_128_le (n + 1)
    have hhi : Level.val (n + 1) (BaseInt.MultiplyDouble v (BaseInt.ofInt64 10)).2 = 0 := by
      rcases Nat.eq_zero_or_pos
        (Level.val (n + 1) (BaseInt.MultiplyDouble v (BaseInt.ofInt64 10)).2) with h | h
      · exact h
      · have : 2 ^ Level.width (n + 1) ≤ 2 ^ Level.width (n + 1)
            * Level.val (n + 1) (BaseInt.MultiplyDouble v (BaseInt.ofInt64 10)).2 :=
          Nat.le_mul_of_pos_right _ h
        omega
    have hm : Level.val (n + 1) (BaseInt.MultiplyDouble v (BaseInt.ofInt64 10)).1
        = 10 * Level.val (n + 1) v := by
      rw [hhi] at m3
      omega
    obtain ⟨a1, a2, _⟩ := Level.AddDouble_small_src (n + 1)
      (BaseInt.MultiplyDouble v (BaseInt.ofInt64 10)).1 d m1 (by omega) (by omega)
    rw [hm] at a2
    rw [List.map_cons, DoubleInt_t.fromStringDec, if_pos hd.1]
    simp only [hd.2.2.1]
    have step := ih (DoubleInt_t.AddDouble (DoubleInt_t.MultiplyDouble v
      (DoubleInt_t.ofInt64 10)).1 (DoubleInt_t.ofInt64 d) 0).1
      (fun e he => hds e (List.mem_cons_of_mem _ he)) a1
      (by rw [show Level.val (n + 1) (DoubleInt_t.AddDouble (DoubleInt_t.MultiplyDouble v
        (DoubleInt_t.ofInt64 10)).1 (DoubleInt_t.ofInt64 d) 0).1
          = 10 * Level.val (n + 1) v + d from a2]; exact hlt)
    rw [show Level.val (n + 1) (DoubleInt_t.AddDouble (DoubleInt_t.MultiplyDouble v
        (DoubleInt_t.ofInt64 10)).1 (DoubleInt_t.ofInt64 d) 0).1
          = 10 * Level.val (n + 1) v + d from a2] at step
    exact step

theorem repr_digits (m : Nat) : ∃ L : List Nat, (∀ d ∈ L, d < 10) ∧
    (Nat.repr m).toList = L.map Nat.digitChar ∧ L.foldl (fun a d => 10 * a + d) 0 = m := by
  rcases Nat.eq_zero_or_pos m with h0 | hpos
  · subst h0
    exact ⟨[0], by simp, by decide, by simp⟩
  · refine ⟨(Nat.digits 10 m).reverse, ?_, ?_, ?_⟩
    · intro d hd
      exact Nat.digits_lt_base (by norm_num) (List.mem_reverse.mp hd)
    · have : Nat.repr m = String.mk ((Nat.digits 10 m).reverse.map Nat.digitChar) := by
        show String.mk (Nat.toDigitsCore 10 (m + 1) m []) = _
        rw [toDigitsCore_digits (m + 1) m [] hpos
          (Nat.lt_trans (Nat.lt_pow_self (by norm_num) m)
            (Nat.pow_lt_pow_right (by norm_num) (Nat.lt_succ_self m))), List.append_nil]
      rw [this]
      rfl
    · rw [foldl_decimal_reverse, Nat.ofDigits_digits]

theorem DoubleInt_t.FromString_repr (n : Nat) (v : DoubleInt_t (Level n))
    (hv : Level.wf (n + 1) v = true) (hlt : Level.val (n + 1) v < 2 ^ 128) :
    (DoubleInt_t.FromString (Nat.repr (Level.val (n + 1) v)) : DoubleInt_t (Level n)) = v := by
  obtain ⟨L, hL, hs, hf⟩ := repr_digits (Level.val (n + 1) v)
  obtain ⟨z1, z2⟩ := Level.ofInt64_spec (n + 1) 0 (by norm_num)
  have z1' : Level.wf (n + 1) (⟨BaseInt.ofInt64 0, BaseInt.ofInt64 0⟩ : DoubleInt_t (Level n))
      = true := z1
  have z2' : Level.val (n + 1) (⟨BaseInt.ofInt64 0, BaseInt.ofInt64 0⟩ : DoubleInt_t (Level n))
      = 0 := z2
  obtain ⟨w, e⟩ := DoubleInt_t.fromStringDec_digits n L _ hL z1' (by rw [z2', hf]; exact hlt)
  rw [z2', hf] at e
  unfold DoubleInt_t.FromString
  simp only [hs, cstr_digits L hL, DoubleInt_t.fromStringStart_digits L hL, if_true]
  exact Level.val_inj (n + 1) _ _ w hv e

/-- C11, at the failing input: at 256 bits the value 16. `AsString("%X")` returns 64
digits ending in "10" without a "0x" prefix, and `FromString` reads a text without that
prefix in base 10, so it leaves 10. -/
theorem round_trip_hex_reads_decimal :
    DoubleInt_t.AsString 0 (⟨⟨0, 0⟩, ⟨0, 16⟩⟩ : DoubleInt_t (Level 0)) "%X"
      = some (.ok "0000000000000000000000000000000000000000000000000000000000000010") ∧
    (DoubleInt_t.FromString "0000000000000000000000000000000000000000000000000000000000000010"
      : DoubleInt_t (Level 0)) = ⟨⟨0, 0⟩, ⟨0, 10⟩⟩ ∧
    (DoubleInt_t.FromString "0000000000000000000000000000000000000000000000000000000000000010"
      : DoubleInt_t (Level 0)) ≠ ⟨⟨0, 0⟩, ⟨0, 16⟩⟩ := by
  decide!

/-- C11, amended: at every `DoubleInt_t` level, for a well-formed `v` below `2^128`,
`AsString("%d")` returns a text and `FromString` on that text reproduces `v`. -/
theorem round_trip_decimal (n : Nat) (v : DoubleInt_t (Level n)) (fuel : Nat)
    (hv : Level.wf (n + 1) v = true) (h128 : Level.val (n + 1) v < 2 ^ 128)
    (hfuel : Level.val (n + 1) v < 10 ^ fuel) :
    ∃ s, DoubleInt_t.AsString (fuel + 1) v "%d" = some (.ok s) ∧
      (DoubleInt_t.FromString s : DoubleInt_t (Level n)) = v :=
  ⟨Nat.repr (Level.val (n + 1) v), DoubleInt_t.AsString_decimal_repr n v fuel hv hfuel,
    DoubleInt_t.FromString_repr n v hv h128⟩

/-- C11, amended, at 256 bits: the value `2^64 + 5`. -/
theorem round_trip_decimal_witness :
    ∃ s, DoubleInt_t.AsString (20 + 1) (⟨⟨0, 0⟩, ⟨1, 5⟩⟩ : DoubleInt_t (Level 0)) "%d"
        = some (.ok s) ∧
      (DoubleInt_t.FromString s : DoubleInt_t (Level 0)) = ⟨⟨0, 0⟩, ⟨1, 5⟩⟩ :=
  round_trip_decimal 0 (⟨⟨0, 0⟩, ⟨1, 5⟩⟩ : DoubleInt_t (Level 0)) 20
    (by decide) (by decide) (by decide)

/-! ## Claims on the signed wrapper, second part -/

/-- C21, at the failing input: over 256 bits, `a = -10` and `b = +3`. The quotient left
in `A` is `-3` and the returned remainder is `+1` (`Negative = 0`), so `q * b + r = -8`,
not `-10`, and the non-zero remainder does not have the sign of `a`. -/
theorem SignedInt_DivideDouble_remainder_unsigned :
    SignedInt_t.DivideDouble (⟨⟨⟨0, 0⟩, ⟨0, 10⟩⟩, 1⟩ : SignedInt_t (Level 1))
        ⟨⟨⟨0, 0⟩, ⟨0, 3⟩⟩, 0⟩
      = (⟨⟨⟨0, 0⟩, ⟨0, 3⟩⟩, 1⟩, .ok ⟨⟨⟨0, 0⟩, ⟨0, 1⟩⟩, 0⟩) ∧
    SignedInt_t.toInt 1 ⟨⟨⟨0, 0⟩, ⟨0, 3⟩⟩, 1⟩ * SignedInt_t.toInt 1 ⟨⟨⟨0, 0⟩, ⟨0, 3⟩⟩, 0⟩
        + SignedInt_t.toInt 1 ⟨⟨⟨0, 0⟩, ⟨0, 1⟩⟩, 0⟩ = -8 ∧
    SignedInt_t.toInt 1 ⟨⟨⟨0, 0⟩, ⟨0, 10⟩⟩, 1⟩ = -10 ∧
    SignedInt_t.toInt 1 ⟨⟨⟨0, 0⟩, ⟨0, 3⟩⟩, 1⟩ * SignedInt_t.toInt 1 ⟨⟨⟨0, 0⟩, ⟨0, 3⟩⟩, 0⟩
        + SignedInt_t.toInt 1 ⟨⟨⟨0, 0⟩, ⟨0, 1⟩⟩, 0⟩
      ≠ SignedInt_t.toInt 1 ⟨⟨⟨0, 0⟩, ⟨0, 10⟩⟩, 1⟩ := by
  decide!

/-- C22, at the failing inputs: over 256 bits `FromString("-0")` and `FromString("-")`
leave magnitude 0 with `Negative = 1`; so do `>>= 1` on `-1`, `&= 0` on `-1`, and
`AddDouble` on `-2^255` and `-2^255` (which returns carry 1). -/
theorem SignedInt_negative_zero_reached :
    (SignedInt_t.FromString "-0" : SignedInt_t (DoubleInt_t (Level 0)))
      = ⟨⟨⟨0, 0⟩, ⟨0, 0⟩⟩, 1⟩ ∧
    (SignedInt_t.FromString "-" : SignedInt_t (DoubleInt_t (Level 0)))
      = ⟨⟨⟨0, 0⟩, ⟨0, 0⟩⟩, 1⟩ ∧
    SignedInt_t.shrAssign (⟨⟨⟨0, 0⟩, ⟨0, 1⟩⟩, 1⟩ : SignedInt_t (Level 1)) 1
      = ⟨⟨⟨0, 0⟩, ⟨0, 0⟩⟩, 1⟩ ∧
    SignedInt_t.andInt64 (⟨⟨⟨0, 0⟩, ⟨0, 1⟩⟩, 1⟩ : SignedInt_t (Level 1)) 0
      = ⟨⟨⟨0, 0⟩, ⟨0, 0⟩⟩, 1⟩ ∧
    SignedInt_t.AddDouble (⟨⟨⟨2 ^ 63, 0⟩, ⟨0, 0⟩⟩, 1⟩ : SignedInt_t (Level 1))
        ⟨⟨⟨2 ^ 63, 0⟩, ⟨0, 0⟩⟩, 1⟩ 0
      = (⟨⟨⟨0, 0⟩, ⟨0, 0⟩⟩, 1⟩, .ok 1) ∧
    Level.val 1 ⟨⟨0, 0⟩, ⟨0, 0⟩⟩ = 0 := by
  decide

/-- C23: for `SignedInt_t` over every level and all `A`, `B`, `AddDouble(&A, B, carry)`
with `carry != 0` fails with the non-zero-carry failure and leaves `A` as it was. -/
theorem SignedInt_AddDouble_rejects_carry (n : Nat) (A B : SignedInt_t (Level n))
    (carry : Nat) (hc : carry ≠ 0) :
    SignedInt_t.AddDouble A B carry = (A, .error .nonZeroCarry) := by
  unfold SignedInt_t.AddDouble
  rw [if_pos hc]

/-- C23, over 256 bits: `(-5) + (+7)` with carry 1. -/
theorem SignedInt_AddDouble_rejects_carry_witness :
    SignedInt_t.AddDouble (⟨⟨⟨0, 0⟩, ⟨0, 5⟩⟩, 1⟩ : SignedInt_t (Level 1))
        ⟨⟨⟨0, 0⟩, ⟨0, 7⟩⟩, 0⟩ 1
      = (⟨⟨⟨0, 0⟩, ⟨0, 5⟩⟩, 1⟩, .error .nonZeroCarry) :=
  SignedInt_AddDouble_rejects_carry 1 ⟨⟨⟨0, 0⟩, ⟨0, 5⟩⟩, 1⟩ ⟨⟨⟨0, 0⟩, ⟨0, 7⟩⟩, 0⟩ 1 (by decide)

/-- C24, at the failing inputs: over 256 bits `AddDouble` on `A = +2^63`, `B = -1` and
`SubDouble` on `A = -2^63`, `B = -1` both throw the borrow failure, and `A` is left with
the magnitude `(1 - 2^63) mod 2^256` (and, for `SubDouble`, with its sign flipped): the
subtraction has written `A->Value` before its borrow is tested. -/
theorem SignedInt_failure_leaves_A_modified :
    SignedInt_t.AddDouble (⟨⟨⟨0, 0⟩, ⟨0, 2 ^ 63⟩⟩, 0⟩ : SignedInt_t (Level 1))
        ⟨⟨⟨0, 0⟩, ⟨0, 1⟩⟩, 1⟩ 0
      = (⟨⟨⟨2 ^ 64 - 1, 2 ^ 64 - 1⟩, ⟨2 ^ 64 - 1, 2 ^ 63 + 1⟩⟩, 0⟩, .error .borrowNecessary) ∧
    SignedInt_t.SubDouble (⟨⟨⟨0, 0⟩, ⟨0, 2 ^ 63⟩⟩, 1⟩ : SignedInt_t (Level 1))
        ⟨⟨⟨0, 0⟩, ⟨0, 1⟩⟩, 1⟩ 0
      = (⟨⟨⟨2 ^ 64 - 1, 2 ^ 64 - 1⟩, ⟨2 ^ 64 - 1, 2 ^ 63 + 1⟩⟩, 0⟩, .error .borrowNecessary) ∧
    (SignedInt_t.AddDouble (⟨⟨⟨0, 0⟩, ⟨0, 2 ^ 63⟩⟩, 0⟩ : SignedInt_t (Level 1))
        ⟨⟨⟨0, 0⟩, ⟨0, 1⟩⟩, 1⟩ 0).1 ≠ ⟨⟨⟨0, 0⟩, ⟨0, 2 ^ 63⟩⟩, 0⟩ ∧
    (SignedInt_t.SubDouble (⟨⟨⟨0, 0⟩, ⟨0, 2 ^ 63⟩⟩, 1⟩ : SignedInt_t (Level 1))
        ⟨⟨⟨0, 0⟩, ⟨0, 1⟩⟩, 1⟩ 0).1 ≠ ⟨⟨⟨0, 0⟩, ⟨0, 2 ^ 63⟩⟩, 1⟩ := by
  decide

/-- C25: for `SignedInt_t` over every level, every `a` with `Negative = 1` and every `b`
with `Negative = 0`, whatever their magnitudes: `a < b`, `a <= b`, `b > a` and `b >= a`
are true, and `a > b`, `a >= b`, `b < a`, `b <= a` and `a == b` are false. -/
theorem SignedInt_compare_opposite_signs (n : Nat) (a b : SignedInt_t (Level n))
    (ha : a.Negative = 1) (hb : b.Negative = 0) :
    SignedInt_t.lt a b = true ∧ SignedInt_t.le a b = true ∧
    SignedInt_t.gt b a = true ∧ SignedInt_t.ge b a = true ∧
    SignedInt_t.gt a b = false ∧ SignedInt_t.ge a b = false ∧
    SignedInt_t.lt b a = false ∧ SignedInt_t.le b a = false ∧
    SignedInt_t.eq a b = false := by
  simp [SignedInt_t.lt, SignedInt_t.le, SignedInt_t.gt, SignedInt_t.ge, SignedInt_t.eq, ha, hb]

/-- C25, over 256 bits: `a = -1` and `b = +2^63`. -/
theorem SignedInt_compare_opposite_signs_witness :
    SignedInt_t.lt (⟨⟨⟨0, 0⟩, ⟨0, 1⟩⟩, 1⟩ : SignedInt_t (Level 1)) ⟨⟨⟨0, 0⟩, ⟨0, 2 ^ 63⟩⟩, 0⟩
      = true ∧
    SignedInt_t.ge (⟨⟨⟨0, 0⟩, ⟨0, 1⟩⟩, 1⟩ : SignedInt_t (Level 1)) ⟨⟨⟨0, 0⟩, ⟨0, 2 ^ 63⟩⟩, 0⟩
      = false :=
  have h := SignedInt_compare_opposite_signs 1 (⟨⟨⟨0, 0⟩, ⟨0, 1⟩⟩, 1⟩ : SignedInt_t (Level 1))
    ⟨⟨⟨0, 0⟩, ⟨0, 2 ^ 63⟩⟩, 0⟩ rfl rfl
  ⟨h.1, h.2.2.2.2.2.1⟩

/-- C26, at the failing inputs: over 256 bits, `a = +2^63` and `b = +1` are both
non-negative and the magnitude of `a` is the larger, yet `a > b` is false; `a = -2^63`
and `b = -1` are both negative and the magnitude of `a` is the larger, yet `a < b` is
false. The magnitudes are compared by the unsigned level, which reads limbs as signed. -/
theorem SignedInt_compare_same_sign_signed_limbs :
    SignedInt_t.gt (⟨⟨⟨0, 0⟩, ⟨0, 2 ^ 63⟩⟩, 0⟩ : SignedInt_t (Level 1)) ⟨⟨⟨0, 0⟩, ⟨0, 1⟩⟩, 0⟩
      = false ∧
    SignedInt_t.lt (⟨⟨⟨0, 0⟩, ⟨0, 2 ^ 63⟩⟩, 1⟩ : SignedInt_t (Level 1)) ⟨⟨⟨0, 0⟩, ⟨0, 1⟩⟩, 1⟩
      = false ∧
    Level.val 1 ⟨⟨0, 0⟩, ⟨0, 1⟩⟩ < Level.val 1 ⟨⟨0, 0⟩, ⟨0, 2 ^ 63⟩⟩ := by
  decide

/-- C27, at the failing input: at 128 bits, `a = 2^128 - 1` and `b = 1`.
`AddDouble(&a, b, 0)` leaves `2^64` and returns 0, `AddDouble(&b, a, 0)` leaves 0 and
returns 1: `Add64` treats its destination and its source differently when the carry-in
meets an all-ones destination limb. -/
theorem AddDouble_not_commutative :
    int128_t.AddDouble ⟨2 ^ 64 - 1, 2 ^ 64 - 1⟩ ⟨0, 1⟩ 0 = (⟨1, 0⟩, 0) ∧
    int128_t.AddDouble ⟨0, 1⟩ ⟨2 ^ 64 - 1, 2 ^ 64 - 1⟩ 0 = (⟨0, 0⟩, 1) ∧
    int128_t.AddDouble ⟨2 ^ 64 - 1, 2 ^ 64 - 1⟩ ⟨0, 1⟩ 0
      ≠ int128_t.AddDouble ⟨0, 1⟩ ⟨2 ^ 64 - 1, 2 ^ 64 - 1⟩ 0 := by
  decide

/-! ## Multiplying by one and by zero, and the lifted multiplication -/

theorem Add64_fst_lt (A B c : Nat) : (Add64 A B c).1 < 2 ^ 64 := by
  unfold Add64 x86_adc
  exact Nat.mod_lt _ (by norm_num)

theorem Level.AddDouble_wf : ∀ (n : Nat) (A B : Level n) (c : Nat),
    Level.wf n (BaseInt.AddDouble A B c).1 = true
  | 0, A, B, c => by
    show Level.wf 0 (int128_t.AddDouble A B c).1 = true
    simp only [int128_t.AddDouble, Level.wf, Bool.and_eq_true, decide_eq_true_eq]
    exact ⟨Add64_fst_lt _ _ _, Add64_fst_lt _ _ _⟩
  | n + 1, A, B, c => by
    show Level.wf (n + 1) (DoubleInt_t.AddDouble A B c).1 = true
    simp only [DoubleInt_t.AddDouble, Level.wf, Bool.and_eq_true]
    exact ⟨Level.AddDouble_wf n _ _ _, Level.AddDouble_wf n _ _ _⟩

theorem Level.MultiplyDouble_wf : ∀ (n : Nat) (A B : Level n),
    Level.wf n (BaseInt.MultiplyDouble A B).1 = true ∧
    Level.wf n (BaseInt.MultiplyDouble A B).2 = true
  | 0, A, B => by
    show Level.wf 0 (int128_t.MultiplyDouble A B).1 = true ∧
      Level.wf 0 (int128_t.MultiplyDouble A B).2 = true
    simp only [int128_t.MultiplyDouble, Level.wf, Bool.and_eq_true, decide_eq_true_eq]
    exact ⟨⟨Add64_fst_lt _ _ _, Nat.mod_lt _ (by norm_num)⟩,
      ⟨Add64_fst_lt _ _ _, Add64_fst_lt _ _ _⟩⟩
  | n + 1, A, B => by
    show Level.wf (n + 1) (DoubleInt_t.MultiplyDouble A B).1 = true ∧
      Level.wf (n + 1) (DoubleInt_t.MultiplyDouble A B).2 = true
    simp only [DoubleInt_t.MultiplyDouble, Level.wf, Bool.and_eq_true]
    exact ⟨⟨Level.AddDouble_wf n _ _ _, (Level.MultiplyDouble_wf n _ _).1⟩,
      ⟨Level.AddDouble_wf n _ _ _, Level.AddDouble_wf n _ _ _⟩⟩

theorem Level.MultiplyDouble_zero_left : ∀ (n : Nat) (B : Level n),
    BaseInt.MultiplyDouble (BaseInt.ofInt64 0) B = (BaseInt.ofInt64 0, BaseInt.ofInt64 0)
  | 0, B => by
    show int128_t.MultiplyDouble (int128_t.ofInt64 0) B
      = (int128_t.ofInt64 0, int128_t.ofInt64 0)
    simp only [int128_t.MultiplyDouble, int128_t.ofInt64, Multiply64, x86_mul, Nat.zero_mul,
      Nat.zero_mod, Nat.zero_div, Add64_zero 0 (by norm_num)]
  | n + 1, B => by
    obtain ⟨z1, _⟩ := Level.ofInt64_spec n 0 (by norm_num)
    show DoubleInt_t.MultiplyDouble (DoubleInt_t.ofInt64 0) B
      = (DoubleInt_t.ofInt64 0, DoubleInt_t.ofInt64 0)
    simp only [DoubleInt_t.MultiplyDouble, DoubleInt_t.ofInt64,
      Level.MultiplyDouble_zero_left n, Level.AddDouble_zero n _ z1]

theorem Level.MultiplyDouble_zero_right (n : Nat) (A : Level n) (hA : Level.wf n A = true) :
    BaseInt.MultiplyDouble A (BaseInt.ofInt64 0) = (BaseInt.ofInt64 0, BaseInt.ofInt64 0) := by
  obtain ⟨_, _, e⟩ := Level.MultiplyDouble_ofInt64 n A 0 hA (by norm_num)
  have hp : 0 < 2 ^ Level.width n := by positivity
  simp only [Nat.mul_zero, Nat.add_eq_zero_iff, Nat.mul_eq_zero] at e
  have e2 : Level.val n (BaseInt.MultiplyDouble A (BaseInt.ofInt64 0)).2 = 0 := by
    rcases e.2 with h | h
    · omega
    · exact h
  exact Prod.ext (Level.val_eq_zero n _ e.1) (Level.val_eq_zero n _ e2)

theorem Level.MultiplyDouble_one (n : Nat) (v : Level n) (hv : Level.wf n v = true) :
    BaseInt.MultiplyDouble v (BaseInt.ofInt64 1) = (v, BaseInt.ofInt64 0) := by
  obtain ⟨w1, _, e⟩ := Level.MultiplyDouble_ofInt64 n v 1 hv (by norm_num)
  have hlt := Level.val_lt n v hv
  have e2 : Level.val n (BaseInt.MultiplyDouble v (BaseInt.ofInt64 1)).2 = 0 := by
    rcases Nat.eq_zero_or_pos (Level.val n (BaseInt.MultiplyDouble v (BaseInt.ofInt64 1)).2)
      with h | h
    · exact h
    · have : 2 ^ Level.width n ≤ 2 ^ Level.width n
          * Level.val n (BaseInt.MultiplyDouble v (BaseInt.ofInt64 1)).2 :=
        Nat.le_mul_of_pos_right _ h
      omega
  have e1 : Level.val n (BaseInt.MultiplyDouble v (BaseInt.ofInt64 1)).1 = Level.val n v := by
    rw [e2] at e
    omega
  exact Prod.ext (Level.val_inj n _ _ w1 hv e1) (Level.val_eq_zero n _ e2)

/-- C28: at every unsigned level, for a well-formed `v`, `MultiplyDouble` with the
multiplier 1 leaves `v` and with the multiplier 0 leaves 0, and both calls return a zero
high half. -/
theorem MultiplyDouble_identity (n : Nat) (v : Level n) (hv : Level.wf n v = true) :
    BaseInt.MultiplyDouble v (BaseInt.ofInt64 1) = (v, BaseInt.ofInt64 0) ∧
    BaseInt.MultiplyDouble v (BaseInt.ofInt64 0) = (BaseInt.ofInt64 0, BaseInt.ofInt64 0) ∧
    Level.val n (BaseInt.ofInt64 1) = 1 ∧ Level.val n (BaseInt.ofInt64 0) = 0 :=
  ⟨Level.MultiplyDouble_one n v hv, Level.MultiplyDouble_zero_right n v hv,
    (Level.ofInt64_spec n 1 (by norm_num)).2, (Level.ofInt64_spec n 0 (by norm_num)).2⟩

/-- C28, at 256 bits: the value with all four limbs `2^64 - 1`. -/
theorem MultiplyDouble_identity_witness :
    BaseInt.MultiplyDouble (⟨⟨2 ^ 64 - 1, 2 ^ 64 - 1⟩, ⟨2 ^ 64 - 1, 2 ^ 64 - 1⟩⟩ : Level 1)
        (BaseInt.ofInt64 1)
      = (⟨⟨2 ^ 64 - 1, 2 ^ 64 - 1⟩, ⟨2 ^ 64 - 1, 2 ^ 64 - 1⟩⟩, BaseInt.ofInt64 0) ∧
    BaseInt.MultiplyDouble (⟨⟨2 ^ 64 - 1, 2 ^ 64 - 1⟩, ⟨2 ^ 64 - 1, 2 ^ 64 - 1⟩⟩ : Level 1)
        (BaseInt.ofInt64 0)
      = (BaseInt.ofInt64 0, BaseInt.ofInt64 0) :=
  have h := MultiplyDouble_identity 1
    (⟨⟨2 ^ 64 - 1, 2 ^ 64 - 1⟩, ⟨2 ^ 64 - 1, 2 ^ 64 - 1⟩⟩ : Level 1) (by decide)
  ⟨h.1, h.2.1⟩

/-- C30: for every level `L` and well-formed `a`, `b` of `L`, `DoubleInt_t<L>::MultiplyDouble`
on the lifts `(Hi = 0, Lo = a)` and `(Hi = 0, Lo = b)` leaves `Lo` equal to what
`L::MultiplyDouble(a, b)` leaves in place and `Hi` equal to what it returns, and itself
returns zero. -/
theorem MultiplyDouble_lift (n : Nat) (a b : Level n) (ha : Level.wf n a = true) :
    DoubleInt_t.MultiplyDouble (DoubleInt_t.ofBase a) (DoubleInt_t.ofBase b)
      = (⟨(BaseInt.MultiplyDouble a b).2, (BaseInt.MultiplyDouble a b).1⟩,
         DoubleInt_t.ofInt64 0) ∧
    (DoubleInt_t.ofBase a : DoubleInt_t (Level n)) = ⟨BaseInt.ofInt64 0, a⟩ ∧
    Level.val (n + 1) (DoubleInt_t.ofBase a) = Level.val n a ∧
    Level.val (n + 1) (DoubleInt_t.ofInt64 0) = 0 := by
  obtain ⟨z1, z2⟩ := Level.ofInt64_spec n 0 (by norm_num)
  refine ⟨?_, rfl, ?_, (Level.ofInt64_spec (n + 1) 0 (by norm_num)).2⟩
  · simp only [DoubleInt_t.MultiplyDouble, DoubleInt_t.ofBase, DoubleInt_t.ofInt64,
      Level.MultiplyDouble_zero_left n, Level.MultiplyDouble_zero_right n a ha,
      Level.AddDouble_zero n _ (Level.MultiplyDouble_wf n a b).2, Level.AddDouble_zero n _ z1]
  · simp only [DoubleInt_t.ofBase, Level.val, z2]
    omega

/-- C30, from 128 to 256 bits: `a = b = 2^128 - 1`, where the 128-bit multiplication
returns the high half `(2^64 - 2, 2^64 - 2)`. -/
theorem MultiplyDouble_lift_witness :
    DoubleInt_t.MultiplyDouble (DoubleInt_t.ofBase (⟨2 ^ 64 - 1, 2 ^ 64 - 1⟩ : Level 0))
        (DoubleInt_t.ofBase (⟨2 ^ 64 - 1, 2 ^ 64 - 1⟩ : Level 0))
      = (⟨(BaseInt.MultiplyDouble (⟨2 ^ 64 - 1, 2 ^ 64 - 1⟩ : Level 0)
            (⟨2 ^ 64 - 1, 2 ^ 64 - 1⟩ : Level 0)).2,
          (BaseInt.MultiplyDouble (⟨2 ^ 64 - 1, 2 ^ 64 - 1⟩ : Level 0)
            (⟨2 ^ 64 - 1, 2 ^ 64 - 1⟩ : Level 0)).1⟩,
         DoubleInt_t.ofInt64 0) :=
  (MultiplyDouble_lift 0 (⟨2 ^ 64 - 1, 2 ^ 64 - 1⟩ : Level 0)
    (⟨2 ^ 64 - 1, 2 ^ 64 - 1⟩ : Level 0) (by decide)).1

/-! ## A value plus its negation, and the signed division identity -/

theorem Level.compare_self : ∀ (n : Nat) (x : Level n),
    BaseInt.eq x x = true ∧ BaseInt.gt x x = false
  | 0, x => by
    show int128_t.eq x x = true ∧ int128_t.gt x x = false
    simp [int128_t.eq, int128_t.gt, int64.gt, int64.lt]
  | n + 1, x => by
    obtain ⟨h1, h2⟩ := Level.compare_self n x.Hi
    obtain ⟨l1, l2⟩ := Level.compare_self n x.Lo
    show DoubleInt_t.eq x x = true ∧ DoubleInt_t.gt x x = false
    simp [DoubleInt_t.eq, DoubleInt_t.gt, h1, h2, l1, l2]

theorem SignedInt_t.AddDouble_opposite (n : Nat) (v : SignedInt_t (Level n))
    (hneg : v.Negative ≤ 1) (hzero : Level.val n v.Value = 0 → v.Negative = 0) :
    SignedInt_t.AddDouble v
        (if Level.val n v.Value = 0 then v else { v with Negative := 1 - v.Negative }) 0
      = (⟨BaseInt.ofInt64 0, 0⟩, .ok 0) := by
  by_cases hz : Level.val n v.Value = 0
  · obtain ⟨val, neg⟩ := v
    simp only at hz hzero hneg
    have hv : val = BaseInt.ofInt64 0 := Level.val_eq_zero n val hz
    have hn : neg = 0 := hzero hz
    subst hv hn
    rw [if_pos hz]
    obtain ⟨z1, _⟩ := Level.ofInt64_spec n 0 (by norm_num)
    simp [SignedInt_t.AddDouble, Level.AddDouble_zero n _ z1]
  · rw [if_neg hz]
    obtain ⟨e1, e2⟩ := Level.compare_self n v.Value
    have hne : ¬ v.Negative = 1 - v.Negative := by omega
    simp [SignedInt_t.AddDouble, hne, e1, e2]

/-- C29, at the failing input: over 256 bits, `v = FromString("-0")`, which has
magnitude 0 and `Negative = 1`; `v` is zero, so `-v` is `v` itself. `AddDouble(&v, v, 0)`
returns 0 and leaves magnitude 0 with `Negative = 1`, not 0: with equal signs the
code adds the magnitudes and does not write `Negative`. The same happens over 128
bits for the value with magnitude 0 and `Negative = 1` that `>>= 1` leaves from `-1`. -/
theorem SignedInt_add_negation_of_negative_zero :
    (SignedInt_t.FromString "-0" : SignedInt_t (DoubleInt_t (Level 0)))
      = ⟨⟨⟨0, 0⟩, ⟨0, 0⟩⟩, 1⟩ ∧
    Level.val 1 (SignedInt_t.FromString "-0" : SignedInt_t (DoubleInt_t (Level 0))).Value
      = 0 ∧
    SignedInt_t.AddDouble (SignedInt_t.FromString "-0" : SignedInt_t (DoubleInt_t (Level 0)))
        (SignedInt_t.FromString "-0") 0
      = (⟨⟨⟨0, 0⟩, ⟨0, 0⟩⟩, 1⟩, .ok 0) ∧
    (SignedInt_t.AddDouble (SignedInt_t.FromString "-0" : SignedInt_t (DoubleInt_t (Level 0)))
        (SignedInt_t.FromString "-0") 0).1.Negative ≠ 0 ∧
    SignedInt_t.shrAssign (⟨⟨0, 1⟩, 1⟩ : SignedInt_t (Level 0)) 1 = ⟨⟨0, 0⟩, 1⟩ ∧
    SignedInt_t.AddDouble (SignedInt_t.shrAssign (⟨⟨0, 1⟩, 1⟩ : SignedInt_t (Level 0)) 1)
        (SignedInt_t.shrAssign (⟨⟨0, 1⟩, 1⟩ : SignedInt_t (Level 0)) 1) 0
      = (⟨⟨0, 0⟩, 1⟩, .ok 0) := by
  decide

/-- C21, amended: for `SignedInt_t` over every level, every signed `a` and every signed
`b` with magnitude from 1 to `2^62`: `DivideDouble` succeeds; with `q` the value left in
`A` and `r` the value returned, `|q| * |b| + |r| = |a|` and `|r| < |b|`; `r` is returned
with `Negative = 0` whatever the sign of `a`, and `q` has `Negative = 0` when it is zero
and `a.Negative XOR b.Negative` otherwise; so `q * b + r = a` as signed integers when
`a` is not negative. -/
theorem SignedInt_DivideDouble_identity (n : Nat) (A B : SignedInt_t (Level n))
    (hA : Level.wf n A.Value = true) (hB : Level.wf n B.Value = true)
    (hb0 : 0 < Level.val n B.Value) (hb : Level.val n B.Value ≤ 2 ^ 62)
    (hnB : B.Negative ≤ 1) :
    ∃ q r, SignedInt_t.DivideDouble A B = (q, .ok r) ∧
      Level.val n q.Value * Level.val n B.Value + Level.val n r.Value = Level.val n A.Value ∧
      Level.val n r.Value < Level.val n B.Value ∧
      r.Negative = 0 ∧
      q.Negative = (if Level.val n q.Value = 0 then 0 else A.Negative ^^^ B.Negative) ∧
      (A.Negative = 0 →
        SignedInt_t.toInt n q * SignedInt_t.toInt n B + SignedInt_t.toInt n r
          = SignedInt_t.toInt n A) := by
  obtain ⟨q, r, hd, _, _, vq, vr⟩ :=
    Level.DivideDouble_small n A.Value B.Value hA hB hb0 (by omega)
  have hzero : (BaseInt.eq q (BaseInt.ofInt64 0) = true) = (Level.val n q = 0) :=
    propext (Level.eq_zero_iff n q)
  have hdm : Level.val n q * Level.val n B.Value + Level.val n r = Level.val n A.Value := by
    rw [vq, vr, Nat.mul_comm]
    exact Nat.div_add_mod _ _
  have hrlt : Level.val n r < Level.val n B.Value := by
    rw [vr]
    exact Nat.mod_lt _ hb0
  refine ⟨⟨q, if Level.val n q = 0 then 0 else A.Negative ^^^ B.Negative⟩, ⟨r, 0⟩,
    ?_, hdm, hrlt, rfl, rfl, ?_⟩
  · unfold SignedInt_t.DivideDouble
    simp only [hd, hzero, SignedInt_t.ofBase]
    split <;> simp_all
  · intro hA0
    have hcast : ((Level.val n q : Int) * (Level.val n B.Value : Int) + (Level.val n r : Int))
        = (Level.val n A.Value : Int) := by exact_mod_cast hdm
    simp only [SignedInt_t.toInt, hA0, Nat.zero_xor]
    have hB01 : B.Negative = 0 ∨ B.Negative = 1 := by omega
    rcases hB01 with h0 | h1
    · simp only [h0, ite_self]
      simpa using hcast
    · simp only [h1]
      by_cases hq : Level.val n q = 0
      · simp only [hq, if_true] at hcast ⊢
        simpa using hcast
      · simp only [hq, if_false]
        simp only [if_true, neg_mul_neg]
        simpa using hcast

/-- C21, amended, over 256 bits: `(+10) / (-3)`. -/
theorem SignedInt_DivideDouble_identity_witness :
    ∃ q r, SignedInt_t.DivideDouble (⟨⟨⟨0, 0⟩, ⟨0, 10⟩⟩, 0⟩ : SignedInt_t (Level 1))
        ⟨⟨⟨0, 0⟩, ⟨0, 3⟩⟩, 1⟩ = (q, .ok r) ∧
      Level.val 1 q.Value * Level.val 1 (⟨⟨0, 0⟩, ⟨0, 3⟩⟩ : Level 1) + Level.val 1 r.Value
        = Level.val 1 (⟨⟨0, 0⟩, ⟨0, 10⟩⟩ : Level 1) ∧
      r.Negative = 0 :=
  have ⟨q, r, h1, h2, _, h4, _, _⟩ := SignedInt_DivideDouble_identity 1
    (⟨⟨⟨0, 0⟩, ⟨0, 10⟩⟩, 0⟩ : SignedInt_t (Level 1)) ⟨⟨⟨0, 0⟩, ⟨0, 3⟩⟩, 1⟩
    (by decide) (by decide) (by decide) (by decide) (by decide)
  ⟨q, r, h1, h2, h4⟩

/-! ## Claims on the word primitives, the small-integer mask and the signed sum, evaluated -/

/-- C32, as first stated: at 256 bits the text "309485009821345068724781056" parses to
`2^88`, and `AsString("%X")` of that value is not the 23-character numeral
"10000000000000000000000": the code writes all `size/4 = 64` digits, so the text
returned has 64 characters. -/
theorem AsString_hex_keeps_leading_zeros :
    DoubleInt_t.AsString 28
        (DoubleInt_t.FromString "309485009821345068724781056" : DoubleInt_t int128_t) "%X"
      ≠ some (.ok "10000000000000000000000") ∧
    (DoubleInt_t.AsString 28
        (DoubleInt_t.FromString "309485009821345068724781056" : DoubleInt_t int128_t) "%X").map
        (fun r => r.map String.length) = some (.ok 64) ∧
    "10000000000000000000000".length = 23 := by
  decide!

/-- C32, amended: at 256 bits `FromString("309485009821345068724781056")` leaves `2^88`;
`AsString("%d")` of it returns "309485009821345068724781056", and `AsString("%X")`
returns the 64-character zero-padded numeral, 41 zeros followed by
"10000000000000000000000". -/
theorem string_scenario_256 :
    (DoubleInt_t.FromString "309485009821345068724781056" : DoubleInt_t int128_t)
      = ⟨⟨0, 0⟩, ⟨2 ^ 24, 0⟩⟩ ∧
    Level.val 1 (DoubleInt_t.FromString "309485009821345068724781056" : DoubleInt_t int128_t)
      = 309485009821345068724781056 ∧
    DoubleInt_t.AsString 28
        (DoubleInt_t.FromString "309485009821345068724781056" : DoubleInt_t int128_t) "%d"
      = some (.ok "309485009821345068724781056") ∧
    DoubleInt_t.AsString 28
        (DoubleInt_t.FromString "309485009821345068724781056" : DoubleInt_t int128_t) "%X"
      = some (.ok (String.mk (List.replicate 41 '0' ++ "10000000000000000000000".toList))) ∧
    DoubleInt_t.AsString 28
        (DoubleInt_t.FromString "309485009821345068724781056" : DoubleInt_t int128_t) "%X"
      = some (.ok "0000000000000000000000000000000000000000010000000000000000000000") := by
  decide!

/-- C33, at the failing input: `Add64` on `a = 2^64 - 1`, `b = 0`, carry-in 1. The sum
is `2^64`, so `A` should become 0 and the call should return 1; the code leaves `A = 1`
and returns 0. The first `add` wraps `A` to 0 and sets the carry flag, and the `adc`
that follows adds that flag to `A` as if it were part of the sum; the flag read at the
end is the one of the `adc`. The same happens for every `b` when `a` is all ones and
the carry-in is 1, shown here for `b = 7` and `b = 2^64 - 1` as well. -/
theorem Add64_all_ones_with_carry_in :
    Add64 (2 ^ 64 - 1) 0 1 = (1, 0) ∧
    ((2 ^ 64 - 1 + 0 + 1) % 2 ^ 64 = 0 ∧ 2 ^ 64 ≤ 2 ^ 64 - 1 + 0 + 1) ∧
    Add64 (2 ^ 64 - 1) 7 1 = (8, 0) ∧
    ((2 ^ 64 - 1 + 7 + 1) % 2 ^ 64 = 7 ∧ 2 ^ 64 ≤ 2 ^ 64 - 1 + 7 + 1) ∧
    Add64 (2 ^ 64 - 1) (2 ^ 64 - 1) 1 = (0, 1) ∧
    (2 ^ 64 - 1 + (2 ^ 64 - 1) + 1) % 2 ^ 64 = 2 ^ 64 - 1 := by
  decide

/-- C36, at the failing input: `v = 2^64 + 3` and `k = 1` at 128 bits. The bitwise AND
of `v` with the value 1 is 1; `v &= 1` and `v & 1` leave `2^64 + 1`, because the
operators mask `Lo` only and keep `Hi`. The result is above `k` and bit 64 of `v` is
still set. At 256 bits the operators reach the lowest limb through `Lo&=rhs` of the
level below, and the three upper limbs are kept: `2^192 + 2^64 + 3` masked with 1 is
`2^192 + 2^64 + 1`. -/
theorem andInt64_keeps_upper_limbs :
    int128_t.andInt64 ⟨1, 3⟩ 1 = ⟨1, 1⟩ ∧
    int128_t.bitandInt64 ⟨1, 3⟩ 1 = ⟨1, 1⟩ ∧
    Level.val 0 (⟨1, 3⟩ : int128_t) = 2 ^ 64 + 3 ∧
    Level.val 0 (⟨1, 3⟩ : int128_t) &&& 1 = 1 ∧
    Level.val 0 (int128_t.andInt64 ⟨1, 3⟩ 1) = 2 ^ 64 + 1 ∧
    ¬ Level.val 0 (int128_t.andInt64 ⟨1, 3⟩ 1) ≤ 1 ∧
    Level.val 0 (int128_t.andInt64 ⟨1, 3⟩ 1) / 2 ^ 64 % 2 = 1 ∧
    DoubleInt_t.andInt64 (⟨⟨1, 0⟩, ⟨1, 3⟩⟩ : DoubleInt_t int128_t) 1 = ⟨⟨1, 0⟩, ⟨1, 1⟩⟩ ∧
    DoubleInt_t.bitandInt64 (⟨⟨1, 0⟩, ⟨1, 3⟩⟩ : DoubleInt_t int128_t) 1 = ⟨⟨1, 0⟩, ⟨1, 1⟩⟩ ∧
    Level.val 1 (⟨⟨1, 0⟩, ⟨1, 3⟩⟩ : DoubleInt_t int128_t) &&& 1 = 1 ∧
    Level.val 1 (DoubleInt_t.andInt64 (⟨⟨1, 0⟩, ⟨1, 3⟩⟩ : DoubleInt_t int128_t) 1)
      = 2 ^ 192 + 2 ^ 64 + 1 := by
  decide

/-- C37, at the failing input: `lo = 0`, `hi = 1`, `c = 2^63`. Read as unsigned, `c` is
not 0 and `hi < c`, and `(hi * 2^64 + lo) / c = 2` with remainder 0 fits a word; the
code throws "Underflow", because `*B>*C` compares the words as signed and `c` reads as
`-2^63`. In the other direction the test lets `hi >= c` through when `hi` reads as
negative (`hi = 2^63`, `c = 1`) or when `hi = c`, and the `div` instruction then raises
the processor's divide error instead of a thrown text. -/
theorem Divide64_guard_is_signed :
    Divide64 0 1 (2 ^ 63) = .error .underflow ∧
    ((2 ^ 63 : Nat) ≠ 0 ∧ (1 : Nat) < 2 ^ 63) ∧
    ((1 * 2 ^ 64 + 0) / 2 ^ 63 = 2 ∧ (1 * 2 ^ 64 + 0) % 2 ^ 63 = 0) ∧
    int64.toSigned (2 ^ 63) = -2 ^ 63 ∧
    Divide64 0 (2 ^ 63) 1 = .error .divideError ∧
    Divide64 5 3 3 = .error .divideError ∧
    Divide64 7 1 2 = .ok (2 ^ 63 + 3, 1) := by
  decide

/-- C39, at the failing inputs: with carry 0, `AddDouble(&A, B, 0)` throws "borrow
nessisary during add!" from both branches. Over 128 and over 256 bits, `A = -1` and
`B = +2^63`: `A->Value>B.Value` compares the limbs as signed, finds `1 > 2^63` and
subtracts the larger magnitude from the smaller, which borrows (first branch).
`A = +2^63` and `B = -1`: the same test finds `2^63 > 1` false, and the subtraction in
the other order borrows (second branch). -/
theorem SignedInt_AddDouble_borrow_reached :
    (SignedInt_t.AddDouble (⟨⟨0, 1⟩, 1⟩ : SignedInt_t (Level 0)) ⟨⟨0, 2 ^ 63⟩, 0⟩ 0).2
      = .error .borrowNecessary ∧
    (SignedInt_t.AddDouble (⟨⟨0, 2 ^ 63⟩, 0⟩ : SignedInt_t (Level 0)) ⟨⟨0, 1⟩, 1⟩ 0).2
      = .error .borrowNecessary ∧
    (SignedInt_t.AddDouble (⟨⟨⟨0, 0⟩, ⟨0, 1⟩⟩, 1⟩ : SignedInt_t (Level 1))
        ⟨⟨⟨0, 0⟩, ⟨0, 2 ^ 63⟩⟩, 0⟩ 0).2 = .error .borrowNecessary ∧
    (SignedInt_t.AddDouble (⟨⟨⟨0, 0⟩, ⟨0, 2 ^ 63⟩⟩, 0⟩ : SignedInt_t (Level 1))
        ⟨⟨⟨0, 0⟩, ⟨0, 1⟩⟩, 1⟩ 0).2 = .error .borrowNecessary ∧
    BaseInt.gt (⟨0, 1⟩ : Level 0) ⟨0, 2 ^ 63⟩ = true ∧
    BaseInt.gt (⟨0, 2 ^ 63⟩ : Level 0) ⟨0, 1⟩ = false ∧
    Level.val 0 ⟨0, 1⟩ < Level.val 0 ⟨0, 2 ^ 63⟩ := by
  decide

/-! ## Division by a small divisor, multiplication by a power of two -/

/-- C34: at every unsigned level, for a well-formed dividend `a` and a well-formed
divisor `b` with `0 < b < 2^62`, `DivideDouble(&A, B)` does not throw, leaves
`A = a / b` and returns `a mod b`. In particular dividing by 16 leaves `a >> 4` and
returns the low nibble of `a`, and at 256 bits `2^255 / 16` leaves `2^251` with
remainder 0. -/
theorem DivideDouble_small_divisor (n : Nat) (A B : Level n)
    (hA : Level.wf n A = true) (hB : Level.wf n B = true)
    (hb0 : 0 < Level.val n B) (hb : Level.val n B < 2 ^ 62) :
    (∃ q r, BaseInt.DivideDouble A B = (q, .ok r) ∧
      Level.val n q = Level.val n A / Level.val n B ∧
      Level.val n r = Level.val n A % Level.val n B) ∧
    (∃ q r, BaseInt.DivideDouble A (BaseInt.ofInt64 16) = (q, .ok r) ∧
      q = BaseInt.shr A 4 ∧ Level.val n q = Level.val n A / 2 ^ 4 ∧
      Level.val n r = Level.val n A % 16) ∧
    DoubleInt_t.DivideDouble (⟨⟨2 ^ 63, 0⟩, ⟨0, 0⟩⟩ : DoubleInt_t int128_t) ⟨⟨0, 0⟩, ⟨0, 16⟩⟩
      = (⟨⟨2 ^ 59, 0⟩, ⟨0, 0⟩⟩, .ok ⟨⟨0, 0⟩, ⟨0, 0⟩⟩) ∧
    Level.val 1 (⟨⟨2 ^ 63, 0⟩, ⟨0, 0⟩⟩ : DoubleInt_t int128_t) = 2 ^ 255 ∧
    Level.val 1 (⟨⟨2 ^ 59, 0⟩, ⟨0, 0⟩⟩ : DoubleInt_t int128_t) = 2 ^ 251 := by
  refine ⟨?_, ?_, by decide!, by decide, by decide⟩
  · obtain ⟨q, r, h, _, _, hq, hr⟩ := Level.DivideDouble_small n A B hA hB hb0 (by omega)
    exact ⟨q, r, h, hq, hr⟩
  · have h16 := Level.ofInt64_spec n 16 (by norm_num)
    obtain ⟨q, r, h, hqw, _, hq, hr⟩ := Level.DivideDouble_small n A (BaseInt.ofInt64 16) hA
      h16.1 (by rw [h16.2]; norm_num) (by rw [h16.2]; norm_num)
    rw [h16.2] at hq hr
    have hs := Level.iterate_shiftright n A hA 4
    refine ⟨q, r, h, ?_, by rw [hq]; norm_num, hr⟩
    rw [Level.shr_eq, Level.shrAssign_eq]
    exact Level.val_inj n _ _ hqw hs.1 (by rw [hq, hs.2]; norm_num)

/-- C34, at 256 bits: `1000 / 7` leaves 142 and returns 6. -/
theorem DivideDouble_small_divisor_witness :
    (∃ q r, BaseInt.DivideDouble (⟨⟨0, 0⟩, ⟨0, 1000⟩⟩ : Level 1) ⟨⟨0, 0⟩, ⟨0, 7⟩⟩ = (q, .ok r) ∧
      Level.val 1 q = Level.val 1 ⟨⟨0, 0⟩, ⟨0, 1000⟩⟩ / Level.val 1 ⟨⟨0, 0⟩, ⟨0, 7⟩⟩ ∧
      Level.val 1 r = Level.val 1 ⟨⟨0, 0⟩, ⟨0, 1000⟩⟩ % Level.val 1 ⟨⟨0, 0⟩, ⟨0, 7⟩⟩) :=
  (DivideDouble_small_divisor 1 ⟨⟨0, 0⟩, ⟨0, 1000⟩⟩ ⟨⟨0, 0⟩, ⟨0, 7⟩⟩ (by decide) (by decide)
    (by decide) (by decide)).1

/-- C35: at every unsigned level of width `w`, for a well-formed `v` and `k < 64`,
`MultiplyDouble(&V, 2^k)` leaves `V = (v * 2^k) mod 2^w`, which is what `k` calls of
`shiftleft` with carry 0 leave, and returns `(v * 2^k) / 2^w`, the bits shifted out. At
256 bits, 63 multiplications of `0xF` by `0x10` leave `0xF * 2^252`, and one more
leaves 0 and returns `0xF`. -/
theorem MultiplyDouble_pow_two (n : Nat) (v : Level n) (k : Nat)
    (hv : Level.wf n v = true) (hk : k < 64) :
    Level.val n (BaseInt.MultiplyDouble v (BaseInt.ofInt64 (2 ^ k))).1
      = (Level.val n v * 2 ^ k) % 2 ^ Level.width n ∧
    (BaseInt.MultiplyDouble v (BaseInt.ofInt64 (2 ^ k))).1
      = (fun x : Level n => (BaseInt.shiftleft x 0).1)^[k] v ∧
    Level.val n (BaseInt.MultiplyDouble v (BaseInt.ofInt64 (2 ^ k))).2
      = Level.val n v * 2 ^ k / 2 ^ Level.width n ∧
    (fun x : DoubleInt_t int128_t => (DoubleInt_t.MultiplyDouble x ⟨⟨0, 0⟩, ⟨0, 0x10⟩⟩).1)^[63]
        ⟨⟨0, 0⟩, ⟨0, 0xF⟩⟩ = ⟨⟨0xF * 2 ^ 60, 0⟩, ⟨0, 0⟩⟩ ∧
    DoubleInt_t.MultiplyDouble (⟨⟨0xF * 2 ^ 60, 0⟩, ⟨0, 0⟩⟩ : DoubleInt_t int128_t)
        ⟨⟨0, 0⟩, ⟨0, 0x10⟩⟩ = (⟨⟨0, 0⟩, ⟨0, 0⟩⟩, ⟨⟨0, 0⟩, ⟨0, 0xF⟩⟩) := by
  have h2k : 2 ^ k < 2 ^ 64 := Nat.pow_lt_pow_right (by norm_num) hk
  obtain ⟨w1, w2, hm⟩ := Level.MultiplyDouble_ofInt64 n v (2 ^ k) hv h2k
  have hlt := Level.val_lt n _ w1
  have hpos : 0 < 2 ^ Level.width n := Nat.two_pow_pos _
  have h1 : Level.val n (BaseInt.MultiplyDouble v (BaseInt.ofInt64 (2 ^ k))).1
      = (Level.val n v * 2 ^ k) % 2 ^ Level.width n := by
    rw [← hm, Nat.add_mul_mod_self_left, Nat.mod_eq_of_lt hlt]
  have hs := Level.iterate_shiftleft n v hv k
  refine ⟨h1, ?_, ?_, by decide!, by decide!⟩
  · exact Level.val_inj n _ _ w1 hs.1 (by rw [h1, hs.2])
  · rw [← hm, Nat.add_mul_div_left _ _ hpos, Nat.div_eq_of_lt hlt, Nat.zero_add]

/-- C35, at 256 bits: `v = 2^254 + 5` and `k = 3`. -/
theorem MultiplyDouble_pow_two_witness :
    Level.val 1 (BaseInt.MultiplyDouble (⟨⟨2 ^ 62, 0⟩, ⟨0, 5⟩⟩ : Level 1)
        (BaseInt.ofInt64 (2 ^ 3))).1
      = (Level.val 1 ⟨⟨2 ^ 62, 0⟩, ⟨0, 5⟩⟩ * 2 ^ 3) % 2 ^ Level.width 1 ∧
    (BaseInt.MultiplyDouble (⟨⟨2 ^ 62, 0⟩, ⟨0, 5⟩⟩ : Level 1) (BaseInt.ofInt64 (2 ^ 3))).1
      = (fun x : Level 1 => (BaseInt.shiftleft x 0).1)^[3] ⟨⟨2 ^ 62, 0⟩, ⟨0, 5⟩⟩ ∧
    Level.val 1 (BaseInt.MultiplyDouble (⟨⟨2 ^ 62, 0⟩, ⟨0, 5⟩⟩ : Level 1)
        (BaseInt.ofInt64 (2 ^ 3))).2
      = Level.val 1 ⟨⟨2 ^ 62, 0⟩, ⟨0, 5⟩⟩ * 2 ^ 3 / 2 ^ Level.width 1 :=
  have h := MultiplyDouble_pow_two 1 ⟨⟨2 ^ 62, 0⟩, ⟨0, 5⟩⟩ 3 (by decide) (by decide)
  ⟨h.1, h.2.1, h.2.2.1⟩

/-! ## The low half of the 128-bit product -/

theorem Add64_carry_zero (A B : Nat) (hA : A < 2 ^ 64) (hB : B < 2 ^ 64) :
    (Add64 A B 0).1 = (A + B) % 2 ^ 64 := by
  have h := Add64_small_dest A B 0 hB (by norm_num) (by omega)
  omega

/-- C38: at the 128-bit base level, for well-formed `a` and `b`,
`int128_t::MultiplyDouble(&A, B)` leaves `A = (a * b) mod 2^128`; so do `a * b` and
`a *= b`, which return the value left in `A`. Nothing is said of the high half. -/
theorem int128_MultiplyDouble_low_half (A B : int128_t)
    (hA : Level.wf 0 A = true) (hB : Level.wf 0 B = true) :
    Level.val 0 (int128_t.MultiplyDouble A B).1
      = (Level.val 0 A * Level.val 0 B) % 2 ^ 128 ∧
    Level.val 0 (int128_t.mul A B) = (Level.val 0 A * Level.val 0 B) % 2 ^ 128 ∧
    Level.val 0 (int128_t.mulAssign A B) = (Level.val 0 A * Level.val 0 B) % 2 ^ 128 ∧
    Level.wf 0 (int128_t.MultiplyDouble A B).1 = true := by
  obtain ⟨a, b⟩ := A
  obtain ⟨c, d⟩ := B
  simp only [Level.wf, Bool.and_eq_true, decide_eq_true_eq] at hA hB
  have key : Level.val 0 (int128_t.MultiplyDouble ⟨a, b⟩ ⟨c, d⟩).1
      = (Level.val 0 (⟨a, b⟩ : int128_t) * Level.val 0 (⟨c, d⟩ : int128_t)) % 2 ^ 128 := by
    simp only [int128_t.MultiplyDouble, Multiply64, x86_mul, Level.val]
    have hq : (a * d) % 2 ^ 64 < 2 ^ 64 := Nat.mod_lt _ (by norm_num)
    have hr : (b * c) % 2 ^ 64 < 2 ^ 64 := Nat.mod_lt _ (by norm_num)
    have hbd : b * d ≤ (2 ^ 64 - 1) * (2 ^ 64 - 1) :=
      Nat.mul_le_mul (by omega) (by omega)
    have hp : b * d / 2 ^ 64 < 2 ^ 64 := by omega
    rw [Add64_carry_zero _ _ hp hq,
      Add64_carry_zero _ _ (Nat.mod_lt _ (by norm_num)) hr]
    have hprod : (a * 2 ^ 64 + b) * (c * 2 ^ 64 + d)
        = a * c * 2 ^ 128 + (a * d + b * c) * 2 ^ 64 + b * d := by ring
    rw [hprod]
    generalize a * c = S
    generalize a * d = Q
    generalize b * c = R
    generalize b * d = P
    omega
  exact ⟨key, key, key, (Level.MultiplyDouble_wf 0 _ _).1⟩

/-- C38, at `a = 2^128 - 1` and `b = 2^128 - 1`: the product modulo `2^128` is 1. -/
theorem int128_MultiplyDouble_low_half_witness :
    Level.val 0 (int128_t.MultiplyDouble ⟨2 ^ 64 - 1, 2 ^ 64 - 1⟩ ⟨2 ^ 64 - 1, 2 ^ 64 - 1⟩).1
      = (Level.val 0 ⟨2 ^ 64 - 1, 2 ^ 64 - 1⟩ * Level.val 0 ⟨2 ^ 64 - 1, 2 ^ 64 - 1⟩) % 2 ^ 128 :=
  (int128_MultiplyDouble_low_half ⟨2 ^ 64 - 1, 2 ^ 64 - 1⟩ ⟨2 ^ 64 - 1, 2 ^ 64 - 1⟩
    (by decide) (by decide)).1

/-! ## The constructor of `SignedInt_t` from a word -/

theorem Level.xorAssign_ofInt64 : ∀ (n : Nat) (x y : Nat),
    BaseInt.xorAssign (BaseInt.ofInt64 x : Level n) (BaseInt.ofInt64 y)
      = BaseInt.ofInt64 (x ^^^ y)
  | 0, x, y => by
    show int128_t.xorAssign (int128_t.ofInt64 x) (int128_t.ofInt64 y)
      = int128_t.ofInt64 (x ^^^ y)
    simp [int128_t.xorAssign, int128_t.ofInt64]
  | n + 1, x, y => by
    show DoubleInt_t.xorAssign (DoubleInt_t.ofInt64 x) (DoubleInt_t.ofInt64 y)
      = DoubleInt_t.ofInt64 (x ^^^ y)
    simp only [DoubleInt_t.xorAssign, DoubleInt_t.ofInt64, Level.xorAssign_ofInt64 n]
    simp

theorem xor_all_ones (x : Nat) (h : x < 2 ^ 64) : x ^^^ (2 ^ 64 - 1) = 2 ^ 64 - 1 - x := by
  apply Nat.eq_of_testBit_eq
  intro i
  rw [Nat.testBit_xor, Nat.testBit_two_pow_sub_one,
    show 2 ^ 64 - 1 - x = 2 ^ 64 - (x + 1) by omega, Nat.testBit_two_pow_sub_succ h]
  by_cases hi : i < 64
  · simp [hi]
  · have hx : x.testBit i = false :=
      Nat.testBit_lt_two_pow
        (Nat.lt_of_lt_of_le h (Nat.pow_le_pow_right (by norm_num) (by omega)))
    simp [hi, hx]

theorem Level.addAssign_eq (n : Nat) (a b : Level n) :
    BaseInt.addAssign a b = (BaseInt.AddDouble a b 0).1 := by
  cases n <;> rfl

theorem Level.SignedInt_ofInt64 (n : Nat) (orig : Nat) (h : orig < 2 ^ 64) :
    (SignedInt_t.ofInt64 orig : SignedInt_t (Level n))
      = ⟨BaseInt.ofInt64 (int64.toSigned orig).natAbs,
          if int64.toSigned orig < 0 then 1 else 0⟩ := by
  unfold SignedInt_t.ofInt64
  have h0 : int64.toSigned 0 = 0 := by decide
  by_cases hs : orig < 2 ^ 63
  · have ht : int64.toSigned orig = (orig : Int) := by
      unfold int64.toSigned; rw [if_pos hs]
    have hlt : int64.lt orig 0 = false := by
      unfold int64.lt; rw [h0, ht]; exact decide_eq_false (by omega)
    have hneg : ¬ ((orig : Int) < 0) := by omega
    simp only [hlt, ht, Int.natAbs_ofNat, Bool.false_eq_true, if_false, hneg]
  · have ht : int64.toSigned orig = (orig : Int) - 2 ^ 64 := by
      unfold int64.toSigned; rw [if_neg hs]
    have hlt : int64.lt orig 0 = true := by
      unfold int64.lt; rw [h0, ht]; exact decide_eq_true (by omega)
    have habs : (int64.toSigned orig).natAbs = 2 ^ 64 - orig := by
      rw [ht]; omega
    have hneg : int64.toSigned orig < 0 := by rw [ht]; omega
    simp only [hlt, if_true, habs, hneg]
    congr 1
    rw [Level.xorAssign_ofInt64, xor_all_ones orig h, Level.addAssign_eq]
    have hm := Level.ofInt64_spec n (2 ^ 64 - 1 - orig) (by omega)
    have hadd := Level.AddDouble_small_src n (BaseInt.ofInt64 (2 ^ 64 - 1 - orig)) 1 hm.1
      (by norm_num) (by rw [hm.2]; omega)
    have ht2 := Level.ofInt64_spec n (2 ^ 64 - orig) (by omega)
    exact Level.val_inj n _ _ hadd.1 ht2.1 (by rw [hadd.2.1, hm.2, ht2.2]; omega)

/-- C40: for `SignedInt_t` over any `DoubleInt_t` level and every 64-bit signed integer
`n`, given as its bit pattern `orig`: the constructor `SignedInt_t(n)` yields
`Negative = 1` exactly when `n < 0` (and 0 otherwise) and the magnitude `|n|` in the
lowest limb with every limb above it zero, `n = -2^63` included; `n = 0` gives `+0`. -/
theorem SignedInt_ofInt64_spec (n : Nat) (orig : Nat) (h : orig < 2 ^ 64) :
    ((SignedInt_t.ofInt64 orig : SignedInt_t (DoubleInt_t (Level n))).Negative = 1
      ↔ int64.toSigned orig < 0) ∧
    ((SignedInt_t.ofInt64 orig : SignedInt_t (DoubleInt_t (Level n))).Negative = 0
      ↔ 0 ≤ int64.toSigned orig) ∧
    (SignedInt_t.ofInt64 orig : SignedInt_t (DoubleInt_t (Level n))).Value
      = ⟨BaseInt.ofInt64 0, BaseInt.ofInt64 (int64.toSigned orig).natAbs⟩ ∧
    Level.wf (n + 1) (SignedInt_t.ofInt64 orig : SignedInt_t (DoubleInt_t (Level n))).Value
      = true ∧
    Level.val (n + 1) (SignedInt_t.ofInt64 orig : SignedInt_t (DoubleInt_t (Level n))).Value
      = (int64.toSigned orig).natAbs ∧
    (int64.toSigned orig).natAbs < 2 ^ 64 ∧
    (SignedInt_t.ofInt64 0 : SignedInt_t (DoubleInt_t (Level n)))
      = ⟨BaseInt.ofInt64 0, 0⟩ ∧
    SignedInt_t.toInt (n + 1) (SignedInt_t.ofInt64 orig) = int64.toSigned orig := by
  have hk := Level.SignedInt_ofInt64 (n + 1) orig h
  have hz := Level.SignedInt_ofInt64 (n + 1) 0 (by norm_num)
  have habs : (int64.toSigned orig).natAbs < 2 ^ 64 := by
    unfold int64.toSigned; split <;> omega
  have hspec := Level.ofInt64_spec (n + 1) _ habs
  have hk2 : (SignedInt_t.ofInt64 orig : SignedInt_t (DoubleInt_t (Level n)))
      = ⟨BaseInt.ofInt64 (int64.toSigned orig).natAbs,
          if int64.toSigned orig < 0 then 1 else 0⟩ := hk
  rw [hk2]
  refine ⟨?_, ?_, rfl, hspec.1, hspec.2, habs, ?_, ?_⟩
  · by_cases hn : int64.toSigned orig < 0 <;> simp [hn]
  · by_cases hn : int64.toSigned orig < 0 <;> simp [hn]; omega
  · exact hz
  · unfold SignedInt_t.toInt
    simp only [hspec.2]
    by_cases hn : int64.toSigned orig < 0
    · simp only [hn, if_true]; omega
    · simp only [hn, if_false]; simp; omega

/-- C40, at 256 bits: `n = -2^63`, whose bit pattern is `2^63`. -/
theorem SignedInt_ofInt64_spec_witness :
    ((SignedInt_t.ofInt64 (2 ^ 63) : SignedInt_t (DoubleInt_t (Level 0))).Negative = 1
      ↔ int64.toSigned (2 ^ 63) < 0) ∧
    (SignedInt_t.ofInt64 (2 ^ 63) : SignedInt_t (DoubleInt_t (Level 0))).Value
      = ⟨BaseInt.ofInt64 0, BaseInt.ofInt64 (int64.toSigned (2 ^ 63)).natAbs⟩ ∧
    Level.val 1 (SignedInt_t.ofInt64 (2 ^ 63) : SignedInt_t (DoubleInt_t (Level 0))).Value
      = (int64.toSigned (2 ^ 63)).natAbs :=
  have h := SignedInt_ofInt64_spec 0 (2 ^ 63) (by decide)
  ⟨h.1, h.2.2.1, h.2.2.2.2.1⟩

/-! ## The order of the comparison operators -/

theorem int64.rank_order (x y : Nat) (hx : x < 2 ^ 64) (hy : y < 2 ^ 64) :
    (int64.lt x y = true ↔ int64.rank x < int64.rank y) ∧
    (int64.le x y = true ↔ int64.rank x ≤ int64.rank y) ∧
    (x = y ↔ int64.rank x = int64.rank y) ∧ int64.rank x < 2 ^ 64 := by
  unfold int64.lt int64.le int64.toSigned int64.rank
  simp only [decide_eq_true_eq]
  refine ⟨?_, ?_, ?_, ?_⟩
  · split <;> split <;> omega
  · split <;> split <;> omega
  · omega
  · omega

theorem lex_rank (W x1 y1 x2 y2 : Nat) (h1 : y1 < W) (h2 : y2 < W) :
    (x1 * W + y1 < x2 * W + y2 ↔ x1 < x2 ∨ (x1 = x2 ∧ y1 < y2)) ∧
    (x1 * W + y1 ≤ x2 * W + y2 ↔ x1 < x2 ∨ (x1 = x2 ∧ y1 ≤ y2)) ∧
    (x1 * W + y1 = x2 * W + y2 ↔ x1 = x2 ∧ y1 = y2) := by
  rcases Nat.lt_trichotomy x1 x2 with h | h | h
  · have hm : (x1 + 1) * W ≤ x2 * W := Nat.mul_le_mul_right W h
    rw [Nat.succ_mul] at hm
    generalize x1 * W = p at *
    generalize x2 * W = q at *
    omega
  · subst h
    generalize x1 * W = p at *
    omega
  · have hm : (x2 + 1) * W ≤ x1 * W := Nat.mul_le_mul_right W h
    rw [Nat.succ_mul] at hm
    generalize x1 * W = p at *
    generalize x2 * W = q at *
    omega

theorem Level.compare_rank : ∀ (n : Nat) (a b : Level n),
    Level.wf n a = true → Level.wf n b = true →
    (BaseInt.eq a b = true ↔ Level.rank n a = Level.rank n b) ∧
    (BaseInt.ne a b = true ↔ Level.rank n a ≠ Level.rank n b) ∧
    (BaseInt.lt a b = true ↔ Level.rank n a < Level.rank n b) ∧
    (BaseInt.le a b = true ↔ Level.rank n a ≤ Level.rank n b) ∧
    (BaseInt.gt a b = true ↔ Level.rank n b < Level.rank n a) ∧
    (BaseInt.ge a b = true ↔ Level.rank n b ≤ Level.rank n a) ∧
    Level.rank n a < 2 ^ Level.width n ∧ Level.rank n b < 2 ^ Level.width n
  | 0, a, b, ha, hb => by
    obtain ⟨ah, al⟩ := a
    obtain ⟨bh, bl⟩ := b
    simp only [Level.wf, Bool.and_eq_true, decide_eq_true_eq] at ha hb
    obtain ⟨hh1, hh2, hh3, hh4⟩ := int64.rank_order ah bh ha.1 hb.1
    obtain ⟨hl1, hl2, hl3, hl4⟩ := int64.rank_order al bl ha.2 hb.2
    obtain ⟨gh1, gh2, _, gh4⟩ := int64.rank_order bh ah hb.1 ha.1
    obtain ⟨gl1, gl2, _, gl4⟩ := int64.rank_order bl al hb.2 ha.2
    obtain ⟨x1, x2, x3⟩ := lex_rank (2 ^ 64) (int64.rank ah) (int64.rank al) (int64.rank bh)
      (int64.rank bl) hl4 gl4
    obtain ⟨y1, y2, _⟩ := lex_rank (2 ^ 64) (int64.rank bh) (int64.rank bl) (int64.rank ah)
      (int64.rank al) gl4 hl4
    have hw : Level.width 0 = 128 := rfl
    show (int128_t.eq _ _ = true ↔ _) ∧ (int128_t.ne _ _ = true ↔ _) ∧
      (int128_t.lt _ _ = true ↔ _) ∧ (int128_t.le _ _ = true ↔ _) ∧
      (int128_t.gt _ _ = true ↔ _) ∧ (int128_t.ge _ _ = true ↔ _) ∧ _ ∧ _
    refine ⟨?_, ?_, ?_, ?_, ?_, ?_, ?_, ?_⟩
    · simp only [int128_t.eq, Level.rank]
      rw [x3, Bool.and_eq_true, beq_iff_eq, beq_iff_eq, hh3, hl3]
    · simp only [int128_t.ne, Level.rank]
      rw [ne_eq, x3, ← hh3, ← hl3]
      by_cases e1 : ah = bh <;> by_cases e2 : al = bl <;> simp [e1, e2]
    · simp only [int128_t.lt, Level.rank]
      rw [x1, Bool.or_eq_true, Bool.and_eq_true, beq_iff_eq, hh1, hl1, hh3]
    · simp only [int128_t.le, Level.rank]
      rw [x2, Bool.or_eq_true, Bool.and_eq_true, beq_iff_eq, hh1, hl2, hh3]
    · simp only [int128_t.gt, Level.rank]
      unfold int64.gt
      rw [y1, Bool.or_eq_true, Bool.and_eq_true, beq_iff_eq, gh1, gl1, hh3]
      exact or_congr Iff.rfl (and_congr eq_comm Iff.rfl)
    · simp only [int128_t.ge, Level.rank]
      unfold int64.gt int64.ge
      rw [y2, Bool.or_eq_true, Bool.and_eq_true, beq_iff_eq, gh1, gl2, hh3]
      exact or_congr Iff.rfl (and_congr eq_comm Iff.rfl)
    · simp only [Level.rank, hw]; omega
    · simp only [Level.rank, hw]; omega
  | n + 1, a, b, ha, hb => by
    obtain ⟨ah, al⟩ := a
    obtain ⟨bh, bl⟩ := b
    simp only [Level.wf, Bool.and_eq_true] at ha hb
    obtain ⟨he, hn, hl, hle, hg, hge, r1, r2⟩ := Level.compare_rank n ah bh ha.1 hb.1
    obtain ⟨le, ln, ll, lle, lg, lge, s1, s2⟩ := Level.compare_rank n al bl ha.2 hb.2
    obtain ⟨x1, x2, x3⟩ := lex_rank (2 ^ Level.width n) (Level.rank n ah) (Level.rank n al)
      (Level.rank n bh) (Level.rank n bl) s1 s2
    obtain ⟨y1, y2, _⟩ := lex_rank (2 ^ Level.width n) (Level.rank n bh) (Level.rank n bl)
      (Level.rank n ah) (Level.rank n al) s2 s1
    show (DoubleInt_t.eq _ _ = true ↔ _) ∧ (DoubleInt_t.ne _ _ = true ↔ _) ∧
      (DoubleInt_t.lt _ _ = true ↔ _) ∧ (DoubleInt_t.le _ _ = true ↔ _) ∧
      (DoubleInt_t.gt _ _ = true ↔ _) ∧ (DoubleInt_t.ge _ _ = true ↔ _) ∧ _ ∧ _
    have hbound : ∀ p q : Nat, p < 2 ^ Level.width n → q < 2 ^ Level.width n →
        p * 2 ^ Level.width n + q < 2 ^ Level.width (n + 1) := by
      intro p q hp hq
      rw [Level.two_pow_width_succ]
      have := Nat.mul_le_mul_right (2 ^ Level.width n) (Nat.succ_le_of_lt hp)
      rw [Nat.succ_mul] at this
      omega
    refine ⟨?_, ?_, ?_, ?_, ?_, ?_, hbound _ _ r1 s1, hbound _ _ r2 s2⟩
    · simp only [DoubleInt_t.eq, Level.rank]
      rw [x3, Bool.and_eq_true, he, le]
    · simp only [DoubleInt_t.ne, Level.rank]
      rw [ne_eq, x3, ← he, ← le]
      cases BaseInt.eq ah bh <;> cases BaseInt.eq al bl <;> simp
    · simp only [DoubleInt_t.lt, Level.rank]
      rw [x1, Bool.or_eq_true, Bool.and_eq_true, hl, ll, he]
    · simp only [DoubleInt_t.le, Level.rank]
      rw [x2, Bool.or_eq_true, Bool.and_eq_true, hl, lle, he]
    · simp only [DoubleInt_t.gt, Level.rank]
      rw [y1, Bool.or_eq_true, Bool.and_eq_true, hg, lg, he]
      exact or_congr Iff.rfl (and_congr eq_comm Iff.rfl)
    · simp only [DoubleInt_t.ge, Level.rank]
      rw [y2, Bool.or_eq_true, Bool.and_eq_true, hg, lge, he]
      exact or_congr Iff.rfl (and_congr eq_comm Iff.rfl)

theorem Level.eq_iff : ∀ (n : Nat) (a b : Level n), BaseInt.eq a b = true ↔ a = b
  | 0, a, b => by
    obtain ⟨ah, al⟩ := a
    obtain ⟨bh, bl⟩ := b
    show int128_t.eq _ _ = true ↔ _
    simp only [int128_t.eq, Bool.and_eq_true, beq_iff_eq]
    constructor
    · rintro ⟨h1, h2⟩
      rw [h1, h2]
    · intro h
      exact ⟨congrArg int128_t.Hi h, congrArg int128_t.Lo h⟩
  | n + 1, a, b => by
    obtain ⟨ah, al⟩ := a
    obtain ⟨bh, bl⟩ := b
    show DoubleInt_t.eq _ _ = true ↔ _
    simp only [DoubleInt_t.eq, Bool.and_eq_true, Level.eq_iff n]
    constructor
    · rintro ⟨h1, h2⟩
      rw [h1, h2]
    · intro h
      exact ⟨congrArg DoubleInt_t.Hi h, congrArg DoubleInt_t.Lo h⟩

/-- C31: at every unsigned level, on well-formed values the comparison operators form
a total order: exactly one of `a < b`, `a == b`, `a > b` is true; `a <= b` is true
exactly when `a < b` or `a == b`; `a >= b` exactly when `a > b` or `a == b`; `a != b`
is the negation of `a == b`; `<` is transitive; and `a == b` holds exactly for equal
values. The order is the one of `Level.rank`, the limbs read as `long long` with the
higher limb first. -/
theorem compare_total_order (n : Nat) (a b c : Level n)
    (ha : Level.wf n a = true) (hb : Level.wf n b = true) (hc : Level.wf n c = true) :
    ((BaseInt.lt a b = true ∧ BaseInt.eq a b = false ∧ BaseInt.gt a b = false) ∨
      (BaseInt.lt a b = false ∧ BaseInt.eq a b = true ∧ BaseInt.gt a b = false) ∨
      (BaseInt.lt a b = false ∧ BaseInt.eq a b = false ∧ BaseInt.gt a b = true)) ∧
    BaseInt.le a b = (BaseInt.lt a b || BaseInt.eq a b) ∧
    BaseInt.ge a b = (BaseInt.gt a b || BaseInt.eq a b) ∧
    BaseInt.ne a b = (!BaseInt.eq a b) ∧
    (BaseInt.lt a b = true → BaseInt.lt b c = true → BaseInt.lt a c = true) ∧
    (BaseInt.eq a b = true ↔ a = b) ∧
    (BaseInt.lt a b = true ↔ Level.rank n a < Level.rank n b) := by
  obtain ⟨e, ne, l, le, g, ge, _, _⟩ := Level.compare_rank n a b ha hb
  obtain ⟨_, _, l2, _⟩ := Level.compare_rank n b c hb hc
  obtain ⟨_, _, l3, _⟩ := Level.compare_rank n a c ha hc
  refine ⟨?_, ?_, ?_, ?_, ?_, Level.eq_iff n a b, l⟩
  · rcases Nat.lt_trichotomy (Level.rank n a) (Level.rank n b) with h | h | h
    · exact Or.inl ⟨l.mpr h,
        Bool.eq_false_iff.mpr (fun x => by have := e.mp x; omega),
        Bool.eq_false_iff.mpr (fun x => by have := g.mp x; omega)⟩
    · exact Or.inr (Or.inl ⟨Bool.eq_false_iff.mpr (fun x => by have := l.mp x; omega),
        e.mpr h,
        Bool.eq_false_iff.mpr (fun x => by have := g.mp x; omega)⟩)
    · exact Or.inr (Or.inr ⟨Bool.eq_false_iff.mpr (fun x => by have := l.mp x; omega),
        Bool.eq_false_iff.mpr (fun x => by have := e.mp x; omega),
        g.mpr h⟩)
  · rw [Bool.eq_iff_iff, Bool.or_eq_true, le, l, e]; omega
  · rw [Bool.eq_iff_iff, Bool.or_eq_true, ge, g, e]; omega
  · rw [Bool.eq_iff_iff, ne, Bool.not_eq_true', ← Bool.not_eq_true, e]
  · intro h1 h2
    exact l3.mpr (Nat.lt_trans (l.mp h1) (l2.mp h2))

/-- C31, at 128 bits: `a = 2^63` (top bit of the low limb), `b = 1`, `c = 2^64`. -/
theorem compare_total_order_witness :
    ((BaseInt.lt (⟨0, 2 ^ 63⟩ : Level 0) ⟨0, 1⟩ = true ∧
        BaseInt.eq (⟨0, 2 ^ 63⟩ : Level 0) ⟨0, 1⟩ = false ∧
        BaseInt.gt (⟨0, 2 ^ 63⟩ : Level 0) ⟨0, 1⟩ = false) ∨
      (BaseInt.lt (⟨0, 2 ^ 63⟩ : Level 0) ⟨0, 1⟩ = false ∧
        BaseInt.eq (⟨0, 2 ^ 63⟩ : Level 0) ⟨0, 1⟩ = true ∧
        BaseInt.gt (⟨0, 2 ^ 63⟩ : Level 0) ⟨0, 1⟩ = false) ∨
      (BaseInt.lt (⟨0, 2 ^ 63⟩ : Level 0) ⟨0, 1⟩ = false ∧
        BaseInt.eq (⟨0, 2 ^ 63⟩ : Level 0) ⟨0, 1⟩ = false ∧
        BaseInt.gt (⟨0, 2 ^ 63⟩ : Level 0) ⟨0, 1⟩ = true)) ∧
    (BaseInt.lt (⟨0, 2 ^ 63⟩ : Level 0) ⟨0, 1⟩ = true →
      BaseInt.lt (⟨0, 1⟩ : Level 0) ⟨1, 0⟩ = true →
      BaseInt.lt (⟨0, 2 ^ 63⟩ : Level 0) ⟨1, 0⟩ = true) :=
  have h := compare_total_order 0 ⟨0, 2 ^ 63⟩ ⟨0, 1⟩ ⟨1, 0⟩ (by decide) (by decide) (by decide)
  ⟨h.1, h.2.2.2.2.1⟩
